import Mathlib

/-!
# turbo-Logger: a shallow embedding of the buffer / hand-off pipeline

The development follows the C++ sources

* `include/turbolog/LogBuffer.h`  (class template `LogBuffer<SIZE>`),
* `include/turbolog/Logger.h`, `src/Logger.cpp` (class `Logger`),
* `include/turbolog/LogMacros.h` (the `LOG_*` macros).

Bytes are natural numbers, `std::size_t` is a natural number taken modulo
`2^64`, `off_t` is an integer wrapped into the signed 64-bit range.  A
`std::shared_ptr<LogBuffer<..>>` is an `Option` of a buffer value: every hand
over in the sources is a move (the source pointer is reset or overwritten right
after the copy), so no buffer is ever reachable through two pointers and value
semantics is exact.  A null dereference is the result `none`.

Every block that runs under `mutex_` is one atomic step.  The background thread
`threadFunc` is cut at the point where it releases the mutex: its critical
section (lines 66-82) and its unlocked write section (lines 84-123) are separate
steps, so producers may run between them.  The write section is one step as
well: it works on the locals of the thread, on `_ofs` and on `written_bytes_`,
which no producer touches.  The answers of the operating system (clock, rename,
open) are inputs of that step; a write to an open stream is taken to succeed.
-/

namespace turbolog

/-- One `char` of log data. -/
abbrev Byte := Nat

/-- The bytes of an ASCII string literal. -/
def str (s : String) : List Byte := s.toList.map Char.toNat

/-- Number of values of `std::size_t`. -/
def SIZE_MOD : Nat := 2 ^ 64

/-! ## `LogBuffer<SIZE>` (LogBuffer.h) -/

/-- The class `LogBuffer<SIZE>`: the whole storage array `_data` (also the part
behind the cursor, which `reset` does not zero) and the cursor `_cur`. -/
structure LogBuffer (SIZE : Nat) where
  _data : List Byte
  _cur : Nat
deriving DecidableEq, Repr

namespace LogBuffer

variable {SIZE : Nat}

/-- Constructor `LogBuffer() : _cur(0)`.  The array is left uninitialised by the
source; the model fills it with zeros. -/
def new (SIZE : Nat) : LogBuffer SIZE :=
  { _data := List.replicate SIZE 0, _cur := 0 }

/-- The member `avail()`: `SIZE - _cur`, computed in `std::size_t`. -/
def avail (b : LogBuffer SIZE) : Nat :=
  (SIZE + SIZE_MOD - b._cur % SIZE_MOD) % SIZE_MOD

/-- The member `length()`. -/
def length (b : LogBuffer SIZE) : Nat := b._cur

/-- The member `capacity()`. -/
def capacity (_b : LogBuffer SIZE) : Nat := SIZE

/-- The bytes `data()[0 .. length())`: what the writer hands to the file. -/
def contents (b : LogBuffer SIZE) : List Byte := b._data.take b._cur

/-- The member `append(buf, len)` of the default build (`TURBOLOG_SAFE_APPEND`
undefined): `if (len > avail()) return; memcpy(_data + _cur, buf, len);
_cur += len;`.  The byte string `buf` has exactly `len` elements. -/
def append (b : LogBuffer SIZE) (buf : List Byte) : LogBuffer SIZE :=
  if buf.length > b.avail then b
  else
    { _data := b._data.take b._cur ++ buf ++ b._data.drop (b._cur + buf.length),
      _cur := (b._cur + buf.length) % SIZE_MOD }

/-- The member `reset()`: `_cur = 0`, the array is not touched. -/
def reset (b : LogBuffer SIZE) : LogBuffer SIZE := { b with _cur := 0 }

/-- The member `bzero()`, an alias of `reset()`. -/
def bzero (b : LogBuffer SIZE) : LogBuffer SIZE := b.reset

/-- The states a `LogBuffer<SIZE>` object can be in: the array has `SIZE`
elements, `SIZE` is a valid `int` template argument and the cursor is inside
the array. -/
def WF (b : LogBuffer SIZE) : Prop :=
  b._data.length = SIZE ∧ b._cur ≤ SIZE ∧ SIZE < 2 ^ 31

instance (b : LogBuffer SIZE) : Decidable b.WF := by
  unfold WF; infer_instance

end LogBuffer

/-! ## `Logger` (Logger.h, Logger.cpp) -/

/-- The enumeration `enum class LogLevel`. -/
inductive LogLevel where
  | DEBUG | INFO | WARN | ERROR | FATAL
deriving DecidableEq, Repr

/-- The value `static_cast<int>(lvl)`. -/
def LogLevel.toInt : LogLevel → Int
  | .DEBUG => 0
  | .INFO => 1
  | .WARN => 2
  | .ERROR => 3
  | .FATAL => 4

/-- The function `LogLevelToString`. -/
def LogLevelToString : LogLevel → String
  | .DEBUG => "DEBUG"
  | .INFO => "INFO"
  | .WARN => "WARN"
  | .ERROR => "ERROR"
  | .FATAL => "FATAL"

/-- The constant `Logger::DefaultBufferSize`. -/
def DefaultBufferSize : Nat := 4096

/-- The buffer type the logger uses, `LogBuffer<DefaultBufferSize>`. -/
abbrev Buf := LogBuffer DefaultBufferSize

/-- The result of `std::make_shared<LogBuffer<DefaultBufferSize>>()`. -/
def make_shared : Buf := LogBuffer.new DefaultBufferSize

/-- Wrap an integer into the range of `off_t` (signed, 64 bit). -/
def wrapOff (x : Int) : Int := (x + 2 ^ 63) % 2 ^ 64 - 2 ^ 63

/-- The data members of `Logger`.  `_ofs` is `some p` while the stream is open
on the path `p`.  `buffers_queue_` holds no null pointer: every `push_back` in
the sources pushes a pointer that was dereferenced or tested just before. -/
structure Logger where
  _ofs : Option String
  _level : LogLevel
  running_ : Bool
  current_buffer_ : Option Buf
  next_buffer_ : Option Buf
  buffers_queue_ : List Buf
  written_bytes_ : Int
  roll_size_ : Int
  log_file_name_ : String
deriving DecidableEq, Repr

namespace Logger

/-- The constructor `Logger::Logger()` (data members only; the thread it starts
is `ThreadFunc.start`). -/
def new : Logger :=
  { _ofs := none
    _level := LogLevel.DEBUG
    running_ := true
    current_buffer_ := some make_shared
    next_buffer_ := some make_shared
    buffers_queue_ := []
    written_bytes_ := 0
    roll_size_ := 100 * 1024 * 1024
    log_file_name_ := "" }

/-- The member `setLevel`. -/
def setLevel (lg : Logger) (lvl : LogLevel) : Logger := { lg with _level := lvl }

/-- The member `level`. -/
def level (lg : Logger) : LogLevel := lg._level

/-- The member `isEnabled`. -/
def isEnabled (lg : Logger) (lvl : LogLevel) : Bool :=
  decide (lvl.toInt ≥ lg._level.toInt)

/-- The member `set_roll_size`. -/
def set_roll_size (lg : Logger) (sz : Int) : Logger := { lg with roll_size_ := sz }

/-- The member `set_log_file`. -/
def set_log_file (lg : Logger) (name : String) : Logger :=
  { lg with log_file_name_ := name }

/-- The member `Logger::append(data, len)` (Logger.cpp 39-58), one critical
section.  `none` is the dereference of a null `current_buffer_`. -/
def append (lg : Logger) (data : List Byte) : Option Logger :=
  if data.length = 0 then some lg
  else
    match lg.current_buffer_ with
    | none => none
    | some cur =>
      if cur.avail ≥ data.length then
        some { lg with current_buffer_ := some (cur.append data) }
      else
        let fresh : Buf :=
          match lg.next_buffer_ with
          | some nxt => nxt
          | none => make_shared
        some { lg with
                buffers_queue_ := lg.buffers_queue_ ++ [cur]
                current_buffer_ := some (fresh.append data)
                next_buffer_ := none }

/-- The member `Logger::flush()` (Logger.cpp 127-134), one critical section. -/
def flush (lg : Logger) : Logger :=
  match lg.current_buffer_ with
  | some cur =>
    if cur.length > 0 then
      { lg with
          buffers_queue_ := lg.buffers_queue_ ++ [cur]
          current_buffer_ := some make_shared }
    else lg
  | none => lg

/-- The critical section of the destructor `Logger::~Logger()` (Logger.cpp
22-30); the `join` that follows waits for `threadFunc` to leave its loop. -/
def destroy (lg : Logger) : Logger :=
  let lg1 := { lg with running_ := false }
  match lg1.current_buffer_ with
  | some cur =>
    if cur.length > 0 then
      { lg1 with
          buffers_queue_ := lg1.buffers_queue_ ++ [cur]
          current_buffer_ := some make_shared }
    else lg1
  | none => lg1

end Logger

/-! ### Formatting (`snprintf`, `vsnprintf`) -/

/-- The C library call `snprintf(buf, size, ...)`/`vsnprintf`: `text` is the
complete formatted text (`none` for an encoding error).  The result is the
return value and the bytes stored in front of the terminating NUL. -/
def snprintf (size : Nat) (text : Option (List Byte)) : Int × List Byte :=
  match text with
  | none => (-1, [])
  | some t =>
    if t.length < 2 ^ 31 then ((t.length : Int), t.take (size - 1)) else (-1, [])

/-- The text of the header format `"[%s] [%s] %s:%d "`. -/
def headerText (ts : List Byte) (level : LogLevel) (file : List Byte) (line : Int) :
    List Byte :=
  str "[" ++ ts ++ str "] [" ++ str (LogLevelToString level) ++ str "] " ++ file
    ++ str ":" ++ str (toString line) ++ str " "

/-- The three byte strings `Logger::Log` passes to `append`, in this order
(Logger.cpp 172-191), or `none` when it returns early (`n < 0`, `hn < 0`).
`ts` is the formatted time stamp, `msg` the complete text of the formatted
message. -/
def Log_parts (level : LogLevel) (ts file : List Byte) (line : Int)
    (msg : Option (List Byte)) : Option (List Byte × List Byte × List Byte) :=
  let (n, msgbuf) := snprintf DefaultBufferSize msg
  if n < 0 then none
  else
    let msglen : Nat := if n.toNat ≥ DefaultBufferSize then DefaultBufferSize - 1 else n.toNat
    let (hn, header) := snprintf 256 (some (headerText ts level file line))
    if hn < 0 then none
    else
      let hlen : Nat := if hn.toNat ≥ 256 then 256 - 1 else hn.toNat
      some (header.take hlen, msgbuf.take msglen, [10])

namespace Logger

/-- The member `Logger::Log` run without interruption: three calls of `append`,
each of which takes the mutex on its own. -/
def Log (lg : Logger) (level : LogLevel) (ts file : List Byte) (line : Int)
    (msg : Option (List Byte)) : Option Logger :=
  match Log_parts level ts file line msg with
  | none => some lg
  | some (header, body, nl) =>
    (lg.append header).bind fun lg1 => (lg1.append body).bind fun lg2 => lg2.append nl

/-- The common shape of the macros `LOG_DEBUG`, `LOG_INFO`, `LOG_WARN` and
`LOG_ERROR` (LogMacros.h): `if (isEnabled(L)) Log(L, __FILE__, __LINE__, ...)`. -/
def LOG (lg : Logger) (level : LogLevel) (ts file : List Byte) (line : Int)
    (msg : Option (List Byte)) : Option Logger :=
  if lg.isEnabled level then lg.Log level ts file line msg else some lg

/-- The macro `LOG_DEBUG`. -/
def LOG_DEBUG (lg : Logger) := lg.LOG LogLevel.DEBUG

/-- The macro `LOG_INFO`. -/
def LOG_INFO (lg : Logger) := lg.LOG LogLevel.INFO

/-- The macro `LOG_WARN`. -/
def LOG_WARN (lg : Logger) := lg.LOG LogLevel.WARN

/-- The macro `LOG_ERROR`. -/
def LOG_ERROR (lg : Logger) := lg.LOG LogLevel.ERROR

end Logger

/-! ## The file system behind `_ofs` -/

/-- The files on disk, by name. -/
abbrev FileSys := List (String × List Byte)

namespace FileSys

/-- The content of the file `p`, if it exists. -/
def read (fs : FileSys) (p : String) : Option (List Byte) :=
  (fs.find? fun e => e.1 == p).map Prod.snd

/-- The effect of `_ofs.write` on a stream opened in append mode on `p`: the
bytes go to the end of the file. -/
def write (fs : FileSys) (p : String) (bytes : List Byte) : FileSys :=
  match fs.read p with
  | some _ => fs.map fun e => if e.1 == p then (e.1, e.2 ++ bytes) else e
  | none => fs ++ [(p, bytes)]

/-- The call `std::rename(old, new)`: fails (`none`) when `old` does not
exist, replaces an existing `new`. -/
def rename (fs : FileSys) (old new : String) : Option FileSys :=
  match fs.read old with
  | none => none
  | some c =>
    if old = new then some fs
    else some ((fs.filter fun e => !(e.1 == old) && !(e.1 == new)) ++ [(new, c)])

/-- The effect on disk of opening `p` with `ios::out | ios::app`: the file is
created empty when it does not exist and kept as it is otherwise. -/
def openApp (fs : FileSys) (p : String) : FileSys :=
  match fs.read p with
  | some _ => fs
  | none => fs ++ [(p, [])]

end FileSys

/-! ## `Logger::threadFunc` and the whole system -/

/-- Where the background thread stands: about to enter the critical section at
the head of the loop, inside the unlocked write section, or behind the `break`. -/
inductive Pc where
  | head | writing | exited
deriving DecidableEq, Repr

/-- The locals of `Logger::threadFunc`. -/
structure ThreadFunc where
  newPtr1 : Option Buf
  newPtr2 : Option Buf
  buffers_to_write : List Buf
  pc : Pc
deriving DecidableEq, Repr

/-- The locals at the first loop head (Logger.cpp 61-63). -/
def ThreadFunc.start : ThreadFunc :=
  { newPtr1 := some make_shared, newPtr2 := some make_shared,
    buffers_to_write := [], pc := Pc.head }

/-- What the operating system answers during one rotation: the time stamp
suffix `.YYYYMMDD-HHMMSS` of the clock, whether `std::rename` is permitted and
whether the reopening succeeds. -/
structure Env where
  ts : String
  renameOk : Bool
  openOk : Bool
deriving DecidableEq, Repr

/-- The logger object, its background thread and the disk. -/
structure World where
  lg : Logger
  th : ThreadFunc
  fs : FileSys
deriving DecidableEq, Repr

/-- All bytes held by a list of buffers, in list order. -/
def bytesOf (bs : List Buf) : List Byte := (bs.map LogBuffer.contents).flatten

/-- The bytes held by a buffer pointer (none for a null pointer). -/
def bytesOfPtr (b : Option Buf) : List Byte :=
  match b with
  | some x => x.contents
  | none => []

/-- The bytes buffered on the producer side, oldest first: the pending queue,
then the active buffer. -/
def Logger.buffered (lg : Logger) : List Byte :=
  bytesOf lg.buffers_queue_ ++ bytesOfPtr lg.current_buffer_

namespace World

/-- The critical section of `threadFunc` (Logger.cpp 66-82), entered after
`wait_for` returned (on a signal or on its timeout). -/
def threadFunc_lock (w : World) : World :=
  let lg := w.lg
  let th := w.th
  -- if (current_buffer_ && current_buffer_->length() > 0) push and clear
  let (cur1, q1) : Option Buf × List Buf :=
    match lg.current_buffer_ with
    | some c => if c.length > 0 then (none, lg.buffers_queue_ ++ [c])
                else (some c, lg.buffers_queue_)
    | none => (none, lg.buffers_queue_)
  -- if (!current_buffer_) take newPtr1
  let (cur2, np1) : Option Buf × Option Buf :=
    match cur1 with
    | none => (th.newPtr1, none)
    | some c => (some c, th.newPtr1)
  -- if (!next_buffer_) take newPtr2
  let (nxt2, np2) : Option Buf × Option Buf :=
    match lg.next_buffer_ with
    | none => (th.newPtr2, none)
    | some n => (some n, th.newPtr2)
  -- buffers_queue_.swap(buffers_to_write); break when stopped and empty
  { w with
    lg := { lg with current_buffer_ := cur2, next_buffer_ := nxt2,
                    buffers_queue_ := th.buffers_to_write }
    th := { newPtr1 := np1, newPtr2 := np2, buffers_to_write := q1,
            pc := if !lg.running_ && q1.isEmpty then Pc.exited else Pc.writing } }

/-- The write loop of `threadFunc` (Logger.cpp 84-89) over the drained
buffers: the disk and the counter `written_bytes_` after it. -/
def writeAll (ofs : Option String) (bufs : List Buf) (fs : FileSys) (written : Int) :
    FileSys × Int :=
  match bufs with
  | [] => (fs, written)
  | b :: rest =>
    match ofs with
    | some p =>
      if b.length > 0 then
        writeAll ofs rest (fs.write p b.contents) (wrapOff (written + b.length))
      else writeAll ofs rest fs written
    | none => writeAll ofs rest fs written

/-- The rotation test of Logger.cpp 92. -/
def rotates (ofs : Option String) (written roll : Int) (name : String) : Bool :=
  decide (written > roll) && ofs.isSome && !name.isEmpty

/-- The rotation block (Logger.cpp 93-109): close, rename the base file to
`<base><ts>`, reopen the base name in append mode, clear the counter.  A failed
rename is ignored; a failed reopening leaves the stream closed. -/
def rotate (lg : Logger) (fs : FileSys) (env : Env) : Logger × FileSys :=
  let new_name := lg.log_file_name_ ++ env.ts
  let fs1 : FileSys :=
    if env.renameOk then
      match fs.rename lg.log_file_name_ new_name with
      | some f => f
      | none => fs
    else fs
  if env.openOk then
    ({ lg with _ofs := some lg.log_file_name_, written_bytes_ := 0 },
      fs1.openApp lg.log_file_name_)
  else ({ lg with _ofs := none, written_bytes_ := 0 }, fs1)

/-- The recycling block (Logger.cpp 112-123): the two cache pointers after it. -/
def recycle (np1 np2 : Option Buf) (bufs : List Buf) : Option Buf × Option Buf :=
  let b0 := if bufs.length > 2 then bufs.take 2 else bufs
  let (n1, b1) : Option Buf × List Buf :=
    if np1.isNone && !b0.isEmpty then (b0.getLast?, b0.dropLast) else (np1, b0)
  let (n2, _b2) : Option Buf × List Buf :=
    if np2.isNone && !b1.isEmpty then (b1.getLast?, b1.dropLast) else (np2, b1)
  (n1.map LogBuffer.reset, n2.map LogBuffer.reset)

/-- The unlocked section of `threadFunc` (Logger.cpp 84-123): write, flush,
rotate, recycle; the thread is back at the loop head afterwards. -/
def threadFunc_write (w : World) (env : Env) : World :=
  let (fs1, written1) :=
    writeAll w.lg._ofs w.th.buffers_to_write w.fs w.lg.written_bytes_
  let lg1 := { w.lg with written_bytes_ := written1 }
  let (lg2, fs2) :=
    if rotates lg1._ofs lg1.written_bytes_ lg1.roll_size_ lg1.log_file_name_
    then rotate lg1 fs1 env else (lg1, fs1)
  let (n1, n2) := recycle w.th.newPtr1 w.th.newPtr2 w.th.buffers_to_write
  { lg := lg2, fs := fs2,
    th := { newPtr1 := n1, newPtr2 := n2, buffers_to_write := [], pc := Pc.head } }

/-- The next step of the background thread, whatever it is. -/
def threadFunc_step (w : World) (env : Env) : World :=
  match w.th.pc with
  | Pc.head => w.threadFunc_lock
  | Pc.writing => w.threadFunc_write env
  | Pc.exited => w

/-- A logger right after construction, on the disk `fs`. -/
def boot (fs : FileSys) : World :=
  { lg := Logger.new, th := ThreadFunc.start, fs := fs }

/-- The member `Logger::init(filename)`; `openOk` tells whether the operating
system lets the file be opened.  (The signal handler it installs is not part of
the model.) -/
def init (w : World) (filename : String) (openOk : Bool) : World :=
  match w.lg._ofs with
  | some _ => w
  | none =>
    if openOk then
      { w with lg := { w.lg with _ofs := some filename, log_file_name_ := filename }
               fs := w.fs.openApp filename }
    else { w with lg := { w.lg with log_file_name_ := filename } }

/-- The member `Logger::set_roll_size` on the whole system. -/
def set_roll_size (w : World) (sz : Int) : World := { w with lg := w.lg.set_roll_size sz }

/-- The member `Logger::set_log_file` on the whole system. -/
def set_log_file (w : World) (name : String) : World :=
  { w with lg := w.lg.set_log_file name }

/-- The member `Logger::setLevel` on the whole system. -/
def setLevel (w : World) (lvl : LogLevel) : World := { w with lg := w.lg.setLevel lvl }

/-- The bytes of the file the stream is open on (none when it is closed). -/
def file (w : World) : List Byte :=
  match w.lg._ofs with
  | some p => (w.fs.read p).getD []
  | none => []

/-- The bytes that are buffered but not yet written, oldest first: the list
the writer is draining, the pending queue, the active buffer. -/
def pending (w : World) : List Byte :=
  bytesOf w.th.buffers_to_write ++ w.lg.buffered

end World

/-- One atomic step of the system: a producer's `Logger::append`, a
`Logger::flush`, the destructor's critical section, or the next step of the
background thread. -/
inductive Step where
  | append (data : List Byte)
  | flush
  | destroy
  | writer (env : Env)
deriving DecidableEq, Repr

/-- The effect of one step; `none` is a null dereference in `Logger::append`. -/
def World.step (w : World) : Step → Option World
  | Step.append data => (w.lg.append data).map fun lg => { w with lg := lg }
  | Step.flush => some { w with lg := w.lg.flush }
  | Step.destroy => some { w with lg := w.lg.destroy }
  | Step.writer env => some (w.threadFunc_step env)

/-- The effect of a schedule, a list of steps in the order in which they take
the mutex. -/
def World.run (w : World) : List Step → Option World
  | [] => some w
  | s :: rest => (w.step s).bind fun w1 => w1.run rest

/-- The byte strings handed to `Logger::append` by a schedule, in call order. -/
def appended : List Step → List Byte
  | [] => []
  | Step.append data :: rest => data ++ appended rest
  | _ :: rest => appended rest

/-! ## What a run does to the disk -/

/-- The bytes a step hands to `_ofs.write`: in the write section, with the
stream open, the bytes of every drained buffer with `length() > 0`, in order
(Logger.cpp 84-89); nothing in any other step. -/
def World.stepBytes (w : World) : Step → List Byte
  | Step.writer _ =>
    if w.th.pc = Pc.writing ∧ w.lg._ofs.isSome then
      bytesOf (w.th.buffers_to_write.filter fun b => decide (b.length > 0))
    else []
  | _ => []

/-- The time stamp of the rotation a step performs: the write section rotates
when the test of Logger.cpp 92 holds after the write loop. -/
def World.stepStamps (w : World) : Step → List String
  | Step.writer env =>
    if w.th.pc = Pc.writing ∧
        World.rotates w.lg._ofs
          (World.writeAll w.lg._ofs w.th.buffers_to_write w.fs w.lg.written_bytes_).2
          w.lg.roll_size_ w.lg.log_file_name_ = true
    then [env.ts] else []
  | _ => []

/-- All bytes written to the stream in the course of a schedule, in order. -/
def World.writtenBy (w : World) : List Step → List Byte
  | [] => []
  | s :: rest =>
    w.stepBytes s ++
      (match w.step s with
       | some w1 => w1.writtenBy rest
       | none => [])

/-- The time stamps of the rotations performed in the course of a schedule. -/
def World.rotationStamps (w : World) : List Step → List String
  | [] => []
  | s :: rest =>
    w.stepStamps s ++
      (match w.step s with
       | some w1 => w1.rotationStamps rest
       | none => [])

/-- The total number of bytes in all files on disk. -/
def FileSys.diskBytes (fs : FileSys) : Nat := (fs.map fun e => e.2.length).sum

/-! ## Invariant of the reachable states -/

/-- A freshly constructed logger (any configuration of level, threshold, file
name and stream): both buffers new, nothing queued, the background thread at
its first loop head. -/
def World.Fresh (w : World) : Prop :=
  w.lg.current_buffer_ = some make_shared ∧ w.lg.next_buffer_ = some make_shared ∧
  w.lg.buffers_queue_ = [] ∧ w.lg.running_ = true ∧ w.lg.written_bytes_ = 0 ∧
  w.th = ThreadFunc.start

/-- The invariant of the buffer hand-off: the active buffer is present, a
present spare or cache buffer is reset, the queue is non-empty while the spare
slot is empty, and the thread's cache is full at the loop head and can be
refilled from the drained list in the write section. -/
structure Inv (w : World) : Prop where
  cur : ∃ c, w.lg.current_buffer_ = some c ∧ c.WF
  next : ∀ n, w.lg.next_buffer_ = some n → n.WF ∧ n.length = 0
  next_none : w.lg.next_buffer_ = none → w.lg.buffers_queue_ ≠ []
  queue : ∀ b ∈ w.lg.buffers_queue_, b.WF
  btw : ∀ b ∈ w.th.buffers_to_write, b.WF
  np1 : ∀ b, w.th.newPtr1 = some b → b.WF ∧ b.length = 0
  np2 : ∀ b, w.th.newPtr2 = some b → b.WF ∧ b.length = 0
  head : w.th.pc = Pc.head →
    w.th.buffers_to_write = [] ∧ w.th.newPtr1 ≠ none ∧ w.th.newPtr2 ≠ none
  writing : w.th.pc = Pc.writing →
    (w.th.newPtr1 = none → w.th.buffers_to_write ≠ []) ∧
    (w.th.newPtr2 = none → w.th.buffers_to_write ≠ []) ∧
    (w.th.newPtr1 = none → w.th.newPtr2 = none → 2 ≤ w.th.buffers_to_write.length)
  exited : w.th.pc = Pc.exited → w.th.buffers_to_write = []

/-- The stream is open on `p`, the file `p` is on disk, and the counter
`written_bytes_` and the threshold `roll_size_` are values of `off_t` with a
non-negative counter. -/
structure Opened (w : World) (p : String) : Prop where
  ofs : w.lg._ofs = some p
  onDisk : ∃ c, w.fs.read p = some c
  counter : 0 ≤ w.lg.written_bytes_
  roll : w.lg.roll_size_ < 2 ^ 63

/-- The members of `Logger` that no critical section of a producer changes. -/
def Logger.SameConfig (a b : Logger) : Prop :=
  a._ofs = b._ofs ∧ a.written_bytes_ = b.written_bytes_ ∧ a.roll_size_ = b.roll_size_ ∧
  a.log_file_name_ = b.log_file_name_ ∧ a._level = b._level

/-- The disk of a logger that rotates its base file `p`: the rotated files `R`,
named `p` followed by the time stamps `done`, then the base file with the
content `c`, whose length is the counter `written_bytes_`. -/
structure Rot (w : World) (p : String) (R : FileSys) (c : List Byte) (done : List String) :
    Prop where
  inv : Inv w
  ofs : w.lg._ofs = some p
  name : w.lg.log_file_name_ = p
  fs : w.fs = R ++ [(p, c)]
  names : R.map Prod.fst = done.map fun t => p ++ t
  stamps : ∀ t ∈ done, t ≠ ""
  counter : w.lg.written_bytes_ = (c.length : Int)
  below : (c.length : Int) ≤ w.lg.roll_size_
  roll : w.lg.roll_size_ < 2 ^ 63

/-! ## Sequences of operations on one buffer -/

/-- One call on a `LogBuffer`: `append(buf, len)` or `reset()`. -/
inductive BufOp where
  | append (buf : List Byte)
  | reset
deriving DecidableEq, Repr

/-- The effect of one call. -/
def LogBuffer.apply {SIZE : Nat} (b : LogBuffer SIZE) : BufOp → LogBuffer SIZE
  | BufOp.append buf => b.append buf
  | BufOp.reset => b.reset

/-- The effect of a sequence of calls, first call first. -/
def LogBuffer.applyAll {SIZE : Nat} (b : LogBuffer SIZE) : List BufOp → LogBuffer SIZE
  | [] => b
  | op :: rest => (b.apply op).applyAll rest

/-! ## The buffers as heap objects

A second embedding of the same code in which a `std::shared_ptr` is the address
of a heap object and `std::make_shared` hands out a new address.  It is the one
in which the ownership of a buffer can be told; its dereferenced image is the
embedding above. -/

/-- The address of a `LogBuffer` object on the heap. -/
abbrev Addr := Nat

/-- The logger, its background thread and the disk, with the heap: `store` is
the object at each address, `fresh` the next address `std::make_shared` hands
out. -/
structure Mem where
  store : Addr → Buf
  fresh : Addr
  _ofs : Option String
  _level : LogLevel
  running_ : Bool
  current_buffer_ : Option Addr
  next_buffer_ : Option Addr
  buffers_queue_ : List Addr
  written_bytes_ : Int
  roll_size_ : Int
  log_file_name_ : String
  newPtr1 : Option Addr
  newPtr2 : Option Addr
  buffers_to_write : List Addr
  pc : Pc
  fs : FileSys

namespace Mem

/-- The constructor `Logger::Logger()` and the first two lines of `threadFunc`:
four calls of `std::make_shared`. -/
def boot (fs : FileSys) : Mem :=
  { store := fun _ => make_shared
    fresh := 4
    _ofs := none
    _level := LogLevel.DEBUG
    running_ := true
    current_buffer_ := some 0
    next_buffer_ := some 1
    buffers_queue_ := []
    written_bytes_ := 0
    roll_size_ := 100 * 1024 * 1024
    log_file_name_ := ""
    newPtr1 := some 2
    newPtr2 := some 3
    buffers_to_write := []
    pc := Pc.head
    fs := fs }

/-- The member `Logger::append(data, len)` (Logger.cpp 39-58) on the heap. -/
def append (m : Mem) (data : List Byte) : Option Mem :=
  if data.length = 0 then some m
  else
    match m.current_buffer_ with
    | none => none
    | some a =>
      if (m.store a).avail ≥ data.length then
        some { m with store := Function.update m.store a ((m.store a).append data) }
      else
        -- push_back(current_buffer_); current_buffer_ = std::move(next_buffer_) or a new
        -- object; next_buffer_.reset(); current_buffer_->append(data, len)
        match m.next_buffer_ with
        | some n =>
          some { m with
                  buffers_queue_ := m.buffers_queue_ ++ [a]
                  current_buffer_ := some n
                  next_buffer_ := none
                  store := Function.update m.store n ((m.store n).append data) }
        | none =>
          some { m with
                  buffers_queue_ := m.buffers_queue_ ++ [a]
                  current_buffer_ := some m.fresh
                  next_buffer_ := none
                  store := Function.update m.store m.fresh (make_shared.append data)
                  fresh := m.fresh + 1 }

/-- The member `Logger::flush()` (Logger.cpp 127-134) on the heap. -/
def flush (m : Mem) : Mem :=
  match m.current_buffer_ with
  | some a =>
    if (m.store a).length > 0 then
      { m with
          buffers_queue_ := m.buffers_queue_ ++ [a]
          current_buffer_ := some m.fresh
          store := Function.update m.store m.fresh make_shared
          fresh := m.fresh + 1 }
    else m
  | none => m

/-- The critical section of `Logger::~Logger()` (Logger.cpp 22-30) on the
heap. -/
def destroy (m : Mem) : Mem :=
  let m1 := { m with running_ := false }
  match m1.current_buffer_ with
  | some a =>
    if (m1.store a).length > 0 then
      { m1 with
          buffers_queue_ := m1.buffers_queue_ ++ [a]
          current_buffer_ := some m1.fresh
          store := Function.update m1.store m1.fresh make_shared
          fresh := m1.fresh + 1 }
    else m1
  | none => m1

/-- The critical section of `threadFunc` (Logger.cpp 66-82) on the heap. -/
def threadFunc_lock (m : Mem) : Mem :=
  let (cur1, q1) : Option Addr × List Addr :=
    match m.current_buffer_ with
    | some a => if (m.store a).length > 0 then (none, m.buffers_queue_ ++ [a])
                else (some a, m.buffers_queue_)
    | none => (none, m.buffers_queue_)
  let (cur2, np1) : Option Addr × Option Addr :=
    match cur1 with
    | none => (m.newPtr1, none)
    | some a => (some a, m.newPtr1)
  let (nxt2, np2) : Option Addr × Option Addr :=
    match m.next_buffer_ with
    | none => (m.newPtr2, none)
    | some n => (some n, m.newPtr2)
  { m with
    current_buffer_ := cur2, next_buffer_ := nxt2, buffers_queue_ := m.buffers_to_write
    newPtr1 := np1, newPtr2 := np2, buffers_to_write := q1,
    pc := if !m.running_ && q1.isEmpty then Pc.exited else Pc.writing }

/-- The pointers kept by the recycling block (Logger.cpp 112-120). -/
def recycle (np1 np2 : Option Addr) (bufs : List Addr) : Option Addr × Option Addr :=
  let b0 := if bufs.length > 2 then bufs.take 2 else bufs
  let (n1, b1) : Option Addr × List Addr :=
    if np1.isNone && !b0.isEmpty then (b0.getLast?, b0.dropLast) else (np1, b0)
  let (n2, _b2) : Option Addr × List Addr :=
    if np2.isNone && !b1.isEmpty then (b1.getLast?, b1.dropLast) else (np2, b1)
  (n1, n2)

/-- The call `if (p) p->reset()` on the heap. -/
def resetAt (store : Addr → Buf) (p : Option Addr) : Addr → Buf :=
  match p with
  | some a => Function.update store a (store a).reset
  | none => store

/-- The unlocked section of `threadFunc` (Logger.cpp 84-123) on the heap.  The
write loop is `World.writeAll` on the objects the drained pointers refer to; the
rotation block (Logger.cpp 93-109) touches no pointer and is written out here
field by field, as in `World.rotate`. -/
def threadFunc_write (m : Mem) (env : Env) : Mem :=
  let (fs1, written1) :=
    World.writeAll m._ofs (m.buffers_to_write.map m.store) m.fs m.written_bytes_
  let (ofs2, written2, fs2) : Option String × Int × FileSys :=
    if World.rotates m._ofs written1 m.roll_size_ m.log_file_name_ then
      let new_name := m.log_file_name_ ++ env.ts
      let fs' : FileSys :=
        if env.renameOk then
          match fs1.rename m.log_file_name_ new_name with
          | some f => f
          | none => fs1
        else fs1
      if env.openOk then (some m.log_file_name_, 0, fs'.openApp m.log_file_name_)
      else (none, 0, fs')
    else (m._ofs, written1, fs1)
  let (n1, n2) := recycle m.newPtr1 m.newPtr2 m.buffers_to_write
  { m with
    _ofs := ofs2, written_bytes_ := written2, fs := fs2
    store := resetAt (resetAt m.store n1) n2
    newPtr1 := n1, newPtr2 := n2, buffers_to_write := [], pc := Pc.head }

/-- The next step of the background thread on the heap. -/
def threadFunc_step (m : Mem) (env : Env) : Mem :=
  match m.pc with
  | Pc.head => m.threadFunc_lock
  | Pc.writing => m.threadFunc_write env
  | Pc.exited => m

/-- The effect of one step on the heap; `none` is a null dereference. -/
def step (m : Mem) : Step → Option Mem
  | Step.append data => m.append data
  | Step.flush => some m.flush
  | Step.destroy => some m.destroy
  | Step.writer env => some (m.threadFunc_step env)

/-- The effect of a schedule on the heap. -/
def run (m : Mem) : List Step → Option Mem
  | [] => some m
  | s :: rest => (m.step s).bind fun m1 => m1.run rest

/-- The buffers a producer can reach: the active slot, the spare slot, the
positions of the pending queue. -/
def producerSide (m : Mem) : List Addr :=
  m.current_buffer_.toList ++ m.next_buffer_.toList ++ m.buffers_queue_

/-- The buffers the background thread holds: its drained list and its two
cache slots. -/
def writerSide (m : Mem) : List Addr :=
  m.buffers_to_write ++ m.newPtr1.toList ++ m.newPtr2.toList

/-- Every pointer held anywhere, slot by slot. -/
def holders (m : Mem) : List Addr := m.producerSide ++ m.writerSide

/-- The dereferenced image of a heap state. -/
def deref (m : Mem) : World :=
  { lg :=
      { _ofs := m._ofs
        _level := m._level
        running_ := m.running_
        current_buffer_ := m.current_buffer_.map m.store
        next_buffer_ := m.next_buffer_.map m.store
        buffers_queue_ := m.buffers_queue_.map m.store
        written_bytes_ := m.written_bytes_
        roll_size_ := m.roll_size_
        log_file_name_ := m.log_file_name_ }
    th :=
      { newPtr1 := m.newPtr1.map m.store
        newPtr2 := m.newPtr2.map m.store
        buffers_to_write := m.buffers_to_write.map m.store
        pc := m.pc }
    fs := m.fs }

/-- A freshly constructed logger on the heap (any configuration): four new
objects at the addresses 0 to 3. -/
def Fresh (m : Mem) : Prop :=
  m.current_buffer_ = some 0 ∧ m.next_buffer_ = some 1 ∧ m.newPtr1 = some 2 ∧
  m.newPtr2 = some 3 ∧ m.fresh = 4 ∧ m.buffers_queue_ = [] ∧ m.buffers_to_write = [] ∧
  m.pc = Pc.head ∧ m.running_ = true ∧ m.written_bytes_ = 0 ∧
  ∀ a, a < 4 → m.store a = make_shared

end Mem

/-- Exclusive ownership: no address is held twice, and every address held is
one that `std::make_shared` handed out. -/
structure Own (m : Mem) : Prop where
  nodup : m.holders.Nodup
  alloc : ∀ a ∈ m.holders, a < m.fresh

/-- The log as it lies on disk: the content of the rotated files `p ++ t` for
the time stamps `t`, in the given order, followed by the content of the base
file `p`; a file that does not exist contributes nothing. -/
def FileSys.logOnDisk (fs : FileSys) (p : String) (stamps : List String) : List Byte :=
  (stamps.map fun t => (fs.read (p ++ t)).getD []).flatten ++ (fs.read p).getD []

/-- No write section of the schedule finds the stream closed: whenever the
background thread runs its write section (Logger.cpp 84-123), `_ofs.is_open()`
holds at its start. -/
def World.openWrites (w : World) : List Step → Bool
  | [] => true
  | s :: rest =>
    (match s with
     | Step.writer _ => decide (w.th.pc ≠ Pc.writing) || w.lg._ofs.isSome
     | _ => true) &&
    (match w.step s with
     | some w1 => w1.openWrites rest
     | none => true)

/-- What a logger that writes to the base file `p` and rotates it keeps on
disk: the file name of the logger is `p`; the stream is open on `p`, which
exists, or closed; the time stamps of the rotations so far (`done`) and still to
come (`todo`) are pairwise different and not empty; no file carries the name of
a rotation still to come. -/
structure Kept (w : World) (p : String) (done todo : List String) : Prop where
  name : w.lg.log_file_name_ = p
  stream : (w.lg._ofs = some p ∧ ∃ c, w.fs.read p = some c) ∨ w.lg._ofs = none
  stamps : ∀ t ∈ done ++ todo, t ≠ ""
  nodup : (done ++ todo).Nodup
  fresh : ∀ t ∈ todo, w.fs.read (p ++ t) = none

/-- No rotation of the run renames the base file onto a file that exists: the
stream is open on the base file `p`, which exists and is the file name of the
logger; the rotations of the run carry pairwise different time stamps, none of
them empty, and no file on disk at the start has the name of one of the rotated
files. -/
def World.Unclobbered (w0 : World) (p : String) (sched : List Step) : Prop :=
  w0.lg._ofs = some p ∧ w0.lg.log_file_name_ = p ∧ (∃ c, w0.fs.read p = some c) ∧
  (w0.rotationStamps sched).Nodup ∧
  ∀ t ∈ w0.rotationStamps sched, t ≠ "" ∧ w0.fs.read (p ++ t) = none

/-! ## Lemmas on `LogBuffer` -/

namespace LogBuffer

variable {SIZE : Nat}

theorem avail_eq {b : LogBuffer SIZE} (h : b.WF) : b.avail = SIZE - b._cur := by
  obtain ⟨_, h2, h3⟩ := h
  unfold avail SIZE_MOD
  have e1 : b._cur % 2 ^ 64 = b._cur := Nat.mod_eq_of_lt (by omega)
  rw [e1]
  omega

theorem append_of_gt {b : LogBuffer SIZE} {buf : List Byte} (h : buf.length > b.avail) :
    b.append buf = b := by
  unfold append
  rw [if_pos h]

theorem cur_append {b : LogBuffer SIZE} {buf : List Byte} (h : b.WF)
    (hfit : buf.length ≤ b.avail) : (b.append buf)._cur = b._cur + buf.length := by
  have ha := avail_eq h
  obtain ⟨_, h2, h3⟩ := h
  unfold append
  rw [if_neg (by omega)]
  show (b._cur + buf.length) % SIZE_MOD = _
  unfold SIZE_MOD
  exact Nat.mod_eq_of_lt (by omega)

theorem data_append {b : LogBuffer SIZE} {buf : List Byte}
    (hfit : buf.length ≤ b.avail) :
    (b.append buf)._data
      = b._data.take b._cur ++ buf ++ b._data.drop (b._cur + buf.length) := by
  unfold append
  rw [if_neg (by omega)]

theorem contents_append {b : LogBuffer SIZE} {buf : List Byte} (h : b.WF)
    (hfit : buf.length ≤ b.avail) : (b.append buf).contents = b.contents ++ buf := by
  have hc := cur_append h hfit
  have hd := data_append (b := b) hfit
  obtain ⟨h1, h2, _⟩ := h
  unfold contents
  rw [hc, hd, List.append_assoc]
  have hl : (b._data.take b._cur).length = b._cur := by
    rw [List.length_take]; omega
  rw [List.take_append_eq_append_take, hl]
  have e1 : (b._data.take b._cur).take (b._cur + buf.length) = b._data.take b._cur := by
    apply List.take_of_length_le; omega
  rw [e1, show b._cur + buf.length - b._cur = buf.length by omega,
    List.take_append_eq_append_take, List.take_of_length_le (le_refl _)]
  simp

theorem WF_append {b : LogBuffer SIZE} (buf : List Byte) (h : b.WF) : (b.append buf).WF := by
  by_cases hfit : buf.length ≤ b.avail
  · have hc := cur_append h hfit
    have hd := data_append (b := b) hfit
    have ha := avail_eq h
    obtain ⟨h1, h2, h3⟩ := h
    refine ⟨?_, ?_, h3⟩
    · rw [hd]
      simp only [List.length_append, List.length_take, List.length_drop]
      omega
    · rw [hc]; omega
  · rw [append_of_gt (by omega)]; exact h

theorem WF_reset {b : LogBuffer SIZE} (h : b.WF) : b.reset.WF :=
  ⟨h.1, Nat.zero_le _, h.2.2⟩

theorem contents_reset (b : LogBuffer SIZE) : b.reset.contents = [] := by
  simp [reset, contents]

theorem length_reset (b : LogBuffer SIZE) : b.reset.length = 0 := rfl

theorem contents_length {b : LogBuffer SIZE} (h : b.WF) : b.contents.length = b.length := by
  obtain ⟨h1, h2, _⟩ := h
  unfold contents length
  rw [List.length_take]; omega

theorem contents_of_length_zero {b : LogBuffer SIZE} (h : b.length = 0) : b.contents = [] := by
  unfold length at h
  simp [contents, h]

end LogBuffer

theorem make_shared_WF : make_shared.WF := by
  refine ⟨?_, ?_, ?_⟩
  · simp [make_shared, LogBuffer.new]
  · simp [make_shared, LogBuffer.new]
  · unfold DefaultBufferSize; norm_num

theorem make_shared_length : make_shared.length = 0 := rfl

theorem make_shared_contents : make_shared.contents = [] :=
  LogBuffer.contents_of_length_zero make_shared_length

/-! ## `LogBuffer::append` is all-or-nothing -/

/-- C1: `LogBuffer::append` is all-or-nothing.  For every buffer state and every
byte string `buf` of length `len`: if `len > avail()` the call changes nothing
(cursor and array are the same); otherwise the stored bytes become the old
stored bytes followed by exactly `buf` and `length()` grows by exactly `len`.
In both cases the stored bytes are the old ones or the old ones followed by the
whole of `buf`, so no proper prefix of the input is ever stored. -/
theorem C1_append_all_or_nothing {SIZE : Nat} (b : LogBuffer SIZE) (buf : List Byte)
    (h : b.WF) :
    (buf.length > b.avail → b.append buf = b) ∧
    (buf.length ≤ b.avail →
      (b.append buf).contents = b.contents ++ buf ∧
      (b.append buf).length = b.length + buf.length) ∧
    ((b.append buf).contents = b.contents ∨
      (b.append buf).contents = b.contents ++ buf) := by
  refine ⟨fun hgt => LogBuffer.append_of_gt hgt, fun hfit =>
    ⟨LogBuffer.contents_append h hfit, LogBuffer.cur_append h hfit⟩, ?_⟩
  by_cases hfit : buf.length ≤ b.avail
  · exact Or.inr (LogBuffer.contents_append h hfit)
  · rw [LogBuffer.append_of_gt (by omega)]; exact Or.inl rfl

/-- C1, witness: a buffer of capacity 4 holding one byte takes two more bytes
whole, and a buffer holding three bytes rejects two bytes whole. -/
theorem C1_append_all_or_nothing_witness :
    (LogBuffer.mk [7, 0, 0, 0] 1 : LogBuffer 4).WF ∧
    ((LogBuffer.mk [7, 0, 0, 0] 1 : LogBuffer 4).append [8, 9]).contents = [7, 8, 9] ∧
    ((LogBuffer.mk [7, 8, 9, 0] 3 : LogBuffer 4).append [5, 6])
      = (LogBuffer.mk [7, 8, 9, 0] 3 : LogBuffer 4) :=
  ⟨by decide,
   ((C1_append_all_or_nothing (LogBuffer.mk [7, 0, 0, 0] 1 : LogBuffer 4) [8, 9]
      (by decide)).2.1 (by decide)).1,
   (C1_append_all_or_nothing (LogBuffer.mk [7, 8, 9, 0] 3 : LogBuffer 4) [5, 6]
      (by decide)).1 (by decide)⟩

/-! ## The invariant holds in every reachable state -/

theorem Inv_of_Fresh {w : World} (h : w.Fresh) : Inv w := by
  obtain ⟨h1, h2, h3, _, _, h6⟩ := h
  refine
    { cur := ⟨_, h1, make_shared_WF⟩, next := ?_, next_none := ?_, queue := ?_, btw := ?_,
      np1 := ?_, np2 := ?_, head := ?_, writing := ?_, exited := ?_ }
  · intro n hn
    rw [h2] at hn
    cases hn
    exact ⟨make_shared_WF, rfl⟩
  · intro hn; rw [h2] at hn; cases hn
  · intro b hb; rw [h3] at hb; cases hb
  · intro b hb; rw [h6] at hb; cases hb
  · intro b hb
    rw [h6] at hb
    cases hb
    exact ⟨make_shared_WF, rfl⟩
  · intro b hb
    rw [h6] at hb
    cases hb
    exact ⟨make_shared_WF, rfl⟩
  · intro _; rw [h6]; exact ⟨rfl, by simp [ThreadFunc.start], by simp [ThreadFunc.start]⟩
  · intro hp; rw [h6] at hp; cases hp
  · intro hp; rw [h6] at hp; cases hp

theorem Inv_append {w : World} (h : Inv w) (data : List Byte) :
    ∃ lg, w.lg.append data = some lg ∧ Inv { w with lg := lg } := by
  obtain ⟨c, hc, hcw⟩ := h.cur
  unfold Logger.append
  by_cases h0 : data.length = 0
  · rw [if_pos h0]; exact ⟨w.lg, rfl, h⟩
  · rw [if_neg h0, hc]
    dsimp only
    by_cases hf : c.avail ≥ data.length
    · rw [if_pos hf]
      exact ⟨_, rfl,
        { cur := ⟨_, rfl, LogBuffer.WF_append _ hcw⟩, next := h.next,
          next_none := h.next_none, queue := h.queue, btw := h.btw, np1 := h.np1,
          np2 := h.np2, head := h.head, writing := h.writing, exited := h.exited }⟩
    · rw [if_neg hf]
      refine ⟨_, rfl,
        { cur := ⟨_, rfl, LogBuffer.WF_append _ ?_⟩, next := ?_,
          next_none := ?_, queue := ?_, btw := h.btw, np1 := h.np1,
          np2 := h.np2, head := h.head, writing := h.writing, exited := h.exited }⟩
      · cases hn : w.lg.next_buffer_ with
        | none => exact make_shared_WF
        | some n => exact (h.next n hn).1
      · intro n hn; cases hn
      · intro _; simp
      · intro b hb
        rcases List.mem_append.mp hb with hb | hb
        · exact h.queue b hb
        · rw [List.mem_singleton.mp hb]; exact hcw

theorem Inv_flush {w : World} (h : Inv w) : Inv { w with lg := w.lg.flush } := by
  obtain ⟨c, hc, hcw⟩ := h.cur
  unfold Logger.flush
  rw [hc]
  dsimp only
  by_cases hl : c.length > 0
  · rw [if_pos hl]
    refine
      { cur := ⟨_, rfl, make_shared_WF⟩, next := h.next, next_none := ?_, queue := ?_,
        btw := h.btw, np1 := h.np1, np2 := h.np2, head := h.head, writing := h.writing,
        exited := h.exited }
    · intro _; simp
    · intro b hb
      rcases List.mem_append.mp hb with hb | hb
      · exact h.queue b hb
      · rw [List.mem_singleton.mp hb]; exact hcw
  · rw [if_neg hl]; exact h

theorem Inv_destroy {w : World} (h : Inv w) : Inv { w with lg := w.lg.destroy } := by
  obtain ⟨c, hc, hcw⟩ := h.cur
  unfold Logger.destroy
  dsimp only
  rw [hc]
  dsimp only
  by_cases hl : c.length > 0
  · rw [if_pos hl]
    refine
      { cur := ⟨_, rfl, make_shared_WF⟩, next := h.next, next_none := ?_, queue := ?_,
        btw := h.btw, np1 := h.np1, np2 := h.np2, head := h.head, writing := h.writing,
        exited := h.exited }
    · intro _; simp
    · intro b hb
      rcases List.mem_append.mp hb with hb | hb
      · exact h.queue b hb
      · rw [List.mem_singleton.mp hb]; exact hcw
  · rw [if_neg hl]
    exact
      { cur := ⟨c, rfl, hcw⟩, next := h.next, next_none := h.next_none, queue := h.queue,
        btw := h.btw, np1 := h.np1, np2 := h.np2, head := h.head, writing := h.writing,
        exited := h.exited }

theorem recycle_spec {np1 np2 : Option Buf} {bufs : List Buf}
    (hb : ∀ b ∈ bufs, b.WF)
    (h1 : ∀ b, np1 = some b → b.WF) (h2 : ∀ b, np2 = some b → b.WF)
    (e1 : np1 = none → bufs ≠ []) (e2 : np2 = none → bufs ≠ [])
    (e12 : np1 = none → np2 = none → 2 ≤ bufs.length) :
    ∃ x y, World.recycle np1 np2 bufs = (some x, some y) ∧
      (x.WF ∧ x.length = 0) ∧ (y.WF ∧ y.length = 0) := by
  have key : ∀ b0 : List Buf, (∀ b ∈ b0, b.WF) → (bufs ≠ [] → b0 ≠ []) →
      (2 ≤ bufs.length → 2 ≤ b0.length) →
      ∃ x y,
        ((if np1.isNone && !b0.isEmpty then (b0.getLast?, b0.dropLast) else (np1, b0)).1.map
            LogBuffer.reset,
          (if np2.isNone &&
                !(if np1.isNone && !b0.isEmpty then (b0.getLast?, b0.dropLast)
                  else (np1, b0)).2.isEmpty
            then ((if np1.isNone && !b0.isEmpty then (b0.getLast?, b0.dropLast)
                  else (np1, b0)).2.getLast?,
                  (if np1.isNone && !b0.isEmpty then (b0.getLast?, b0.dropLast)
                  else (np1, b0)).2.dropLast)
            else (np2, (if np1.isNone && !b0.isEmpty then (b0.getLast?, b0.dropLast)
                  else (np1, b0)).2)).1.map LogBuffer.reset)
          = (some x, some y) ∧
        (x.WF ∧ x.length = 0) ∧ (y.WF ∧ y.length = 0) := by
    intro b0 hb0 hne hlen
    cases hn1 : np1 with
    | some a =>
      cases hn2 : np2 with
      | some c =>
        exact ⟨a.reset, c.reset, by simp,
          ⟨LogBuffer.WF_reset (h1 a hn1), rfl⟩, ⟨LogBuffer.WF_reset (h2 c hn2), rfl⟩⟩
      | none =>
        have hb0ne : b0 ≠ [] := hne (e2 hn2)
        refine ⟨a.reset, (b0.getLast hb0ne).reset, ?_,
          ⟨LogBuffer.WF_reset (h1 a hn1), rfl⟩,
          ⟨LogBuffer.WF_reset (hb0 _ (List.getLast_mem hb0ne)), rfl⟩⟩
        simp [hb0ne, List.getLast?_eq_getLast _ hb0ne]
    | none =>
      have hb0ne : b0 ≠ [] := hne (e1 hn1)
      cases hn2 : np2 with
      | some c =>
        refine ⟨(b0.getLast hb0ne).reset, c.reset, ?_,
          ⟨LogBuffer.WF_reset (hb0 _ (List.getLast_mem hb0ne)), rfl⟩,
          ⟨LogBuffer.WF_reset (h2 c hn2), rfl⟩⟩
        simp [hb0ne, List.getLast?_eq_getLast _ hb0ne]
      | none =>
        have hl2 : 2 ≤ b0.length := hlen (e12 hn1 hn2)
        have hdne : b0.dropLast ≠ [] := by
          intro hd
          have := List.length_dropLast b0
          rw [hd] at this
          simp at this
          omega
        refine ⟨(b0.getLast hb0ne).reset, (b0.dropLast.getLast hdne).reset, ?_,
          ⟨LogBuffer.WF_reset (hb0 _ (List.getLast_mem hb0ne)), rfl⟩,
          ⟨LogBuffer.WF_reset
            (hb0 _ (List.mem_of_mem_dropLast (List.getLast_mem hdne))), rfl⟩⟩
        simp [hb0ne, hdne, List.getLast?_eq_getLast _ hb0ne,
          List.getLast?_eq_getLast _ hdne]
  unfold World.recycle
  by_cases hl : bufs.length > 2
  · simp only [if_pos hl]
    apply key
    · intro b hbm; exact hb b (List.mem_of_mem_take hbm)
    · intro _ h0
      have : (bufs.take 2).length = 0 := by rw [h0]; rfl
      rw [List.length_take] at this
      omega
    · intro _; rw [List.length_take]; omega
  · simp only [if_neg hl]
    exact key bufs hb (fun h => h) (fun h => h)

theorem Inv_lock {w : World} (h : Inv w) (hpc : w.th.pc = Pc.head) :
    Inv w.threadFunc_lock := by
  obtain ⟨c, hc, hcw⟩ := h.cur
  obtain ⟨hb, hp1, hp2⟩ := h.head hpc
  obtain ⟨b1, hb1⟩ := Option.ne_none_iff_exists'.mp hp1
  obtain ⟨b2, hb2⟩ := Option.ne_none_iff_exists'.mp hp2
  have hq : ∀ b ∈ w.lg.buffers_queue_ ++ [c], b.WF := by
    intro b hbm
    rcases List.mem_append.mp hbm with hbm | hbm
    · exact h.queue b hbm
    · rw [List.mem_singleton.mp hbm]; exact hcw
  unfold World.threadFunc_lock
  by_cases hl : c.length > 0
  · cases hn : w.lg.next_buffer_ with
    | none =>
      simp only [hc, hn, hb1, hb2, hb, if_pos hl]
      refine
        { cur := ⟨b1, rfl, (h.np1 b1 hb1).1⟩, next := ?_, next_none := ?_, queue := ?_,
          btw := hq, np1 := ?_, np2 := ?_, head := ?_, writing := ?_, exited := ?_ }
      · intro n hn'; cases hn'; exact h.np2 _ hb2
      · intro hn'; cases hn'
      · intro b hbm; cases hbm
      · intro b hb'; cases hb'
      · intro b hb'; cases hb'
      · intro hp; simp at hp
      · intro _
        have := h.next_none hn
        refine ⟨fun _ => (by simp), fun _ => (by simp), fun _ _ => ?_⟩
        simp only [List.length_append, List.length_singleton]
        have : w.lg.buffers_queue_.length ≠ 0 := fun h0 => this (List.length_eq_zero.mp h0)
        omega
      · intro hp; simp at hp
    | some n =>
      simp only [hc, hn, hb1, hb2, hb, if_pos hl]
      refine
        { cur := ⟨b1, rfl, (h.np1 b1 hb1).1⟩, next := ?_, next_none := ?_, queue := ?_,
          btw := hq, np1 := ?_, np2 := ?_, head := ?_, writing := ?_, exited := ?_ }
      · intro n' hn'; cases hn'; exact h.next _ hn
      · intro hn'; cases hn'
      · intro b hbm; cases hbm
      · intro b hb'; cases hb'
      · intro b hb'; cases hb'; exact h.np2 _ hb2
      · intro hp; simp at hp
      · intro _
        exact ⟨fun _ => (by simp), fun _ => (by simp), fun _ h2 => (by cases h2)⟩
      · intro hp; simp at hp
  · cases hn : w.lg.next_buffer_ with
    | none =>
      simp only [hc, hn, hb1, hb2, hb, if_neg hl]
      have hqne := h.next_none hn
      refine
        { cur := ⟨c, rfl, hcw⟩, next := ?_, next_none := ?_, queue := ?_,
          btw := h.queue, np1 := ?_, np2 := ?_, head := ?_, writing := ?_, exited := ?_ }
      · intro n hn'; cases hn'; exact h.np2 _ hb2
      · intro hn'; cases hn'
      · intro b hbm; cases hbm
      · intro b hb'; cases hb'; exact h.np1 _ hb1
      · intro b hb'; cases hb'
      · intro hp; simp [hqne] at hp
      · intro _
        exact ⟨fun _ => hqne, fun _ => hqne, fun h1 => (by cases h1)⟩
      · intro hp; simp [hqne] at hp
    | some n =>
      simp only [hc, hn, hb1, hb2, hb, if_neg hl]
      refine
        { cur := ⟨c, rfl, hcw⟩, next := ?_, next_none := ?_, queue := ?_,
          btw := h.queue, np1 := ?_, np2 := ?_, head := ?_, writing := ?_, exited := ?_ }
      · intro n' hn'; cases hn'; exact h.next _ hn
      · intro hn'; cases hn'
      · intro b hbm; cases hbm
      · intro b hb'; cases hb'; exact h.np1 _ hb1
      · intro b hb'; cases hb'; exact h.np2 _ hb2
      · intro hp
        by_cases hstop : (!w.lg.running_ && w.lg.buffers_queue_.isEmpty) = true
        · simp [hstop] at hp
        · simp [hstop] at hp
      · intro _
        exact ⟨fun h1 => (by cases h1), fun h2 => (by cases h2), fun h1 => (by cases h1)⟩
      · intro hp
        by_cases hstop : (!w.lg.running_ && w.lg.buffers_queue_.isEmpty) = true
        · simp only [Bool.and_eq_true, Bool.not_eq_true', List.isEmpty_eq_true] at hstop
          exact hstop.2
        · simp [hstop] at hp

theorem write_current (w : World) (env : Env) :
    (w.threadFunc_write env).lg.current_buffer_ = w.lg.current_buffer_ := by
  simp only [World.threadFunc_write, World.rotate]
  split_ifs <;> rfl

theorem write_next (w : World) (env : Env) :
    (w.threadFunc_write env).lg.next_buffer_ = w.lg.next_buffer_ := by
  simp only [World.threadFunc_write, World.rotate]
  split_ifs <;> rfl

theorem write_queue (w : World) (env : Env) :
    (w.threadFunc_write env).lg.buffers_queue_ = w.lg.buffers_queue_ := by
  simp only [World.threadFunc_write, World.rotate]
  split_ifs <;> rfl

theorem write_running (w : World) (env : Env) :
    (w.threadFunc_write env).lg.running_ = w.lg.running_ := by
  simp only [World.threadFunc_write, World.rotate]
  split_ifs <;> rfl

theorem write_roll_size (w : World) (env : Env) :
    (w.threadFunc_write env).lg.roll_size_ = w.lg.roll_size_ := by
  simp only [World.threadFunc_write, World.rotate]
  split_ifs <;> rfl

theorem write_log_file_name (w : World) (env : Env) :
    (w.threadFunc_write env).lg.log_file_name_ = w.lg.log_file_name_ := by
  simp only [World.threadFunc_write, World.rotate]
  split_ifs <;> rfl

theorem write_th (w : World) (env : Env) :
    (w.threadFunc_write env).th =
      { newPtr1 := (World.recycle w.th.newPtr1 w.th.newPtr2 w.th.buffers_to_write).1,
        newPtr2 := (World.recycle w.th.newPtr1 w.th.newPtr2 w.th.buffers_to_write).2,
        buffers_to_write := [], pc := Pc.head } := by
  simp only [World.threadFunc_write]

theorem Inv_write {w : World} (h : Inv w) (hpc : w.th.pc = Pc.writing) (env : Env) :
    Inv (w.threadFunc_write env) := by
  obtain ⟨e1, e2, e12⟩ := h.writing hpc
  obtain ⟨x, y, hr, hx, hy⟩ :=
    recycle_spec h.btw (fun b hb => (h.np1 b hb).1) (fun b hb => (h.np2 b hb).1) e1 e2 e12
  have hth := write_th w env
  rw [hr] at hth
  refine
    { cur := ?_, next := ?_, next_none := ?_, queue := ?_,
      btw := ?_, np1 := ?_, np2 := ?_, head := ?_, writing := ?_, exited := ?_ }
  · rw [write_current]; exact h.cur
  · rw [write_next]; exact h.next
  · rw [write_next, write_queue]; exact h.next_none
  · rw [write_queue]; exact h.queue
  · rw [hth]; intro b hb; cases hb
  · rw [hth]; intro b hb; cases hb; exact hx
  · rw [hth]; intro b hb; cases hb; exact hy
  · rw [hth]; intro _; exact ⟨rfl, by simp, by simp⟩
  · rw [hth]; intro hp; cases hp
  · rw [hth]; intro hp; cases hp

theorem Inv_threadFunc_step {w : World} (h : Inv w) (env : Env) :
    Inv (w.threadFunc_step env) := by
  unfold World.threadFunc_step
  cases hpc : w.th.pc with
  | head => exact Inv_lock h hpc
  | writing => exact Inv_write h hpc env
  | exited => exact h

/-- Every step from a state with the invariant succeeds (no null pointer is
dereferenced) and leads to a state with the invariant. -/
theorem Inv_step {w : World} (h : Inv w) (s : Step) :
    ∃ w1, w.step s = some w1 ∧ Inv w1 := by
  cases s with
  | append data =>
    obtain ⟨lg, hlg, hi⟩ := Inv_append h data
    exact ⟨_, by simp [World.step, hlg], hi⟩
  | flush => exact ⟨_, rfl, Inv_flush h⟩
  | destroy => exact ⟨_, rfl, Inv_destroy h⟩
  | writer env => exact ⟨_, rfl, Inv_threadFunc_step h env⟩

/-- Every schedule from a state with the invariant runs to the end. -/
theorem Inv_run {w : World} (h : Inv w) (sched : List Step) :
    ∃ w1, w.run sched = some w1 ∧ Inv w1 := by
  induction sched generalizing w with
  | nil => exact ⟨w, rfl, h⟩
  | cons s rest ih =>
    obtain ⟨w1, h1, hi1⟩ := Inv_step h s
    obtain ⟨w2, h2, hi2⟩ := ih hi1
    exact ⟨w2, by simp [World.run, h1, h2], hi2⟩

theorem run_append (w : World) (s1 s2 : List Step) :
    w.run (s1 ++ s2) = (w.run s1).bind fun w1 => w1.run s2 := by
  induction s1 generalizing w with
  | nil => rfl
  | cons s rest ih =>
    simp only [List.cons_append, World.run]
    cases w.step s with
    | none => rfl
    | some w1 => simp [ih]

/-- C8: state at shutdown.  In every state reachable from a freshly constructed
logger, a step of the background thread that leaves the loop (the `break` of its
critical section) happens only with `running_` cleared, and right after it the
pending queue is empty, the drained list is empty and the active buffer is
present with length 0. -/
theorem C8_state_at_exit (w0 w : World) (sched : List Step) (env : Env)
    (h0 : w0.Fresh) (hrun : w0.run sched = some w)
    (hloop : w.th.pc ≠ Pc.exited)
    (hexit : (w.threadFunc_step env).th.pc = Pc.exited) :
    w.lg.running_ = false ∧
    (w.threadFunc_step env).lg.running_ = false ∧
    (w.threadFunc_step env).lg.buffers_queue_ = [] ∧
    (w.threadFunc_step env).th.buffers_to_write = [] ∧
    ∃ c, (w.threadFunc_step env).lg.current_buffer_ = some c ∧ c.length = 0 := by
  obtain ⟨w', hw', hi⟩ := Inv_run (Inv_of_Fresh h0) sched
  rw [hrun] at hw'
  cases hw'
  have hi1 := Inv_threadFunc_step hi env
  cases hpc : w.th.pc with
  | exited => exact absurd hpc hloop
  | writing =>
    have hth := write_th w env
    unfold World.threadFunc_step at hexit
    rw [hpc] at hexit
    dsimp only at hexit
    rw [hth] at hexit
    cases hexit
  | head =>
    obtain ⟨hb, _, _⟩ := hi.head hpc
    obtain ⟨c, hc, hcw⟩ := hi.cur
    have hstep : w.threadFunc_step env = w.threadFunc_lock := by
      unfold World.threadFunc_step; rw [hpc]
    rw [hstep] at hexit ⊢
    unfold World.threadFunc_lock at hexit ⊢
    by_cases hl : c.length > 0
    · simp [hc, if_pos hl] at hexit
    · simp only [hc, if_neg hl] at hexit ⊢
      have hstop : (!w.lg.running_ && w.lg.buffers_queue_.isEmpty) = true := by
        by_contra hne
        simp [hne] at hexit
      simp only [Bool.and_eq_true, Bool.not_eq_true', List.isEmpty_eq_true] at hstop
      refine ⟨hstop.1, hstop.1, hb, hstop.2, ?_⟩
      cases hn : w.lg.next_buffer_ <;> exact ⟨c, rfl, by omega⟩

/-- C8, witness: construct, append three bytes, destroy; the thread drains them
in one iteration and leaves the loop in the next one. -/
theorem C8_state_at_exit_witness :
    (World.boot []).Fresh ∧
    (((World.boot []).run
        [Step.append [1, 2, 3], Step.destroy, Step.writer ⟨"", true, true⟩,
          Step.writer ⟨"", true, true⟩]).getD (World.boot [])).lg.running_ = false :=
  ⟨⟨rfl, rfl, rfl, rfl, rfl, rfl⟩,
   (C8_state_at_exit (World.boot [])
      (((World.boot []).run
        [Step.append [1, 2, 3], Step.destroy, Step.writer ⟨"", true, true⟩,
          Step.writer ⟨"", true, true⟩]).getD (World.boot []))
      [Step.append [1, 2, 3], Step.destroy, Step.writer ⟨"", true, true⟩,
          Step.writer ⟨"", true, true⟩] ⟨"", true, true⟩
      ⟨rfl, rfl, rfl, rfl, rfl, rfl⟩ (by rfl) (by decide) (by rfl)).1⟩

/-! ## Lemmas on the file system and the write loop -/

theorem bytesOf_nil : bytesOf [] = [] := rfl

theorem bytesOf_cons (b : Buf) (bs : List Buf) : bytesOf (b :: bs) = b.contents ++ bytesOf bs := by
  simp [bytesOf]

theorem bytesOf_append (xs ys : List Buf) : bytesOf (xs ++ ys) = bytesOf xs ++ bytesOf ys := by
  simp [bytesOf]

theorem bytesOf_singleton (b : Buf) : bytesOf [b] = b.contents := by
  simp [bytesOf]

namespace FileSys

theorem read_nil (p : String) : read [] p = none := rfl

theorem read_cons (e : String × List Byte) (fs : FileSys) (p : String) :
    read (e :: fs) p = if e.1 = p then some e.2 else read fs p := by
  unfold read
  by_cases h : e.1 = p
  · simp [List.find?_cons, h]
  · simp [List.find?_cons, h]

theorem read_map_write (fs : FileSys) (p : String) (a : List Byte) :
    read (fs.map fun e => if e.1 == p then (e.1, e.2 ++ a) else e) p
      = (read fs p).map fun c => c ++ a := by
  induction fs with
  | nil => rfl
  | cons e rest ih =>
    rw [List.map_cons, read_cons, read_cons]
    by_cases h : e.1 = p
    · simp [h]
    · have hb : (e.1 == p) = false := by simpa using h
      simp only [hb, Bool.false_eq_true, if_false, h]
      exact ih

theorem read_write {fs : FileSys} {p : String} {c : List Byte} (h : fs.read p = some c)
    (a : List Byte) : (fs.write p a).read p = some (c ++ a) := by
  unfold write
  rw [h]
  dsimp only
  rw [read_map_write, h]
  rfl

theorem write_write {fs : FileSys} {p : String} {c : List Byte} (h : fs.read p = some c)
    (a b : List Byte) : (fs.write p a).write p b = fs.write p (a ++ b) := by
  have h1 := read_write h a
  have e1 : fs.write p a = fs.map fun e => if e.1 == p then (e.1, e.2 ++ a) else e := by
    unfold write; rw [h]
  have e2 : fs.write p (a ++ b)
      = fs.map fun e => if e.1 == p then (e.1, e.2 ++ (a ++ b)) else e := by
    unfold write; rw [h]
  have e3 : (fs.write p a).write p b
      = (fs.write p a).map fun e => if e.1 == p then (e.1, e.2 ++ b) else e := by
    rw [write, h1]
  rw [e3, e1, e2, List.map_map]
  apply List.map_congr_left
  intro e _
  by_cases he : e.1 = p
  · simp [he]
  · simp [he]

theorem write_nil {fs : FileSys} {p : String} {c : List Byte} (h : fs.read p = some c) :
    fs.write p [] = fs := by
  unfold write
  rw [h]
  dsimp only
  conv_rhs => rw [← List.map_id fs]
  apply List.map_congr_left
  intro e _
  by_cases he : e.1 = p
  · subst he; simp
  · simp [he]

theorem names_write {fs : FileSys} {p : String} {c : List Byte} (h : fs.read p = some c)
    (a : List Byte) : (fs.write p a).map Prod.fst = fs.map Prod.fst := by
  unfold write
  rw [h]
  dsimp only
  rw [List.map_map]
  apply List.map_congr_left
  intro e _
  by_cases he : e.1 = p
  · simp [he]
  · simp [he]

end FileSys

theorem wrapOff_eq {x : Int} (h1 : -2 ^ 63 ≤ x) (h2 : x < 2 ^ 63) : wrapOff x = x := by
  unfold wrapOff
  have : (x + 2 ^ 63) % 2 ^ 64 = x + 2 ^ 63 := Int.emod_eq_of_lt (by omega) (by omega)
  rw [this]; omega

theorem writeAll_open {p : String} (bufs : List Buf) (hb : ∀ b ∈ bufs, b.WF) :
    ∀ (fs : FileSys) (written : Int) (c : List Byte), fs.read p = some c →
      -2 ^ 63 ≤ written → written + (bytesOf bufs).length < 2 ^ 63 →
      World.writeAll (some p) bufs fs written
        = (fs.write p (bytesOf bufs), written + (bytesOf bufs).length) := by
  induction bufs with
  | nil =>
    intro fs written c hc _ _
    simp [World.writeAll, bytesOf_nil, FileSys.write_nil hc]
  | cons b rest ih =>
    intro fs written c hc hlo hhi
    have hbw : b.WF := hb b (List.mem_cons_self _ _)
    have hrest : ∀ x ∈ rest, x.WF := fun x hx => hb x (List.mem_cons_of_mem _ hx)
    have hlen := LogBuffer.contents_length hbw
    rw [bytesOf_cons, List.length_append, hlen] at hhi
    push_cast at hhi
    simp only [World.writeAll]
    by_cases hl : b.length > 0
    · rw [if_pos hl]
      have hw : wrapOff (written + (b.length : Int)) = written + b.length :=
        wrapOff_eq (by omega) (by omega)
      rw [hw, ih hrest _ _ _ (FileSys.read_write hc _) (by omega) (by omega),
        FileSys.write_write hc, bytesOf_cons, List.length_append, hlen]
      push_cast
      rw [add_assoc]
    · rw [if_neg hl]
      have h0 : b.length = 0 := by omega
      have hc0 : b.contents = [] := LogBuffer.contents_of_length_zero h0
      rw [h0] at hhi
      rw [ih hrest _ _ _ hc hlo (by simpa using hhi), bytesOf_cons, hc0]
      rfl

theorem writeAll_closed (bufs : List Buf) (fs : FileSys) (written : Int) :
    World.writeAll none bufs fs written = (fs, written) := by
  induction bufs with
  | nil => rfl
  | cons b rest ih => unfold World.writeAll; exact ih

/-! ## The producer side keeps the byte stream -/

theorem append_buffered {w : World} (h : Inv w) {data : List Byte}
    (hlen : data.length ≤ DefaultBufferSize) :
    ∃ lg, w.lg.append data = some lg ∧ lg.buffered = w.lg.buffered ++ data ∧
      lg.SameConfig w.lg ∧ lg.running_ = w.lg.running_ := by
  obtain ⟨c, hc, hcw⟩ := h.cur
  unfold Logger.append
  by_cases h0 : data.length = 0
  · rw [if_pos h0]
    have : data = [] := List.length_eq_zero.mp h0
    exact ⟨w.lg, rfl, by simp [this], ⟨rfl, rfl, rfl, rfl, rfl⟩, rfl⟩
  · rw [if_neg h0, hc]
    dsimp only
    by_cases hf : c.avail ≥ data.length
    · rw [if_pos hf]
      refine ⟨_, rfl, ?_, ⟨rfl, rfl, rfl, rfl, rfl⟩, rfl⟩
      simp only [Logger.buffered, hc, bytesOfPtr, LogBuffer.contents_append hcw hf,
        List.append_assoc]
    · rw [if_neg hf]
      refine ⟨_, rfl, ?_, ⟨rfl, rfl, rfl, rfl, rfl⟩, rfl⟩
      have hfresh : ∀ f : Buf, f.WF → f.length = 0 → (f.append data).contents = data := by
        intro f hfw hfl
        have ha := LogBuffer.avail_eq hfw
        have hfl' : f._cur = 0 := hfl
        rw [LogBuffer.contents_append hfw (by rw [ha, hfl']; exact hlen),
          LogBuffer.contents_of_length_zero hfl]
        rfl
      have hnew : ((match w.lg.next_buffer_ with
          | some nxt => nxt
          | none => make_shared).append data).contents = data := by
        cases hn : w.lg.next_buffer_ with
        | none => exact hfresh _ make_shared_WF make_shared_length
        | some n => exact hfresh _ (h.next n hn).1 (h.next n hn).2
      simp only [Logger.buffered, hc, bytesOfPtr, hnew, bytesOf_append, bytesOf_singleton]

theorem flush_buffered {w : World} (h : Inv w) :
    w.lg.flush.buffered = w.lg.buffered ∧ w.lg.flush.SameConfig w.lg ∧
      w.lg.flush.running_ = w.lg.running_ := by
  obtain ⟨c, hc, hcw⟩ := h.cur
  unfold Logger.flush
  rw [hc]
  dsimp only
  by_cases hl : c.length > 0
  · rw [if_pos hl]
    refine ⟨?_, ⟨rfl, rfl, rfl, rfl, rfl⟩, rfl⟩
    simp only [Logger.buffered, hc, bytesOfPtr, bytesOf_append, bytesOf_singleton,
      make_shared_contents, List.append_nil]
  · rw [if_neg hl]
    exact ⟨rfl, ⟨rfl, rfl, rfl, rfl, rfl⟩, rfl⟩

theorem destroy_buffered {w : World} (h : Inv w) :
    w.lg.destroy.buffered = w.lg.buffered ∧ w.lg.destroy.SameConfig w.lg ∧
      w.lg.destroy.running_ = false := by
  obtain ⟨c, hc, hcw⟩ := h.cur
  unfold Logger.destroy
  dsimp only
  rw [hc]
  dsimp only
  by_cases hl : c.length > 0
  · rw [if_pos hl]
    refine ⟨?_, ⟨rfl, rfl, rfl, rfl, rfl⟩, rfl⟩
    simp only [Logger.buffered, hc, bytesOfPtr, bytesOf_append, bytesOf_singleton,
      make_shared_contents, List.append_nil]
  · rw [if_neg hl]
    refine ⟨?_, ⟨rfl, rfl, rfl, rfl, rfl⟩, rfl⟩
    simp only [Logger.buffered, hc]

/-! ## The background thread keeps the byte stream -/

theorem lock_pending {w : World} (h : Inv w) (hpc : w.th.pc = Pc.head) :
    w.threadFunc_lock.pending = w.pending ∧ w.threadFunc_lock.fs = w.fs ∧
      w.threadFunc_lock.lg.SameConfig w.lg ∧
      w.threadFunc_lock.lg.running_ = w.lg.running_ ∧
      w.threadFunc_lock.lg.buffered = [] := by
  obtain ⟨c, hc, hcw⟩ := h.cur
  obtain ⟨hb, hp1, hp2⟩ := h.head hpc
  obtain ⟨b1, hb1⟩ := Option.ne_none_iff_exists'.mp hp1
  obtain ⟨b2, hb2⟩ := Option.ne_none_iff_exists'.mp hp2
  have hb1c : b1.contents = [] := LogBuffer.contents_of_length_zero (h.np1 b1 hb1).2
  unfold World.threadFunc_lock World.pending Logger.buffered
  by_cases hl : c.length > 0
  · cases hn : w.lg.next_buffer_ <;>
      simp [hc, hn, hb1, hb2, hb, if_pos hl, bytesOfPtr, bytesOf_append, bytesOf_singleton,
        bytesOf_nil, hb1c, Logger.SameConfig]
  · have hc0 : c.contents = [] := LogBuffer.contents_of_length_zero (by omega)
    cases hn : w.lg.next_buffer_ <;>
      simp [hc, hn, hb1, hb2, hb, if_neg hl, bytesOfPtr, bytesOf_nil, hc0,
        Logger.SameConfig]

theorem write_quiet {w : World} (h : Inv w) {p : String} {c : List Byte}
    (hofs : w.lg._ofs = some p) (hc : w.fs.read p = some c)
    (hlo : -2 ^ 63 ≤ w.lg.written_bytes_)
    (hle : w.lg.written_bytes_ + (bytesOf w.th.buffers_to_write).length ≤ w.lg.roll_size_)
    (hroll : w.lg.roll_size_ < 2 ^ 63) (env : Env) :
    (w.threadFunc_write env).fs = w.fs.write p (bytesOf w.th.buffers_to_write) ∧
    (w.threadFunc_write env).lg._ofs = some p ∧
    (w.threadFunc_write env).lg.written_bytes_
      = w.lg.written_bytes_ + (bytesOf w.th.buffers_to_write).length := by
  have hwa := writeAll_open (p := p) w.th.buffers_to_write h.btw w.fs w.lg.written_bytes_ c hc
    hlo (by omega)
  have hrot : World.rotates (some p)
      (w.lg.written_bytes_ + (bytesOf w.th.buffers_to_write).length) w.lg.roll_size_
      w.lg.log_file_name_ = false := by
    unfold World.rotates
    rw [decide_eq_false (by omega)]
    rfl
  simp only [World.threadFunc_write, hofs, hwa, hrot]
  simp

theorem file_eq {w : World} {p : String} {c : List Byte} (hofs : w.lg._ofs = some p)
    (hc : w.fs.read p = some c) : w.file = c := by
  unfold World.file
  rw [hofs]
  dsimp only
  rw [hc]
  rfl

theorem appended_cons (s : Step) (rest : List Step) :
    appended (s :: rest) = appended [s] ++ appended rest := by
  cases s <;> simp [appended]

theorem appended_append (s1 s2 : List Step) :
    appended (s1 ++ s2) = appended s1 ++ appended s2 := by
  induction s1 with
  | nil => rfl
  | cons s rest ih =>
    rw [List.cons_append, appended_cons, ih, appended_cons s rest, List.append_assoc]

theorem lock_pc (w : World) :
    w.threadFunc_lock.th.pc = Pc.exited ∨ w.threadFunc_lock.th.pc = Pc.writing := by
  simp only [World.threadFunc_lock]
  split_ifs
  · exact Or.inl rfl
  · exact Or.inr rfl

theorem pending_of_not_writing {w : World} (h : Inv w) (hpc : w.th.pc ≠ Pc.writing) :
    w.pending = w.lg.buffered := by
  have hb : w.th.buffers_to_write = [] := by
    cases hp : w.th.pc with
    | head => exact (h.head hp).1
    | writing => exact absurd hp hpc
    | exited => exact h.exited hp
  simp [World.pending, hb, bytesOf_nil]

theorem run_two (w : World) (e1 e2 : Env) :
    w.run [Step.writer e1, Step.writer e2]
      = some ((w.threadFunc_step e1).threadFunc_step e2) := rfl

theorem pending_of_Fresh {w : World} (h : w.Fresh) : w.pending = [] := by
  obtain ⟨h1, _, h3, _, _, h6⟩ := h
  simp [World.pending, Logger.buffered, h1, h3, h6, ThreadFunc.start, bytesOf_nil,
    bytesOfPtr, make_shared_contents]

/-! ## `Logger::Log` and the macros -/

/-- C3 (amended): the level filter sits in the `LOG_*` macros.  For every logger
state with threshold `t` and every macro call `LOG_<level>(...)` with
`level < t` (order DEBUG < INFO < WARN < ERROR < FATAL), `isEnabled` is false
and the call leaves the whole logger, so the active buffer, the spare buffer and
the pending queue, unchanged.  (`LOG_DEBUG`, `LOG_INFO`, `LOG_WARN` and
`LOG_ERROR` are `LOG` at their level.) -/
theorem C3_level_filter (lg : Logger) (level : LogLevel) (ts file : List Byte) (line : Int)
    (msg : Option (List Byte)) (h : level.toInt < lg._level.toInt) :
    lg.isEnabled level = false ∧ lg.LOG level ts file line msg = some lg := by
  have he : lg.isEnabled level = false := by
    unfold Logger.isEnabled
    exact decide_eq_false (by omega)
  refine ⟨he, ?_⟩
  unfold Logger.LOG
  rw [he]
  rfl

/-- C3, witness: `LOG_DEBUG` on a logger whose threshold is `INFO`. -/
theorem C3_level_filter_witness :
    (Logger.new.setLevel LogLevel.INFO).LOG_DEBUG (str "12:00") (str "main.cpp") 19
        (some (str "hello"))
      = some (Logger.new.setLevel LogLevel.INFO) :=
  (C3_level_filter (Logger.new.setLevel LogLevel.INFO) LogLevel.DEBUG (str "12:00")
    (str "main.cpp") 19 (some (str "hello")) (by decide)).2

/-- C3, counterexample: a direct call `Logger::Log(DEBUG, ...)` on a logger
whose threshold is `INFO` (so `DEBUG` is below the threshold) writes the whole
record into the active buffer. -/
theorem C3_counterexample :
    LogLevel.DEBUG.toInt < (Logger.new.setLevel LogLevel.INFO)._level.toInt ∧
    ((Logger.new.setLevel LogLevel.INFO).Log LogLevel.DEBUG (str "12:00") (str "main.cpp") 19
        (some (str "hello"))).map (fun l => bytesOfPtr l.current_buffer_)
      = some (str "[12:00] [DEBUG] main.cpp:19 hello\n") ∧
    bytesOfPtr (Logger.new.setLevel LogLevel.INFO).current_buffer_ = [] := by
  refine ⟨by decide, by decide, make_shared_contents⟩

/-- C4, the code at the failing interleaving: two producers call `Logger::Log`
once each.  Each call is three critical sections (header, message, newline);
the schedule lets the second producer append its header between the header and
the message of the first.  The bytes that reach the buffers read
`[t] [INFO] a.cpp:1 [t] [INFO] b.cpp:2 first\nsecond\n`: the record of the first
call is cut by the header of the second. -/
theorem C4_interleaved_records :
    Log_parts LogLevel.INFO (str "t") (str "a.cpp") 1 (some (str "first"))
      = some (str "[t] [INFO] a.cpp:1 ", str "first", str "\n") ∧
    Log_parts LogLevel.INFO (str "t") (str "b.cpp") 2 (some (str "second"))
      = some (str "[t] [INFO] b.cpp:2 ", str "second", str "\n") ∧
    ((World.boot []).run
        [Step.append (str "[t] [INFO] a.cpp:1 "), Step.append (str "[t] [INFO] b.cpp:2 "),
          Step.append (str "first"), Step.append (str "\n"),
          Step.append (str "second"), Step.append (str "\n")]).map World.pending
      = some (str "[t] [INFO] a.cpp:1 [t] [INFO] b.cpp:2 first\nsecond\n") := by
  refine ⟨by decide, by decide, by decide⟩

theorem take_take_trunc (t : List Byte) (cap : Nat) :
    (t.take cap).take (if t.length ≥ cap + 1 then cap else t.length) = t.take cap := by
  split_ifs with h
  · rw [List.take_take, Nat.min_self]
  · apply List.take_of_length_le
    rw [List.length_take]
    omega

theorem Log_parts_eq (level : LogLevel) (ts file : List Byte) (line : Int) (msg : List Byte)
    (hmsg : msg.length < 2 ^ 31) (hhdr : (headerText ts level file line).length < 2 ^ 31) :
    Log_parts level ts file line (some msg)
      = some ((headerText ts level file line).take 255,
          msg.take (DefaultBufferSize - 1), [10]) := by
  have e1 := take_take_trunc msg 4095
  have e2 := take_take_trunc (headerText ts level file line) 255
  simp only [Log_parts, snprintf, if_pos hmsg, if_pos hhdr, DefaultBufferSize]
  simp only [Int.toNat_ofNat]
  rw [if_neg (by omega), if_neg (by omega)]
  simp only [Nat.reduceAdd, Nat.reduceSub] at e1 e2 ⊢
  rw [e1, e2]

/-- What one uninterrupted `Logger::Log` call adds to the buffered bytes. -/
theorem Log_buffered {w : World} (h : Inv w) (level : LogLevel) (ts file : List Byte)
    (line : Int) (msg : List Byte) (hmsg : msg.length < 2 ^ 31)
    (hhdr : (headerText ts level file line).length < 2 ^ 31) :
    ∃ lg, w.lg.Log level ts file line (some msg) = some lg ∧
      lg.buffered = w.lg.buffered ++ (headerText ts level file line).take 255
        ++ msg.take (DefaultBufferSize - 1) ++ [10] := by
  unfold Logger.Log
  rw [Log_parts_eq level ts file line msg hmsg hhdr]
  dsimp only
  have l1 : ((headerText ts level file line).take 255).length ≤ DefaultBufferSize := by
    rw [List.length_take]; unfold DefaultBufferSize; omega
  have l2 : (msg.take (DefaultBufferSize - 1)).length ≤ DefaultBufferSize := by
    rw [List.length_take]; unfold DefaultBufferSize; omega
  have l3 : ([10] : List Byte).length ≤ DefaultBufferSize := by
    unfold DefaultBufferSize; simp
  obtain ⟨lg1, hlg1, hb1, _, _⟩ := append_buffered h l1
  obtain ⟨lg1', hlg1', hi1⟩ := Inv_append h ((headerText ts level file line).take 255)
  rw [hlg1] at hlg1'
  cases hlg1'
  obtain ⟨lg2, hlg2, hb2, _, _⟩ := append_buffered hi1 l2
  obtain ⟨lg2', hlg2', hi2⟩ := Inv_append hi1 (msg.take (DefaultBufferSize - 1))
  rw [hlg2] at hlg2'
  cases hlg2'
  obtain ⟨lg3, hlg3, hb3, _, _⟩ := append_buffered hi2 l3
  refine ⟨lg3, ?_, ?_⟩
  · rw [hlg1]
    simp only [Option.bind]
    rw [show ({ w with lg := lg1 } : World).lg = lg1 from rfl] at hlg2
    rw [hlg2]
    simp only []
    exact hlg3
  · rw [hb3]
    show lg2.buffered ++ _ = _
    rw [show ({ w with lg := lg1 } : World).lg = lg1 from rfl] at hb2
    rw [hb2, hb1]

/-! ## `flush` and shutdown -/

theorem run_cons_of_step {w w1 : World} {s : Step} (h : w.step s = some w1)
    (rest : List Step) : w.run (s :: rest) = w1.run rest := by
  simp [World.run, h]

theorem flush_effect {w : World} (h : Inv w) :
    ∃ c, w.lg.current_buffer_ = some c ∧
      (c.length > 0 → w.lg.flush.buffers_queue_ = w.lg.buffers_queue_ ++ [c]) ∧
      (c.length = 0 → w.lg.flush.buffers_queue_ = w.lg.buffers_queue_) ∧
      (∃ c1, w.lg.flush.current_buffer_ = some c1 ∧ c1.length = 0) ∧
      w.lg.flush.next_buffer_ = w.lg.next_buffer_ := by
  obtain ⟨c, hc, _⟩ := h.cur
  refine ⟨c, hc, ?_⟩
  unfold Logger.flush
  rw [hc]
  dsimp only
  by_cases hl : c.length > 0
  · rw [if_pos hl]
    exact ⟨fun _ => rfl, fun h0 => by omega, ⟨make_shared, rfl, rfl⟩, rfl⟩
  · rw [if_neg hl]
    exact ⟨fun h0 => absurd h0 hl, fun _ => rfl, ⟨c, hc, by omega⟩, rfl⟩

theorem lock_post {w : World} (h : Inv w) (hpc : w.th.pc = Pc.head) :
    w.threadFunc_lock.lg.buffers_queue_ = [] ∧
    (∃ c, w.threadFunc_lock.lg.current_buffer_ = some c ∧ c.length = 0) := by
  obtain ⟨c, hc, hcw⟩ := h.cur
  obtain ⟨hb, hp1, hp2⟩ := h.head hpc
  obtain ⟨b1, hb1⟩ := Option.ne_none_iff_exists'.mp hp1
  refine ⟨by simp only [World.threadFunc_lock, hb], ?_⟩
  unfold World.threadFunc_lock
  by_cases hl : c.length > 0
  · simp only [hc, hb1, if_pos hl]
    exact ⟨b1, rfl, (h.np1 b1 hb1).2⟩
  · simp only [hc, if_neg hl]
    exact ⟨c, rfl, by omega⟩

theorem lock_exits {w : World} {c : Buf} (hrun : w.lg.running_ = false)
    (hq : w.lg.buffers_queue_ = []) (hc : w.lg.current_buffer_ = some c)
    (hl : c.length = 0) : w.threadFunc_lock.th.pc = Pc.exited := by
  have hl' : ¬ c.length > 0 := by omega
  simp [World.threadFunc_lock, hc, if_neg hl', hq, hrun]

/-- With `running_` cleared and no producer active, the background thread at the
loop head leaves the loop within three of its steps (critical section, write
section, critical section with `break`), with nothing left buffered. -/
theorem settle {w : World} (h : Inv w) (hpc : w.th.pc = Pc.head)
    (hrun : w.lg.running_ = false) (e1 e2 e3 : Env) :
    (((w.threadFunc_step e1).threadFunc_step e2).threadFunc_step e3).th.pc = Pc.exited ∧
    (((w.threadFunc_step e1).threadFunc_step e2).threadFunc_step e3).pending = [] ∧
    (((w.threadFunc_step e1).threadFunc_step e2).threadFunc_step e3).lg.buffers_queue_
      = [] := by
  have hstep1 : w.threadFunc_step e1 = w.threadFunc_lock := by
    unfold World.threadFunc_step; rw [hpc]
  obtain ⟨_, _, _, hrun1, hbuf1⟩ := lock_pending h hpc
  obtain ⟨hq1, c1, hc1, hl1⟩ := lock_post h hpc
  have hi1 := Inv_lock h hpc
  rw [hstep1]
  rcases lock_pc w with hx | hx
  · have hs2 : ∀ e, w.threadFunc_lock.threadFunc_step e = w.threadFunc_lock := by
      intro e; unfold World.threadFunc_step; rw [hx]
    rw [hs2, hs2]
    exact ⟨hx, by rw [pending_of_not_writing hi1 (by rw [hx]; decide), hbuf1], hq1⟩
  · have hs2 : w.threadFunc_lock.threadFunc_step e2
        = w.threadFunc_lock.threadFunc_write e2 := by
      unfold World.threadFunc_step; rw [hx]
    rw [hs2]
    have hi2 := Inv_write hi1 hx e2
    have hpc2 : (w.threadFunc_lock.threadFunc_write e2).th.pc = Pc.head := by
      rw [write_th]
    have hs3 : (w.threadFunc_lock.threadFunc_write e2).threadFunc_step e3
        = (w.threadFunc_lock.threadFunc_write e2).threadFunc_lock := by
      unfold World.threadFunc_step; rw [hpc2]
    rw [hs3]
    have hex : (w.threadFunc_lock.threadFunc_write e2).threadFunc_lock.th.pc = Pc.exited :=
      lock_exits (c := c1) (by rw [write_running, hrun1, hrun]) (by rw [write_queue, hq1])
        (by rw [write_current, hc1]) hl1
    obtain ⟨_, _, _, _, hbuf3⟩ := lock_pending hi2 hpc2
    obtain ⟨hq3, _⟩ := lock_post hi2 hpc2
    have hi3 := Inv_lock hi2 hpc2
    exact ⟨hex, by rw [pending_of_not_writing hi3 (by rw [hex]; decide), hbuf3], hq3⟩

/-- From any state of the loop, with `running_` cleared: four steps of the
background thread are enough to leave the loop. -/
theorem settle4 {w : World} (h : Inv w) (hrun : w.lg.running_ = false)
    (hloop : w.th.pc ≠ Pc.exited) (e1 e2 e3 e4 : Env) :
    ((((w.threadFunc_step e1).threadFunc_step e2).threadFunc_step e3).threadFunc_step
        e4).th.pc = Pc.exited ∧
    ((((w.threadFunc_step e1).threadFunc_step e2).threadFunc_step e3).threadFunc_step
        e4).pending = [] ∧
    ((((w.threadFunc_step e1).threadFunc_step e2).threadFunc_step e3).threadFunc_step
        e4).lg.buffers_queue_ = [] := by
  cases hpc : w.th.pc with
  | head =>
    obtain ⟨a1, a2, a3⟩ := settle h hpc hrun e1 e2 e3
    have hs4 : (((w.threadFunc_step e1).threadFunc_step e2).threadFunc_step e3).threadFunc_step
        e4 = ((w.threadFunc_step e1).threadFunc_step e2).threadFunc_step e3 := by
      generalize ((w.threadFunc_step e1).threadFunc_step e2).threadFunc_step e3 = x at a1 ⊢
      unfold World.threadFunc_step; rw [a1]
    rw [hs4]
    exact ⟨a1, a2, a3⟩
  | writing =>
    have hs1 : w.threadFunc_step e1 = w.threadFunc_write e1 := by
      unfold World.threadFunc_step; rw [hpc]
    rw [hs1]
    exact settle (Inv_write h hpc e1) (by rw [write_th]) (by rw [write_running, hrun])
      e2 e3 e4
  | exited => exact absurd hpc hloop

/-! ## Rotation -/

theorem bytesOf_filter (bufs : List Buf) :
    bytesOf (bufs.filter fun b => decide (b.length > 0)) = bytesOf bufs := by
  induction bufs with
  | nil => rfl
  | cons b rest ih =>
    by_cases hl : b.length > 0
    · rw [List.filter_cons_of_pos (by simpa using hl), bytesOf_cons, bytesOf_cons, ih]
    · rw [List.filter_cons_of_neg (by simpa using hl), bytesOf_cons, ih,
        LogBuffer.contents_of_length_zero (by omega)]
      rfl

theorem writtenBy_cons {w w1 : World} {s : Step} (h : w.step s = some w1) (rest : List Step) :
    w.writtenBy (s :: rest) = w.stepBytes s ++ w1.writtenBy rest := by
  simp [World.writtenBy, h]

theorem rotationStamps_cons {w w1 : World} {s : Step} (h : w.step s = some w1)
    (rest : List Step) :
    w.rotationStamps (s :: rest) = w.stepStamps s ++ w1.rotationStamps rest := by
  simp [World.rotationStamps, h]

/-- One step that writes no more than the threshold allows: no rotation, the
written bytes are at the end of the file `p`. -/
theorem calm_step {w : World} {p : String} (h : Inv w) (ho : Opened w p) (s : Step)
    (hbud : w.lg.written_bytes_ + ((w.stepBytes s).length : Int) ≤ w.lg.roll_size_) :
    ∃ w1, w.step s = some w1 ∧ Inv w1 ∧ Opened w1 p ∧ w.stepStamps s = [] ∧
      w1.fs = w.fs.write p (w.stepBytes s) ∧
      w1.lg.written_bytes_ = w.lg.written_bytes_ + ((w.stepBytes s).length : Int) ∧
      w1.lg.roll_size_ = w.lg.roll_size_ ∧
      w1.lg.log_file_name_ = w.lg.log_file_name_ := by
  obtain ⟨w1, hw1, hi1⟩ := Inv_step h s
  refine ⟨w1, hw1, hi1, ?_⟩
  obtain ⟨c, hc⟩ := ho.onDisk
  have hnil := FileSys.write_nil hc
  cases s with
  | append data =>
    simp only [World.step, Option.map_eq_some'] at hw1
    obtain ⟨lg, hlg, rfl⟩ := hw1
    have hcfg : lg.SameConfig w.lg := by
      unfold Logger.append at hlg
      split_ifs at hlg with h0
      · cases hlg; exact ⟨rfl, rfl, rfl, rfl, rfl⟩
      · cases hcur : w.lg.current_buffer_ with
        | none => rw [hcur] at hlg; cases hlg
        | some cur =>
          rw [hcur] at hlg
          dsimp only at hlg
          split_ifs at hlg <;> cases hlg <;> exact ⟨rfl, rfl, rfl, rfl, rfl⟩
    obtain ⟨c1, c2, c3, c4, _⟩ := hcfg
    refine ⟨⟨c1.trans ho.ofs, ⟨c, hc⟩, ?_, ?_⟩, rfl, ?_, ?_, c3, c4⟩
    · show 0 ≤ lg.written_bytes_
      rw [c2]; exact ho.counter
    · show lg.roll_size_ < 2 ^ 63
      rw [c3]; exact ho.roll
    · simp only [World.stepBytes]; exact hnil.symm
    · simp only [World.stepBytes, List.length_nil, Nat.cast_zero, add_zero]; exact c2
  | flush =>
    obtain ⟨_, ⟨c1, c2, c3, c4, _⟩, _⟩ := flush_buffered h
    simp only [World.step, Option.some.injEq] at hw1
    subst hw1
    refine ⟨⟨c1.trans ho.ofs, ⟨c, hc⟩, ?_, ?_⟩, rfl, ?_, ?_, c3, c4⟩
    · show 0 ≤ w.lg.flush.written_bytes_
      rw [c2]; exact ho.counter
    · show w.lg.flush.roll_size_ < 2 ^ 63
      rw [c3]; exact ho.roll
    · simp only [World.stepBytes]; exact hnil.symm
    · simp only [World.stepBytes, List.length_nil, Nat.cast_zero, add_zero]; exact c2
  | destroy =>
    obtain ⟨_, ⟨c1, c2, c3, c4, _⟩, _⟩ := destroy_buffered h
    simp only [World.step, Option.some.injEq] at hw1
    subst hw1
    refine ⟨⟨c1.trans ho.ofs, ⟨c, hc⟩, ?_, ?_⟩, rfl, ?_, ?_, c3, c4⟩
    · show 0 ≤ w.lg.destroy.written_bytes_
      rw [c2]; exact ho.counter
    · show w.lg.destroy.roll_size_ < 2 ^ 63
      rw [c3]; exact ho.roll
    · simp only [World.stepBytes]; exact hnil.symm
    · simp only [World.stepBytes, List.length_nil, Nat.cast_zero, add_zero]; exact c2
  | writer env =>
    simp only [World.step, Option.some.injEq] at hw1
    subst hw1
    unfold World.threadFunc_step at hi1 ⊢
    cases hpc : w.th.pc with
    | exited =>
      have hb : w.stepBytes (Step.writer env) = [] := by
        simp [World.stepBytes, hpc]
      have hst : w.stepStamps (Step.writer env) = [] := by
        simp [World.stepStamps, hpc]
      rw [hb, hst]
      exact ⟨ho, rfl, hnil.symm, by simp, rfl, rfl⟩
    | head =>
      have hb : w.stepBytes (Step.writer env) = [] := by
        simp [World.stepBytes, hpc]
      have hst : w.stepStamps (Step.writer env) = [] := by
        simp [World.stepStamps, hpc]
      rw [hb, hst]
      dsimp only
      obtain ⟨_, hfs, ⟨c1, c2, c3, c4, _⟩, _, _⟩ := lock_pending h hpc
      refine ⟨⟨c1.trans ho.ofs, ⟨c, hfs ▸ hc⟩, ?_, ?_⟩, rfl, ?_, ?_, c3, c4⟩
      · rw [c2]; exact ho.counter
      · rw [c3]; exact ho.roll
      · rw [hfs]; exact hnil.symm
      · rw [c2]; simp
    | writing =>
      have hb : w.stepBytes (Step.writer env) = bytesOf w.th.buffers_to_write := by
        simp [World.stepBytes, hpc, ho.ofs, bytesOf_filter]
      rw [hb] at hbud ⊢
      have hcnt := ho.counter
      have hr := ho.roll
      have hwa := writeAll_open (p := p) w.th.buffers_to_write h.btw w.fs
        w.lg.written_bytes_ c hc (by omega) (by omega)
      have hst : w.stepStamps (Step.writer env) = [] := by
        simp only [World.stepStamps, hpc, ho.ofs, hwa, World.rotates]
        rw [decide_eq_false (by omega)]
        simp
      rw [hst]
      dsimp only
      obtain ⟨e1, e2, e3⟩ := write_quiet h ho.ofs hc (by omega) hbud ho.roll env
      refine ⟨⟨e2, ⟨_, by rw [e1]; exact FileSys.read_write hc _⟩, ?_, ?_⟩, rfl, e1, e3,
        write_roll_size w env, write_log_file_name w env⟩
      · rw [e3]; omega
      · rw [write_roll_size]; exact ho.roll

/-- A schedule that writes no more than the threshold allows. -/
theorem calm_run {p : String} (sched : List Step) :
    ∀ {w : World}, Inv w → Opened w p →
      w.lg.written_bytes_ + ((w.writtenBy sched).length : Int) ≤ w.lg.roll_size_ →
      ∃ w1, w.run sched = some w1 ∧ Inv w1 ∧ Opened w1 p ∧ w.rotationStamps sched = [] ∧
        w1.fs = w.fs.write p (w.writtenBy sched) ∧
        w1.lg.written_bytes_ = w.lg.written_bytes_ + ((w.writtenBy sched).length : Int) := by
  induction sched with
  | nil =>
    intro w h ho _
    obtain ⟨c, hc⟩ := ho.onDisk
    exact ⟨w, rfl, h, ho, rfl, (FileSys.write_nil hc).symm, by simp [World.writtenBy]⟩
  | cons s rest ih =>
    intro w h ho hbud
    obtain ⟨w1', hw1', _⟩ := Inv_step h s
    rw [writtenBy_cons hw1', List.length_append] at hbud
    push_cast at hbud
    have hnn : (0 : Int) ≤ ((w1'.writtenBy rest).length : Int) := Int.natCast_nonneg _
    obtain ⟨w1, hw1, hi1, ho1, hst1, hfs1, hc1, hr1, _⟩ := calm_step h ho s (by omega)
    rw [hw1] at hw1'
    cases hw1'
    obtain ⟨w2, hw2, hi2, ho2, hst2, hfs2, hc2⟩ := ih hi1 ho1 (by rw [hc1, hr1]; omega)
    obtain ⟨c, hc⟩ := ho.onDisk
    refine ⟨w2, by rw [run_cons_of_step hw1]; exact hw2, hi2, ho2, ?_, ?_, ?_⟩
    · rw [rotationStamps_cons hw1, hst1, hst2]; rfl
    · rw [hfs2, hfs1, writtenBy_cons hw1, FileSys.write_write hc]
    · rw [hc2, hc1, writtenBy_cons hw1, List.length_append]
      push_cast
      omega

/-- C6: no rotation at or below the threshold.  For every run that starts from
a freshly constructed logger (the counter `written_bytes_` is 0) whose stream is
open on the file `p`, and in which the bytes written over all drain cycles are
`T` in number with `T <= roll_size_` (equality included), the run goes through,
no drain cycle performs a rotation, the stream stays open on `p`, no file is
created or renamed, and the file `p` has gained exactly the `T` written bytes;
when `p` was the only file and empty, it is still the only file and holds
exactly these `T` bytes. -/
theorem C6_no_rotation_below_threshold (w0 : World) (p : String) (sched : List Step)
    (h0 : w0.Fresh) (hopen : w0.lg._ofs = some p) (hdisk : ∃ c, w0.fs.read p = some c)
    (hroll : w0.lg.roll_size_ < 2 ^ 63)
    (hT : ((w0.writtenBy sched).length : Int) ≤ w0.lg.roll_size_) :
    ∃ w, w0.run sched = some w ∧ w0.rotationStamps sched = [] ∧ w.lg._ofs = some p ∧
      w.fs = w0.fs.write p (w0.writtenBy sched) ∧
      w.fs.map Prod.fst = w0.fs.map Prod.fst ∧
      w.file = w0.file ++ w0.writtenBy sched ∧
      (w0.fs = [(p, [])] → w.fs = [(p, w0.writtenBy sched)]) := by
  have hi0 := Inv_of_Fresh h0
  have ho0 : Opened w0 p := ⟨hopen, hdisk, by rw [h0.2.2.2.2.1], hroll⟩
  obtain ⟨w, hw, _, ho, hst, hfs, _⟩ :=
    calm_run (p := p) sched hi0 ho0 (by rw [h0.2.2.2.2.1]; simpa using hT)
  obtain ⟨c, hc⟩ := hdisk
  refine ⟨w, hw, hst, ho.ofs, hfs, ?_, ?_, ?_⟩
  · rw [hfs]; exact FileSys.names_write hc _
  · rw [file_eq ho.ofs (by rw [hfs]; exact FileSys.read_write hc _), file_eq hopen hc]
  · intro hone
    rw [hfs, hone]
    simp [FileSys.write, FileSys.read]

/-- C6, witness: threshold 5; three bytes are appended and drained, then two
more: exactly 5 bytes are written, no rotation, one file with the 5 bytes. -/
theorem C6_no_rotation_below_threshold_witness :
    ∃ w, (((World.boot []).init "a.log" true).set_roll_size 5).run
        [Step.append [1, 2, 3], Step.writer ⟨".20260101-000000", true, true⟩,
          Step.writer ⟨".20260101-000000", true, true⟩, Step.append [4, 5],
          Step.writer ⟨".20260101-000001", true, true⟩,
          Step.writer ⟨".20260101-000001", true, true⟩] = some w ∧
      w.fs = [("a.log", [1, 2, 3, 4, 5])] := by
  obtain ⟨w, h1, _, _, _, _, _, h7⟩ :=
    C6_no_rotation_below_threshold (((World.boot []).init "a.log" true).set_roll_size 5)
      "a.log"
      [Step.append [1, 2, 3], Step.writer ⟨".20260101-000000", true, true⟩,
        Step.writer ⟨".20260101-000000", true, true⟩, Step.append [4, 5],
        Step.writer ⟨".20260101-000001", true, true⟩,
        Step.writer ⟨".20260101-000001", true, true⟩]
      ⟨rfl, rfl, rfl, rfl, rfl, rfl⟩ rfl ⟨[], by decide⟩ (by decide) (by decide)
  exact ⟨w, h1, h7 (by decide)⟩

namespace FileSys

theorem read_append_off {R : FileSys} {p : String} (hR : ∀ e ∈ R, e.1 ≠ p) (X : FileSys) :
    read (R ++ X) p = read X p := by
  induction R with
  | nil => rfl
  | cons e rest ih =>
    rw [List.cons_append, read_cons,
      if_neg (hR e (List.mem_cons_self _ _)),
      ih (fun x hx => hR x (List.mem_cons_of_mem _ hx))]

theorem read_snoc {R : FileSys} {p : String} (hR : ∀ e ∈ R, e.1 ≠ p) (c : List Byte) :
    read (R ++ [(p, c)]) p = some c := by
  rw [read_append_off hR, read_cons]
  simp

theorem read_off {R : FileSys} {p : String} (hR : ∀ e ∈ R, e.1 ≠ p) : read R p = none := by
  have := read_append_off hR []
  rw [List.append_nil] at this
  rw [this]
  rfl

theorem write_snoc {R : FileSys} {p : String} (hR : ∀ e ∈ R, e.1 ≠ p) (c a : List Byte) :
    write (R ++ [(p, c)]) p a = R ++ [(p, c ++ a)] := by
  unfold write
  rw [read_snoc hR]
  dsimp only
  rw [List.map_append]
  congr 1
  · conv_rhs => rw [← List.map_id R]
    apply List.map_congr_left
    intro e he
    have := hR e he
    simp [this]
  · simp

theorem rename_snoc {R : FileSys} {p new : String} (hR : ∀ e ∈ R, e.1 ≠ p)
    (hN : ∀ e ∈ R, e.1 ≠ new) (hne : p ≠ new) (c : List Byte) :
    rename (R ++ [(p, c)]) p new = some (R ++ [(new, c)]) := by
  unfold rename
  rw [read_snoc hR]
  dsimp only
  rw [if_neg hne, List.filter_append]
  have h1 : R.filter (fun e => !(e.1 == p) && !(e.1 == new)) = R := by
    rw [List.filter_eq_self]
    intro e he
    simp [hR e he, hN e he]
  have h2 : [(p, c)].filter (fun e => !(e.1 == p) && !(e.1 == new)) = [] := by
    simp
  rw [h1, h2, List.append_nil]

theorem openApp_off {R : FileSys} {p : String} (hR : ∀ e ∈ R, e.1 ≠ p) :
    openApp R p = R ++ [(p, [])] := by
  unfold openApp
  rw [read_off hR]

theorem diskBytes_append (a b : FileSys) : diskBytes (a ++ b) = diskBytes a + diskBytes b := by
  simp [diskBytes, List.sum_append]

theorem diskBytes_singleton (p : String) (c : List Byte) : diskBytes [(p, c)] = c.length := by
  simp [diskBytes]

end FileSys

theorem append_ne_self {p t : String} (ht : t ≠ "") : p ++ t ≠ p := by
  intro h
  have h1 := congrArg String.data h
  rw [String.data_append] at h1
  exact ht (String.ext (List.append_right_eq_self.mp h1))

theorem append_left_inj {p a b : String} (h : p ++ a = p ++ b) : a = b := by
  have h1 := congrArg String.data h
  rw [String.data_append, String.data_append] at h1
  exact String.ext (List.append_cancel_left h1)

theorem Rot.off {w : World} {p : String} {R : FileSys} {c : List Byte} {done : List String}
    (hr : Rot w p R c done) : ∀ e ∈ R, e.1 ≠ p := by
  intro e he
  have hm : e.1 ∈ R.map Prod.fst := List.mem_map_of_mem _ he
  rw [hr.names, List.mem_map] at hm
  obtain ⟨t, ht, hte⟩ := hm
  rw [← hte]
  exact append_ne_self (hr.stamps t ht)

theorem Rot.opened {w : World} {p : String} {R : FileSys} {c : List Byte}
    {done : List String} (hr : Rot w p R c done) : Opened w p :=
  ⟨hr.ofs, ⟨c, by rw [hr.fs]; exact FileSys.read_snoc hr.off c⟩,
    by rw [hr.counter]; exact Int.natCast_nonneg _, hr.roll⟩

/-- The write section when the counter ends above the threshold: the base file
is renamed to `p ++ ts` and a new empty base file is opened. -/
theorem write_rotating {w : World} {p : String} {R : FileSys} {c : List Byte}
    {done : List String} (hr : Rot w p R c done) (hp : p ≠ "") (env : Env)
    (hren : env.renameOk = true) (hopen : env.openOk = true) (hts : env.ts ≠ "")
    (hfresh : env.ts ∉ done)
    (hb : (c.length : Int) + ((bytesOf w.th.buffers_to_write).length : Int) < 2 ^ 63)
    (hgt : (c.length : Int) + ((bytesOf w.th.buffers_to_write).length : Int)
      > w.lg.roll_size_) :
    (w.threadFunc_write env).fs
        = (R ++ [(p ++ env.ts, c ++ bytesOf w.th.buffers_to_write)]) ++ [(p, [])] ∧
      (w.threadFunc_write env).lg._ofs = some p ∧
      (w.threadFunc_write env).lg.written_bytes_ = 0 ∧
      World.rotates w.lg._ofs
        (World.writeAll w.lg._ofs w.th.buffers_to_write w.fs w.lg.written_bytes_).2
        w.lg.roll_size_ w.lg.log_file_name_ = true := by
  have hoff := hr.off
  have hrd : w.fs.read p = some c := by rw [hr.fs]; exact FileSys.read_snoc hoff c
  have hwa := writeAll_open (p := p) w.th.buffers_to_write hr.inv.btw w.fs
    w.lg.written_bytes_ c hrd (by rw [hr.counter]; omega) (by rw [hr.counter]; omega)
  have hfs1 : w.fs.write p (bytesOf w.th.buffers_to_write)
      = R ++ [(p, c ++ bytesOf w.th.buffers_to_write)] := by
    rw [hr.fs]; exact FileSys.write_snoc hoff _ _
  have hpe : p.isEmpty = false := by
    cases hx : p.isEmpty with
    | false => rfl
    | true => exact absurd ((String.isEmpty_iff p).mp hx) hp
  have hrot : World.rotates (some p)
      (w.lg.written_bytes_ + (bytesOf w.th.buffers_to_write).length) w.lg.roll_size_ p
      = true := by
    unfold World.rotates
    rw [decide_eq_true (by rw [hr.counter]; omega), hpe]
    rfl
  have hnew : ∀ e ∈ R, e.1 ≠ p ++ env.ts := by
    intro e he heq
    have hm : e.1 ∈ R.map Prod.fst := List.mem_map_of_mem _ he
    rw [hr.names, List.mem_map] at hm
    obtain ⟨t, ht, hte⟩ := hm
    rw [heq] at hte
    exact hfresh (append_left_inj hte ▸ ht)
  have hrn : FileSys.rename (R ++ [(p, c ++ bytesOf w.th.buffers_to_write)]) p (p ++ env.ts)
      = some (R ++ [(p ++ env.ts, c ++ bytesOf w.th.buffers_to_write)]) :=
    FileSys.rename_snoc hoff hnew (fun h => append_ne_self hts h.symm) _
  have hoa : FileSys.openApp (R ++ [(p ++ env.ts, c ++ bytesOf w.th.buffers_to_write)]) p
      = (R ++ [(p ++ env.ts, c ++ bytesOf w.th.buffers_to_write)]) ++ [(p, [])] := by
    apply FileSys.openApp_off
    intro e he
    rcases List.mem_append.mp he with he | he
    · exact hoff e he
    · rw [List.mem_singleton.mp he]
      exact append_ne_self hts
  refine ⟨?_, ?_, ?_, ?_⟩
  · simp only [World.threadFunc_write, World.rotate, hr.ofs, hwa, hr.name, hrot, if_true,
      hren, hopen, hfs1, hrn, hoa]
  · simp only [World.threadFunc_write, World.rotate, hr.ofs, hwa, hr.name, hrot, if_true,
      hren, hopen, hfs1, hrn, hoa]
  · simp only [World.threadFunc_write, World.rotate, hr.ofs, hwa, hr.name, hrot, if_true,
      hren, hopen, hfs1, hrn, hoa]
  · rw [hr.ofs, hwa, hr.name]
    exact hrot

theorem stepBytes_writing {w : World} {s : Step} (h : w.stepBytes s ≠ []) :
    ∃ env, s = Step.writer env ∧ w.th.pc = Pc.writing ∧
      w.stepBytes s = bytesOf w.th.buffers_to_write := by
  cases s with
  | append d => exact absurd rfl h
  | flush => exact absurd rfl h
  | destroy => exact absurd rfl h
  | writer env =>
    refine ⟨env, rfl, ?_⟩
    unfold World.stepBytes at h ⊢
    split_ifs at h ⊢ with hc
    · exact ⟨hc.1, bytesOf_filter _⟩
    · exact absurd rfl h

/-- One step of a logger that rotates its base file. -/
theorem rot_step {w : World} {p : String} {R : FileSys} {c : List Byte} {done : List String}
    (hr : Rot w p R c done) (hp : p ≠ "") (s : Step)
    (henv : ∀ e, s = Step.writer e → e.renameOk = true ∧ e.openOk = true ∧ e.ts ≠ "")
    (hfresh : ∀ t ∈ w.stepStamps s, t ∉ done)
    (hb : (c.length : Int) + ((w.stepBytes s).length : Int) < 2 ^ 63) :
    ∃ w1 R1 c1, w.step s = some w1 ∧ Rot w1 p R1 c1 (done ++ w.stepStamps s) ∧
      FileSys.diskBytes w1.fs = FileSys.diskBytes w.fs + (w.stepBytes s).length ∧
      w1.fs.length = w.fs.length + (w.stepStamps s).length ∧
      (w.stepStamps s = [] → c1.length = c.length + (w.stepBytes s).length) ∧
      c1.length ≤ c.length + (w.stepBytes s).length ∧
      w1.lg.roll_size_ = w.lg.roll_size_ := by
  have hoff := hr.off
  by_cases hle : (c.length : Int) + ((w.stepBytes s).length : Int) ≤ w.lg.roll_size_
  · obtain ⟨w1, hw1, hi1, ho1, hst1, hfs1, hc1, hr1, hn1⟩ :=
      calm_step hr.inv hr.opened s (by rw [hr.counter]; exact hle)
    have hfs : w1.fs = R ++ [(p, c ++ w.stepBytes s)] := by
      rw [hfs1, hr.fs]; exact FileSys.write_snoc hoff _ _
    refine ⟨w1, R, c ++ w.stepBytes s, hw1, ?_, ?_, ?_, ?_,
      by rw [List.length_append], hr1⟩
    · rw [hst1, List.append_nil]
      exact
        { inv := hi1, ofs := ho1.ofs, name := hn1.trans hr.name, fs := hfs,
          names := hr.names, stamps := hr.stamps,
          counter := by rw [hc1, hr.counter, List.length_append]; push_cast; rfl,
          below := by rw [hr1, List.length_append]; push_cast; exact hle,
          roll := ho1.roll }
    · rw [hfs, hr.fs]
      simp only [FileSys.diskBytes_append, FileSys.diskBytes_singleton, List.length_append]
      omega
    · rw [hfs, hr.fs, hst1]
      simp
    · intro _; rw [List.length_append]
  · have hbelow := hr.below
    have hne : w.stepBytes s ≠ [] := by
      intro h0
      rw [h0] at hle
      simp at hle
      omega
    obtain ⟨env, rfl, hpc, hbytes⟩ := stepBytes_writing hne
    obtain ⟨hren, hopen, hts⟩ := henv env rfl
    rw [hbytes] at hb hle ⊢
    have hrotT : World.rotates w.lg._ofs
        (World.writeAll w.lg._ofs w.th.buffers_to_write w.fs w.lg.written_bytes_).2
        w.lg.roll_size_ w.lg.log_file_name_ = true → w.stepStamps (Step.writer env) = [env.ts] := by
      intro hT
      simp [World.stepStamps, hpc, hT]
    have hfr0 : ∀ hT : World.rotates w.lg._ofs
        (World.writeAll w.lg._ofs w.th.buffers_to_write w.fs w.lg.written_bytes_).2
        w.lg.roll_size_ w.lg.log_file_name_ = true, env.ts ∉ done := by
      intro hT
      apply hfresh
      rw [hrotT hT]
      exact List.mem_singleton_self _
    -- the rotation test holds whatever the stamp is
    have hrd : w.fs.read p = some c := by rw [hr.fs]; exact FileSys.read_snoc hoff c
    have hwa := writeAll_open (p := p) w.th.buffers_to_write hr.inv.btw w.fs
      w.lg.written_bytes_ c hrd (by rw [hr.counter]; omega) (by rw [hr.counter]; omega)
    have hpe : p.isEmpty = false := by
      cases hx : p.isEmpty with
      | false => rfl
      | true => exact absurd ((String.isEmpty_iff p).mp hx) hp
    have hT : World.rotates w.lg._ofs
        (World.writeAll w.lg._ofs w.th.buffers_to_write w.fs w.lg.written_bytes_).2
        w.lg.roll_size_ w.lg.log_file_name_ = true := by
      rw [hr.ofs, hwa, hr.name]
      unfold World.rotates
      rw [decide_eq_true (by rw [hr.counter]; omega), hpe]
      rfl
    obtain ⟨f1, f2, f3, _⟩ :=
      write_rotating hr hp env hren hopen hts (hfr0 hT) hb (by omega)
    have hstep : w.step (Step.writer env) = some (w.threadFunc_write env) := by
      simp only [World.step, World.threadFunc_step, hpc]
    rw [hrotT hT]
    refine ⟨w.threadFunc_write env,
      R ++ [(p ++ env.ts, c ++ bytesOf w.th.buffers_to_write)], [], hstep, ?_, ?_, ?_, ?_,
      by simp, write_roll_size w env⟩
    · exact
        { inv := Inv_write hr.inv hpc env, ofs := f2,
          name := (write_log_file_name w env).trans hr.name, fs := f1,
          names := by rw [List.map_append, List.map_append, hr.names]; rfl,
          stamps := by
            intro t ht
            rcases List.mem_append.mp ht with ht | ht
            · exact hr.stamps t ht
            · rw [List.mem_singleton.mp ht]; exact hts,
          counter := by rw [f3]; rfl,
          below := by rw [write_roll_size]; simp only [List.length_nil, Nat.cast_zero]; omega,
          roll := by rw [write_roll_size]; exact hr.roll }
    · rw [f1, hr.fs]
      simp only [FileSys.diskBytes_append, FileSys.diskBytes_singleton, List.length_append,
        List.length_nil]
      omega
    · rw [f1, hr.fs]
      simp
    · intro h; cases h

/-- A whole schedule of a logger that rotates its base file, the time stamps of
the rotations being pairwise different. -/
theorem rot_run {p : String} (hp : p ≠ "") (sched : List Step) :
    ∀ {w : World} {R : FileSys} {c : List Byte} {done : List String},
      Rot w p R c done →
      (∀ e, Step.writer e ∈ sched → e.renameOk = true ∧ e.openOk = true ∧ e.ts ≠ "") →
      (done ++ w.rotationStamps sched).Nodup →
      (c.length : Int) + ((w.writtenBy sched).length : Int) < 2 ^ 63 →
      ∃ w1 R1 c1, w.run sched = some w1 ∧
        Rot w1 p R1 c1 (done ++ w.rotationStamps sched) ∧
        FileSys.diskBytes w1.fs = FileSys.diskBytes w.fs + (w.writtenBy sched).length ∧
        w1.fs.length = w.fs.length + (w.rotationStamps sched).length ∧
        (w.rotationStamps sched = [] → c1.length = c.length + (w.writtenBy sched).length) ∧
        w1.lg.roll_size_ = w.lg.roll_size_ := by
  induction sched with
  | nil =>
    intro w R c done hr _ _ _
    exact ⟨w, R, c, rfl, by simpa [World.rotationStamps] using hr,
      by simp [World.writtenBy], by simp [World.rotationStamps],
      fun _ => by simp [World.writtenBy], rfl⟩
  | cons s rest ih =>
    intro w R c done hr henv hnd hb
    obtain ⟨w1', hw1', _⟩ := Inv_step hr.inv s
    rw [rotationStamps_cons hw1'] at hnd ⊢
    rw [writtenBy_cons hw1'] at hb ⊢
    rw [List.length_append] at hb
    push_cast at hb
    have hnn : (0 : Int) ≤ ((w1'.writtenBy rest).length : Int) := Int.natCast_nonneg _
    have hfresh : ∀ t ∈ w.stepStamps s, t ∉ done := by
      intro t ht htd
      rw [List.nodup_append] at hnd
      exact hnd.2.2 htd (List.mem_append_left _ ht)
    obtain ⟨w1, R1, c1, hw1, hr1, hd1, hl1, hc1, hc1le, hro1⟩ :=
      rot_step hr hp s (fun e he => henv e (he ▸ List.mem_cons_self _ _)) hfresh (by omega)
    rw [hw1] at hw1'
    cases hw1'
    obtain ⟨w2, R2, c2, hw2, hr2, hd2, hl2, hc2, hro2⟩ :=
      ih hr1 (fun e he => henv e (List.mem_cons_of_mem _ he))
        (by rw [List.append_assoc]; exact hnd) (by omega)
    refine ⟨w2, R2, c2, by rw [run_cons_of_step hw1]; exact hw2, ?_, ?_, ?_, ?_,
      hro2.trans hro1⟩
    · rw [← List.append_assoc]; exact hr2
    · rw [hd2, hd1, List.length_append]; omega
    · rw [hl2, hl1, List.length_append]; omega
    · intro hnil
      rw [List.append_eq_nil] at hnil
      rw [hc2 hnil.2, hc1 hnil.1, List.length_append]
      omega
theorem WF_new {SIZE : Nat} (h : SIZE < 2 ^ 31) : (LogBuffer.new SIZE).WF :=
  ⟨by simp [LogBuffer.new], Nat.zero_le _, h⟩

theorem WF_applyAll {SIZE : Nat} (ops : List BufOp) :
    ∀ {b : LogBuffer SIZE}, b.WF → (b.applyAll ops).WF := by
  induction ops with
  | nil => intro b h; exact h
  | cons op rest ih =>
    intro b h
    apply ih
    cases op with
    | append buf => exact LogBuffer.WF_append buf h
    | reset => exact LogBuffer.WF_reset h

/-- C11: the capacity invariant of `LogBuffer`.  For every sequence of `append`
calls (of any length, also longer than the capacity) and `reset` calls applied
to a freshly constructed `LogBuffer<SIZE>` (`SIZE` a valid `int` template
argument), the buffer after the sequence, so after every operation, has
`length() <= SIZE` and `avail() = SIZE - length()` with `avail() + length() =
SIZE` (no underflow); a `reset()` then yields `length() = 0` and
`avail() = SIZE`. -/
theorem C11_capacity_invariant (SIZE : Nat) (ops : List BufOp) (hS : SIZE < 2 ^ 31) :
    ((LogBuffer.new SIZE).applyAll ops).length ≤ SIZE ∧
    ((LogBuffer.new SIZE).applyAll ops).avail
      = SIZE - ((LogBuffer.new SIZE).applyAll ops).length ∧
    ((LogBuffer.new SIZE).applyAll ops).avail
      + ((LogBuffer.new SIZE).applyAll ops).length = SIZE ∧
    ((LogBuffer.new SIZE).applyAll ops).reset.length = 0 ∧
    ((LogBuffer.new SIZE).applyAll ops).reset.avail = SIZE := by
  have hw := WF_applyAll ops (WF_new hS)
  have ha := LogBuffer.avail_eq hw
  have hr := LogBuffer.avail_eq (LogBuffer.WF_reset hw)
  have hl : ((LogBuffer.new SIZE).applyAll ops).length ≤ SIZE := hw.2.1
  refine ⟨hl, ha, ?_, rfl, ?_⟩
  · rw [ha]
    unfold LogBuffer.length at hl ⊢
    omega
  · rw [hr]
    rfl

/-- C11, witness: a buffer of capacity 4 takes two bytes, rejects three, takes
two more, rejects one, is reset and takes one byte. -/
theorem C11_capacity_invariant_witness :
    ((LogBuffer.new 4).applyAll
        [BufOp.append [1, 2], BufOp.append [3, 4, 5], BufOp.append [6, 7],
          BufOp.append [8], BufOp.reset, BufOp.append [9]]).length ≤ 4 ∧
    ((LogBuffer.new 4).applyAll
        [BufOp.append [1, 2], BufOp.append [3, 4, 5], BufOp.append [6, 7],
          BufOp.append [8], BufOp.reset, BufOp.append [9]]).avail = 3 :=
  ⟨(C11_capacity_invariant 4
      [BufOp.append [1, 2], BufOp.append [3, 4, 5], BufOp.append [6, 7],
        BufOp.append [8], BufOp.reset, BufOp.append [9]] (by decide)).1,
   (C11_capacity_invariant 4
      [BufOp.append [1, 2], BufOp.append [3, 4, 5], BufOp.append [6, 7],
        BufOp.append [8], BufOp.reset, BufOp.append [9]] (by decide)).2.1⟩

/-! ## The swap protocol of `Logger::append` -/

/-- C12: the producer-side swap protocol of `Logger::append`.  Take a logger
whose active buffer is present and whose spare buffer, if present, is empty,
and `data` of length `len <= 4096`.  A call with `len = 0` changes nothing.
With `0 < len`: if the active buffer has `avail() >= len`, its contents become
the old contents followed by `data` and the queue and the spare are unchanged;
otherwise the old active buffer is appended unchanged to the end of the pending
queue (the earlier elements keep their order), the new active buffer is the
former spare (a new buffer when there was no spare) with `data` appended, it
holds exactly `data`, and the spare slot is empty afterwards.  No other member
changes. -/
theorem C12_swap_protocol (lg : Logger) (cur : Buf) (data : List Byte)
    (hcur : lg.current_buffer_ = some cur) (hcw : cur.WF)
    (hspare : ∀ n, lg.next_buffer_ = some n → n.WF ∧ n.length = 0)
    (hlen : data.length ≤ DefaultBufferSize) :
    (data.length = 0 → lg.append data = some lg) ∧
    (0 < data.length → cur.avail ≥ data.length →
      ∃ lg1, lg.append data = some lg1 ∧
        lg1.current_buffer_ = some (cur.append data) ∧
        (cur.append data).contents = cur.contents ++ data ∧
        lg1.buffers_queue_ = lg.buffers_queue_ ∧ lg1.next_buffer_ = lg.next_buffer_ ∧
        lg1.SameConfig lg ∧ lg1.running_ = lg.running_) ∧
    (0 < data.length → cur.avail < data.length →
      ∃ lg1, lg.append data = some lg1 ∧
        lg1.buffers_queue_ = lg.buffers_queue_ ++ [cur] ∧
        lg1.current_buffer_ = some ((lg.next_buffer_.getD make_shared).append data) ∧
        ((lg.next_buffer_.getD make_shared).append data).contents = data ∧
        lg1.next_buffer_ = none ∧
        lg1.SameConfig lg ∧ lg1.running_ = lg.running_) := by
  refine ⟨?_, ?_, ?_⟩
  · intro h0
    unfold Logger.append
    rw [if_pos h0]
  · intro hpos hfit
    refine ⟨{ lg with current_buffer_ := some (cur.append data) }, ?_, rfl,
      LogBuffer.contents_append hcw hfit, rfl, rfl, ⟨rfl, rfl, rfl, rfl, rfl⟩, rfl⟩
    unfold Logger.append
    rw [if_neg (by omega), hcur]
    dsimp only
    rw [if_pos hfit]
  · intro hpos hfull
    have hfresh : (lg.next_buffer_.getD make_shared).WF ∧
        (lg.next_buffer_.getD make_shared).length = 0 := by
      cases hn : lg.next_buffer_ with
      | none => exact ⟨make_shared_WF, make_shared_length⟩
      | some n => exact hspare n hn
    have hcont : ((lg.next_buffer_.getD make_shared).append data).contents = data := by
      have ha := LogBuffer.avail_eq hfresh.1
      have hl : (lg.next_buffer_.getD make_shared)._cur = 0 := hfresh.2
      rw [LogBuffer.contents_append hfresh.1 (by rw [ha, hl]; exact hlen),
        LogBuffer.contents_of_length_zero hfresh.2]
      rfl
    refine ⟨{ lg with
        buffers_queue_ := lg.buffers_queue_ ++ [cur]
        current_buffer_ := some ((lg.next_buffer_.getD make_shared).append data)
        next_buffer_ := none }, ?_, rfl, rfl, hcont, rfl, ⟨rfl, rfl, rfl, rfl, rfl⟩, rfl⟩
    unfold Logger.append
    rw [if_neg (by omega), hcur]
    dsimp only
    rw [if_neg (by omega)]
    cases hn : lg.next_buffer_ <;> rfl

/-- C12, witness: a new logger takes three bytes into its active buffer. -/
theorem C12_swap_protocol_witness :
    ∃ lg1, Logger.new.append [1, 2, 3] = some lg1 ∧
      lg1.current_buffer_ = some (make_shared.append [1, 2, 3]) ∧
      lg1.buffers_queue_ = [] :=
  let ⟨lg1, h1, h2, _, h4, _⟩ :=
    (C12_swap_protocol Logger.new make_shared [1, 2, 3] rfl make_shared_WF
      (fun n hn => by
        have : n = make_shared := (Option.some.inj hn).symm
        rw [this]
        exact ⟨make_shared_WF, make_shared_length⟩)
      (by decide)).2.1 (by decide) (by decide)
  ⟨lg1, h1, h2, h4⟩

/-! ## No null pointer in `Logger::append` -/

theorem lock_next {w : World} (h : Inv w) (hpc : w.th.pc = Pc.head) :
    w.threadFunc_lock.lg.next_buffer_ ≠ none := by
  obtain ⟨_, _, hp2⟩ := h.head hpc
  obtain ⟨b2, hb2⟩ := Option.ne_none_iff_exists'.mp hp2
  cases hn : w.lg.next_buffer_ with
  | none => simp [World.threadFunc_lock, hn, hb2]
  | some n => simp [World.threadFunc_lock, hn]

/-- C13: the refill of the background thread never leaves a slot empty.  From a
freshly constructed logger every schedule of producer steps (append of any
length, flush, destructor) and background-thread steps (critical section,
write section) runs to its end without a null dereference.  In the state
reached, the two cache pointers of the thread are both present whenever the
thread is at the loop head, the critical section entered there leaves both the
active and the spare slot filled, the active slot is non-null, and a further
`Logger::append` of any data does not meet a null pointer. -/
theorem C13_refill_never_null (w0 : World) (sched : List Step) (h0 : w0.Fresh) :
    ∃ w, w0.run sched = some w ∧
      (w.th.pc = Pc.head → w.th.newPtr1 ≠ none ∧ w.th.newPtr2 ≠ none) ∧
      (w.th.pc = Pc.head →
        w.threadFunc_lock.lg.current_buffer_ ≠ none ∧
        w.threadFunc_lock.lg.next_buffer_ ≠ none) ∧
      w.lg.current_buffer_ ≠ none ∧
      ∀ data, w.lg.append data ≠ none := by
  obtain ⟨w, hw, hi⟩ := Inv_run (Inv_of_Fresh h0) sched
  refine ⟨w, hw, fun hpc => (hi.head hpc).2, ?_, ?_, ?_⟩
  · intro hpc
    obtain ⟨c, hc, _⟩ := (Inv_lock hi hpc).cur
    exact ⟨by rw [hc]; exact Option.some_ne_none c, lock_next hi hpc⟩
  · obtain ⟨c, hc, _⟩ := hi.cur
    rw [hc]; exact Option.some_ne_none c
  · intro data
    obtain ⟨lg, hlg, _⟩ := Inv_append hi data
    rw [hlg]; exact Option.some_ne_none lg

/-- C13, witness: on a new logger, fill the active buffer, force a swap, let the
thread run one iteration, swap again. -/
theorem C13_refill_never_null_witness :
    ∃ w, (World.boot []).run
        [Step.append (List.replicate 4000 1), Step.append (List.replicate 200 2),
          Step.writer ⟨"", true, true⟩, Step.writer ⟨"", true, true⟩,
          Step.append (List.replicate 4000 3)] = some w ∧
      w.lg.current_buffer_ ≠ none :=
  let ⟨w, h1, _, _, h4, _⟩ :=
    C13_refill_never_null (World.boot [])
      [Step.append (List.replicate 4000 1), Step.append (List.replicate 200 2),
        Step.writer ⟨"", true, true⟩, Step.writer ⟨"", true, true⟩,
        Step.append (List.replicate 4000 3)] ⟨rfl, rfl, rfl, rfl, rfl, rfl⟩
  ⟨w, h1, h4⟩

/-! ## The rotation decision of one drain cycle -/

theorem stepBytes_write (w : World) (env : Env) (hpc : w.th.pc = Pc.writing) :
    w.stepBytes (Step.writer env)
      = if w.lg._ofs.isSome then bytesOf w.th.buffers_to_write else [] := by
  unfold World.stepBytes
  by_cases ho : w.lg._ofs.isSome = true
  · rw [if_pos ⟨hpc, ho⟩, if_pos ho, bytesOf_filter]
  · rw [if_neg (fun h => ho h.2), if_neg ho]

/-- The counter after the write loop, as long as it stays a value of `off_t`. -/
theorem writeAll_counter {p : String} (bufs : List Buf) (hb : ∀ b ∈ bufs, b.WF) :
    ∀ (fs : FileSys) (written : Int), -2 ^ 63 ≤ written →
      written + (bytesOf bufs).length < 2 ^ 63 →
      (World.writeAll (some p) bufs fs written).2 = written + (bytesOf bufs).length := by
  induction bufs with
  | nil =>
    intro fs written _ _
    simp [World.writeAll, bytesOf_nil]
  | cons b rest ih =>
    intro fs written hlo hhi
    have hbw : b.WF := hb b (List.mem_cons_self _ _)
    have hrest : ∀ x ∈ rest, x.WF := fun x hx => hb x (List.mem_cons_of_mem _ hx)
    have hlen := LogBuffer.contents_length hbw
    rw [bytesOf_cons, List.length_append, hlen] at hhi ⊢
    push_cast at hhi ⊢
    simp only [World.writeAll]
    by_cases hl : b.length > 0
    · rw [if_pos hl, wrapOff_eq (by omega) (by omega), ih hrest _ _ (by omega) (by omega)]
      omega
    · rw [if_neg hl]
      have h0 : b.length = 0 := by omega
      rw [h0] at hhi ⊢
      rw [ih hrest _ _ hlo (by simpa using hhi)]
      simp

theorem append_config {lg lg1 : Logger} {data : List Byte} (h : lg.append data = some lg1) :
    lg1.SameConfig lg := by
  unfold Logger.append at h
  split_ifs at h with h0
  · cases h; exact ⟨rfl, rfl, rfl, rfl, rfl⟩
  · cases hcur : lg.current_buffer_ with
    | none => rw [hcur] at h; cases h
    | some cur =>
      rw [hcur] at h
      dsimp only at h
      split_ifs at h <;> cases h <;> exact ⟨rfl, rfl, rfl, rfl, rfl⟩

theorem flush_config (lg : Logger) : lg.flush.SameConfig lg := by
  unfold Logger.flush
  cases lg.current_buffer_ with
  | none => exact ⟨rfl, rfl, rfl, rfl, rfl⟩
  | some c =>
    dsimp only
    split_ifs <;> exact ⟨rfl, rfl, rfl, rfl, rfl⟩

theorem destroy_config (lg : Logger) : lg.destroy.SameConfig lg := by
  unfold Logger.destroy
  dsimp only
  cases lg.current_buffer_ with
  | none => exact ⟨rfl, rfl, rfl, rfl, rfl⟩
  | some c =>
    dsimp only
    split_ifs <;> exact ⟨rfl, rfl, rfl, rfl, rfl⟩

theorem lock_config (w : World) :
    w.threadFunc_lock.lg.SameConfig w.lg ∧ w.threadFunc_lock.fs = w.fs :=
  ⟨⟨rfl, rfl, rfl, rfl, rfl⟩, rfl⟩

/-- The two outcomes of the write section, read off the code. -/
theorem write_cases (w : World) (env : Env) :
    (World.rotates w.lg._ofs
        (World.writeAll w.lg._ofs w.th.buffers_to_write w.fs w.lg.written_bytes_).2
        w.lg.roll_size_ w.lg.log_file_name_ = true →
      (w.threadFunc_write env).lg.written_bytes_ = 0 ∧
      (w.threadFunc_write env).lg._ofs
        = (if env.openOk then some w.lg.log_file_name_ else none)) ∧
    (World.rotates w.lg._ofs
        (World.writeAll w.lg._ofs w.th.buffers_to_write w.fs w.lg.written_bytes_).2
        w.lg.roll_size_ w.lg.log_file_name_ = false →
      (w.threadFunc_write env).lg.written_bytes_
        = (World.writeAll w.lg._ofs w.th.buffers_to_write w.fs w.lg.written_bytes_).2 ∧
      (w.threadFunc_write env).lg._ofs = w.lg._ofs ∧
      (w.threadFunc_write env).fs
        = (World.writeAll w.lg._ofs w.th.buffers_to_write w.fs w.lg.written_bytes_).1) := by
  constructor
  · intro hT
    simp only [World.threadFunc_write, hT, if_true, World.rotate]
    split_ifs <;> exact ⟨rfl, rfl⟩
  · intro hF
    simp only [World.threadFunc_write, hF]
    exact ⟨rfl, rfl, rfl⟩

/-- With a non-empty base file name the counter is never above the threshold
when a step is over. -/
theorem counter_step {w w1 : World} {s : Step} (hs : w.step s = some w1)
    (hle : w.lg.written_bytes_ ≤ w.lg.roll_size_) (h0 : 0 ≤ w.lg.roll_size_)
    (hname : w.lg.log_file_name_ ≠ "") :
    w1.lg.written_bytes_ ≤ w1.lg.roll_size_ ∧ w1.lg.roll_size_ = w.lg.roll_size_ ∧
      w1.lg.log_file_name_ = w.lg.log_file_name_ := by
  cases s with
  | append data =>
    simp only [World.step, Option.map_eq_some'] at hs
    obtain ⟨lg, hlg, rfl⟩ := hs
    obtain ⟨_, c2, c3, c4, _⟩ := append_config hlg
    exact ⟨by show lg.written_bytes_ ≤ lg.roll_size_; rw [c2, c3]; exact hle, c3, c4⟩
  | flush =>
    simp only [World.step, Option.some.injEq] at hs
    subst hs
    obtain ⟨_, c2, c3, c4, _⟩ := flush_config w.lg
    exact ⟨by show w.lg.flush.written_bytes_ ≤ w.lg.flush.roll_size_; rw [c2, c3]; exact hle,
      c3, c4⟩
  | destroy =>
    simp only [World.step, Option.some.injEq] at hs
    subst hs
    obtain ⟨_, c2, c3, c4, _⟩ := destroy_config w.lg
    exact ⟨by
      show w.lg.destroy.written_bytes_ ≤ w.lg.destroy.roll_size_
      rw [c2, c3]; exact hle, c3, c4⟩
  | writer env =>
    simp only [World.step, Option.some.injEq] at hs
    subst hs
    unfold World.threadFunc_step
    cases hpc : w.th.pc with
    | head => exact ⟨hle, rfl, rfl⟩
    | exited => exact ⟨hle, rfl, rfl⟩
    | writing =>
      dsimp only
      refine ⟨?_, write_roll_size w env, write_log_file_name w env⟩
      rw [write_roll_size]
      cases hrot : World.rotates w.lg._ofs
          (World.writeAll w.lg._ofs w.th.buffers_to_write w.fs w.lg.written_bytes_).2
          w.lg.roll_size_ w.lg.log_file_name_ with
      | true =>
        rw [((write_cases w env).1 hrot).1]; exact h0
      | false =>
        rw [((write_cases w env).2 hrot).1]
        have hne : w.lg.log_file_name_.isEmpty = false := by
          cases hx : w.lg.log_file_name_.isEmpty with
          | false => rfl
          | true => exact absurd ((String.isEmpty_iff _).mp hx) hname
        cases hofs : w.lg._ofs with
        | none => rw [writeAll_closed]; exact hle
        | some p =>
          rw [hofs] at hrot
          unfold World.rotates at hrot
          simp only [hne, Option.isSome_some, Bool.and_true, Bool.not_false,
            decide_eq_false_iff_not, not_lt] at hrot
          exact hrot

theorem counter_run (sched : List Step) :
    ∀ {w w1 : World}, w.run sched = some w1 →
      w.lg.written_bytes_ ≤ w.lg.roll_size_ → 0 ≤ w.lg.roll_size_ →
      w.lg.log_file_name_ ≠ "" →
      w1.lg.written_bytes_ ≤ w1.lg.roll_size_ ∧ w1.lg.roll_size_ = w.lg.roll_size_ ∧
        w1.lg.log_file_name_ = w.lg.log_file_name_ := by
  induction sched with
  | nil =>
    intro w w1 hr hle _ _
    simp only [World.run, Option.some.injEq] at hr
    subst hr
    exact ⟨hle, rfl, rfl⟩
  | cons s rest ih =>
    intro w w1 hr hle h0 hname
    cases hs : w.step s with
    | none => simp [World.run, hs] at hr
    | some w' =>
      rw [run_cons_of_step hs] at hr
      obtain ⟨a1, a2, a3⟩ := counter_step hs hle h0 hname
      obtain ⟨b1, b2, b3⟩ := ih hr a1 (by rw [a2]; exact h0) (by rw [a3]; exact hname)
      exact ⟨b1, b2.trans a2, b3.trans a3⟩

theorem wrapOff_range (x : Int) : -2 ^ 63 ≤ wrapOff x ∧ wrapOff x < 2 ^ 63 := by
  unfold wrapOff
  have h1 : 0 ≤ (x + 2 ^ 63) % 2 ^ 64 := Int.emod_nonneg _ (by norm_num)
  have h2 : (x + 2 ^ 63) % 2 ^ 64 < 2 ^ 64 := Int.emod_lt_of_pos _ (by norm_num)
  constructor <;> omega

theorem writeAll_range (ofs : Option String) (bufs : List Buf) :
    ∀ (fs : FileSys) (written : Int), (-2 ^ 63 ≤ written ∧ written < 2 ^ 63) →
      -2 ^ 63 ≤ (World.writeAll ofs bufs fs written).2 ∧
        (World.writeAll ofs bufs fs written).2 < 2 ^ 63 := by
  induction bufs with
  | nil => intro fs written h; exact h
  | cons b rest ih =>
    intro fs written h
    unfold World.writeAll
    cases ofs with
    | none => exact ih fs written h
    | some p =>
      dsimp only
      split_ifs
      · exact ih _ _ (wrapOff_range _)
      · exact ih _ _ h

/-- The counter `written_bytes_` is a value of `off_t` in every state a
schedule reaches from a state where it is one. -/
theorem range_run (sched : List Step) :
    ∀ {w w1 : World}, w.run sched = some w1 →
      (-2 ^ 63 ≤ w.lg.written_bytes_ ∧ w.lg.written_bytes_ < 2 ^ 63) →
      -2 ^ 63 ≤ w1.lg.written_bytes_ ∧ w1.lg.written_bytes_ < 2 ^ 63 := by
  induction sched with
  | nil =>
    intro w w1 hr h
    simp only [World.run, Option.some.injEq] at hr
    subst hr
    exact h
  | cons s rest ih =>
    intro w w1 hr h
    cases hs : w.step s with
    | none => simp [World.run, hs] at hr
    | some w' =>
      rw [run_cons_of_step hs] at hr
      apply ih hr
      cases s with
      | append data =>
        simp only [World.step, Option.map_eq_some'] at hs
        obtain ⟨lg, hlg, rfl⟩ := hs
        obtain ⟨_, c2, _, _, _⟩ := append_config hlg
        show -2 ^ 63 ≤ lg.written_bytes_ ∧ lg.written_bytes_ < 2 ^ 63
        rw [c2]; exact h
      | flush =>
        simp only [World.step, Option.some.injEq] at hs
        subst hs
        obtain ⟨_, c2, _, _, _⟩ := flush_config w.lg
        show -2 ^ 63 ≤ w.lg.flush.written_bytes_ ∧ w.lg.flush.written_bytes_ < 2 ^ 63
        rw [c2]; exact h
      | destroy =>
        simp only [World.step, Option.some.injEq] at hs
        subst hs
        obtain ⟨_, c2, _, _, _⟩ := destroy_config w.lg
        show -2 ^ 63 ≤ w.lg.destroy.written_bytes_ ∧ w.lg.destroy.written_bytes_ < 2 ^ 63
        rw [c2]; exact h
      | writer env =>
        simp only [World.step, Option.some.injEq] at hs
        subst hs
        unfold World.threadFunc_step
        cases hpc : w.th.pc with
        | head => exact h
        | exited => exact h
        | writing =>
          dsimp only
          cases hrot : World.rotates w.lg._ofs
              (World.writeAll w.lg._ofs w.th.buffers_to_write w.fs w.lg.written_bytes_).2
              w.lg.roll_size_ w.lg.log_file_name_ with
          | true =>
            rw [((write_cases w env).1 hrot).1]
            constructor <;> norm_num
          | false =>
            rw [((write_cases w env).2 hrot).1]
            exact writeAll_range _ _ _ _ h

/-- C14: the rotation decision of one drain cycle.  Take a state reached from a
freshly constructed logger in which the background thread is about to run its
write section, the counter plus the bytes of this cycle being a value of
`off_t`.  The write loop makes the counter grow by exactly the number of bytes
it writes.  The rotation is then performed exactly when the counter is strictly
above the threshold while the stream is open and the base file name is
non-empty; after a rotation the counter is 0, otherwise it keeps the
accumulated value.  Hence, for a non-negative threshold and a non-empty base
file name, the counter is at most the threshold when the drain cycle is over
(and so it was when the cycle began). -/
theorem C14_rotation_decision (w0 w : World) (sched : List Step) (env : Env)
    (h0 : w0.Fresh) (hrun : w0.run sched = some w) (hpc : w.th.pc = Pc.writing)
    (hhi : w.lg.written_bytes_ + ((w.stepBytes (Step.writer env)).length : Int) < 2 ^ 63) :
    (World.writeAll w.lg._ofs w.th.buffers_to_write w.fs w.lg.written_bytes_).2
      = w.lg.written_bytes_ + ((w.stepBytes (Step.writer env)).length : Int) ∧
    (World.rotates w.lg._ofs
        (World.writeAll w.lg._ofs w.th.buffers_to_write w.fs w.lg.written_bytes_).2
        w.lg.roll_size_ w.lg.log_file_name_ = true ↔
      (w.lg.written_bytes_ + ((w.stepBytes (Step.writer env)).length : Int)
          > w.lg.roll_size_ ∧ w.lg._ofs ≠ none ∧ w.lg.log_file_name_ ≠ "")) ∧
    (World.rotates w.lg._ofs
        (World.writeAll w.lg._ofs w.th.buffers_to_write w.fs w.lg.written_bytes_).2
        w.lg.roll_size_ w.lg.log_file_name_ = true →
      (w.threadFunc_write env).lg.written_bytes_ = 0 ∧
      w.stepStamps (Step.writer env) = [env.ts]) ∧
    (World.rotates w.lg._ofs
        (World.writeAll w.lg._ofs w.th.buffers_to_write w.fs w.lg.written_bytes_).2
        w.lg.roll_size_ w.lg.log_file_name_ = false →
      (w.threadFunc_write env).lg.written_bytes_
        = w.lg.written_bytes_ + ((w.stepBytes (Step.writer env)).length : Int) ∧
      w.stepStamps (Step.writer env) = []) ∧
    (0 ≤ w0.lg.roll_size_ → w0.lg.log_file_name_ ≠ "" →
      (w.threadFunc_write env).lg.written_bytes_ ≤ (w.threadFunc_write env).lg.roll_size_ ∧
      w.lg.written_bytes_ ≤ w.lg.roll_size_) := by
  obtain ⟨w', hw', hi⟩ := Inv_run (Inv_of_Fresh h0) sched
  rw [hrun] at hw'
  cases hw'
  have hrange := range_run sched hrun (by rw [h0.2.2.2.2.1]; constructor <;> norm_num)
  have hcount : (World.writeAll w.lg._ofs w.th.buffers_to_write w.fs w.lg.written_bytes_).2
      = w.lg.written_bytes_ + ((w.stepBytes (Step.writer env)).length : Int) := by
    rw [stepBytes_write w env hpc] at hhi ⊢
    cases hofs : w.lg._ofs with
    | none => rw [writeAll_closed]; simp
    | some p =>
      rw [hofs] at hhi
      simp only [Option.isSome_some, if_true] at hhi ⊢
      exact writeAll_counter w.th.buffers_to_write hi.btw w.fs _ hrange.1 hhi
  have hiff : World.rotates w.lg._ofs
        (World.writeAll w.lg._ofs w.th.buffers_to_write w.fs w.lg.written_bytes_).2
        w.lg.roll_size_ w.lg.log_file_name_ = true ↔
      (w.lg.written_bytes_ + ((w.stepBytes (Step.writer env)).length : Int)
          > w.lg.roll_size_ ∧ w.lg._ofs ≠ none ∧ w.lg.log_file_name_ ≠ "") := by
    rw [hcount]
    unfold World.rotates
    simp only [Bool.and_eq_true, decide_eq_true_eq, Bool.not_eq_true',
      Option.isSome_iff_ne_none, and_assoc]
    constructor
    · rintro ⟨a, b, c⟩
      refine ⟨a, b, fun hn => ?_⟩
      rw [hn] at c
      exact absurd c (by decide)
    · rintro ⟨a, b, c⟩
      refine ⟨a, b, ?_⟩
      cases hx : w.lg.log_file_name_.isEmpty with
      | false => rfl
      | true => exact absurd ((String.isEmpty_iff _).mp hx) c
  refine ⟨hcount, hiff, ?_, ?_, ?_⟩
  · intro hT
    refine ⟨((write_cases w env).1 hT).1, ?_⟩
    simp [World.stepStamps, hpc, hT]
  · intro hF
    refine ⟨by rw [((write_cases w env).2 hF).1, hcount], ?_⟩
    simp [World.stepStamps, hpc, hF]
  · intro hr0 hname
    obtain ⟨a1, a2, a3⟩ :=
      counter_run sched hrun (by rw [h0.2.2.2.2.1]; exact hr0) hr0 hname
    have hs : w.step (Step.writer env) = some (w.threadFunc_write env) := by
      simp only [World.step, World.threadFunc_step, hpc]
    exact ⟨(counter_step hs a1 (by rw [a2]; exact hr0) (by rw [a3]; exact hname)).1, a1⟩

/-- C14, witness: threshold 4; three bytes are drained (counter 3, no rotation),
then two more are about to be written: the counter becomes 5 > 4, the cycle
rotates and the counter is 0. -/
theorem C14_rotation_decision_witness :
    (((((World.boot []).init "a.log" true).set_roll_size 4).run
        [Step.append [1, 2, 3], Step.writer ⟨".20260101-000000", true, true⟩,
          Step.writer ⟨".20260101-000000", true, true⟩, Step.append [4, 5],
          Step.writer ⟨".20260101-000001", true, true⟩]).getD
        (World.boot [])).lg.written_bytes_ = 3 ∧
    ((((((World.boot []).init "a.log" true).set_roll_size 4).run
        [Step.append [1, 2, 3], Step.writer ⟨".20260101-000000", true, true⟩,
          Step.writer ⟨".20260101-000000", true, true⟩, Step.append [4, 5],
          Step.writer ⟨".20260101-000001", true, true⟩]).getD
        (World.boot [])).threadFunc_write ⟨".20260101-000001", true, true⟩).lg.written_bytes_
      = 0 :=
  ⟨by decide,
   ((C14_rotation_decision (((World.boot []).init "a.log" true).set_roll_size 4)
      (((((World.boot []).init "a.log" true).set_roll_size 4).run
        [Step.append [1, 2, 3], Step.writer ⟨".20260101-000000", true, true⟩,
          Step.writer ⟨".20260101-000000", true, true⟩, Step.append [4, 5],
          Step.writer ⟨".20260101-000001", true, true⟩]).getD (World.boot []))
      [Step.append [1, 2, 3], Step.writer ⟨".20260101-000000", true, true⟩,
        Step.writer ⟨".20260101-000000", true, true⟩, Step.append [4, 5],
        Step.writer ⟨".20260101-000001", true, true⟩]
      ⟨".20260101-000001", true, true⟩ ⟨rfl, rfl, rfl, rfl, rfl, rfl⟩ (by rfl) (by rfl)
      (by decide)).2.2.1 (by decide)).1⟩

/-! ## A drain cycle without an open file -/

theorem write_closed (w : World) (env : Env) (hclosed : w.lg._ofs = none) :
    (w.threadFunc_write env).fs = w.fs ∧
    (w.threadFunc_write env).lg.written_bytes_ = w.lg.written_bytes_ ∧
    (w.threadFunc_write env).lg._ofs = none ∧
    World.rotates w.lg._ofs
        (World.writeAll w.lg._ofs w.th.buffers_to_write w.fs w.lg.written_bytes_).2
        w.lg.roll_size_ w.lg.log_file_name_ = false := by
  have hrot : World.rotates w.lg._ofs
      (World.writeAll w.lg._ofs w.th.buffers_to_write w.fs w.lg.written_bytes_).2
      w.lg.roll_size_ w.lg.log_file_name_ = false := by
    rw [hclosed]
    simp [World.rotates]
  obtain ⟨a1, a2, a3⟩ := (write_cases w env).2 hrot
  refine ⟨?_, ?_, a2.trans hclosed, hrot⟩
  · rw [a3, hclosed, writeAll_closed]
  · rw [a1, hclosed, writeAll_closed]

theorem writtenBy_two (w : World) (e1 e2 : Env) :
    w.writtenBy [Step.writer e1, Step.writer e2]
      = w.stepBytes (Step.writer e1) ++ (w.threadFunc_step e1).stepBytes (Step.writer e2) := by
  simp [World.writtenBy, World.step]

theorem rotationStamps_two (w : World) (e1 e2 : Env) :
    w.rotationStamps [Step.writer e1, Step.writer e2]
      = w.stepStamps (Step.writer e1) ++ (w.threadFunc_step e1).stepStamps (Step.writer e2) := by
  simp [World.rotationStamps, World.step]

/-- C17: a drain cycle without an open file drops its data silently.  Take a
state reached from a freshly constructed logger in which the stream is closed
(before `init`, or after a reopening that failed).  The write section of the
background thread then writes nothing, leaves the disk and the counter
`written_bytes_` unchanged, attempts no rotation, and still empties the drained
list and keeps only reset buffers in its cache, so the drained bytes are gone.
A whole cycle from the loop head goes through without any failure, leaves the
pending queue empty and nothing buffered, with the disk and the counter
unchanged: the bytes that were buffered are lost. -/
theorem C17_file_unavailable (w0 w : World) (sched : List Step) (e1 e2 : Env)
    (h0 : w0.Fresh) (hrun : w0.run sched = some w) (hclosed : w.lg._ofs = none) :
    (w.th.pc = Pc.writing →
      w.stepBytes (Step.writer e2) = [] ∧ w.stepStamps (Step.writer e2) = [] ∧
      (w.threadFunc_write e2).fs = w.fs ∧
      (w.threadFunc_write e2).lg.written_bytes_ = w.lg.written_bytes_ ∧
      (w.threadFunc_write e2).lg._ofs = none ∧
      (w.threadFunc_write e2).th.buffers_to_write = [] ∧
      (w.threadFunc_write e2).lg.buffers_queue_ = w.lg.buffers_queue_ ∧
      (w.threadFunc_write e2).pending = w.lg.buffered ∧
      (∀ b, (w.threadFunc_write e2).th.newPtr1 = some b → b.length = 0) ∧
      (∀ b, (w.threadFunc_write e2).th.newPtr2 = some b → b.length = 0)) ∧
    (w.th.pc = Pc.head → ∃ w2,
      w.run [Step.writer e1, Step.writer e2] = some w2 ∧
      w.writtenBy [Step.writer e1, Step.writer e2] = [] ∧
      w.rotationStamps [Step.writer e1, Step.writer e2] = [] ∧
      w2.fs = w.fs ∧ w2.lg.written_bytes_ = w.lg.written_bytes_ ∧ w2.lg._ofs = none ∧
      w2.lg.buffers_queue_ = [] ∧ w2.pending = []) := by
  obtain ⟨w', hw', hi⟩ := Inv_run (Inv_of_Fresh h0) sched
  rw [hrun] at hw'
  cases hw'
  have hwr : ∀ {x : World} (e : Env), Inv x → x.lg._ofs = none → x.th.pc = Pc.writing →
      x.stepBytes (Step.writer e) = [] ∧ x.stepStamps (Step.writer e) = [] ∧
      (x.threadFunc_write e).fs = x.fs ∧
      (x.threadFunc_write e).lg.written_bytes_ = x.lg.written_bytes_ ∧
      (x.threadFunc_write e).lg._ofs = none ∧
      (x.threadFunc_write e).th.buffers_to_write = [] ∧
      (x.threadFunc_write e).lg.buffers_queue_ = x.lg.buffers_queue_ ∧
      (x.threadFunc_write e).pending = x.lg.buffered ∧
      (∀ b, (x.threadFunc_write e).th.newPtr1 = some b → b.length = 0) ∧
      (∀ b, (x.threadFunc_write e).th.newPtr2 = some b → b.length = 0) := by
    intro x e hix hcl hpc
    obtain ⟨a1, a2, a3, a4⟩ := write_closed x e hcl
    have hiw := Inv_write hix hpc e
    have hbuf : (x.threadFunc_write e).lg.buffered = x.lg.buffered := by
      simp only [Logger.buffered, write_queue, write_current]
    refine ⟨?_, ?_, a1, a2, a3, by rw [write_th], write_queue x e, ?_,
      fun b hb => (hiw.np1 b hb).2, fun b hb => (hiw.np2 b hb).2⟩
    · rw [stepBytes_write x e hpc, hcl]; rfl
    · simp [World.stepStamps, hpc, a4]
    · simp only [World.pending, write_th, hbuf, bytesOf_nil, List.nil_append]
  refine ⟨fun hpc => hwr e2 hi hclosed hpc, ?_⟩
  intro hpc
  have hstep1 : w.threadFunc_step e1 = w.threadFunc_lock := by
    unfold World.threadFunc_step; rw [hpc]
  have hs1 : w.step (Step.writer e1) = some w.threadFunc_lock := by
    simp only [World.step, hstep1]
  obtain ⟨_, _, _, _, hbuf1⟩ := lock_pending hi hpc
  obtain ⟨hq1, _⟩ := lock_post hi hpc
  have hi1 := Inv_lock hi hpc
  have hb0 : w.stepBytes (Step.writer e1) = [] := by simp [World.stepBytes, hpc]
  have hst0 : w.stepStamps (Step.writer e1) = [] := by simp [World.stepStamps, hpc]
  have hcl1 : w.threadFunc_lock.lg._ofs = none := hclosed
  rcases lock_pc w with hx | hx
  · have hs2 : w.threadFunc_lock.threadFunc_step e2 = w.threadFunc_lock := by
      unfold World.threadFunc_step; rw [hx]
    have hb1 : w.threadFunc_lock.stepBytes (Step.writer e2) = [] := by
      simp [World.stepBytes, hx]
    have hst1 : w.threadFunc_lock.stepStamps (Step.writer e2) = [] := by
      simp [World.stepStamps, hx]
    refine ⟨w.threadFunc_lock, by rw [run_two, hstep1, hs2], ?_, ?_, rfl, rfl, hclosed, hq1, ?_⟩
    · rw [writtenBy_two, hstep1, hb0, hb1]; rfl
    · rw [rotationStamps_two, hstep1, hst0, hst1]; rfl
    · rw [pending_of_not_writing hi1 (by rw [hx]; decide), hbuf1]
  · have hs2 : w.threadFunc_lock.threadFunc_step e2 = w.threadFunc_lock.threadFunc_write e2 := by
      unfold World.threadFunc_step; rw [hx]
    obtain ⟨b1, b2, b3, b4, b5, _, b7, b8, _, _⟩ := hwr e2 hi1 hcl1 hx
    refine ⟨w.threadFunc_lock.threadFunc_write e2, by rw [run_two, hstep1, hs2], ?_, ?_,
      b3, b4, b5, b7.trans hq1, b8.trans hbuf1⟩
    · rw [writtenBy_two, hstep1, hb0, b1]; rfl
    · rw [rotationStamps_two, hstep1, hst0, b2]; rfl

/-- C17, witness: a new logger that was never opened; three bytes are appended
and the thread runs a whole cycle. -/
theorem C17_file_unavailable_witness :
    ∃ w2, (((World.boot []).run [Step.append [1, 2, 3]]).getD (World.boot [])).run
        [Step.writer ⟨"", true, true⟩, Step.writer ⟨"", true, true⟩] = some w2 ∧
      w2.fs = [] ∧ w2.pending = [] :=
  let ⟨w2, h1, _, _, h4, _, _, _, h8⟩ :=
    (C17_file_unavailable (World.boot [])
      (((World.boot []).run [Step.append [1, 2, 3]]).getD (World.boot []))
      [Step.append [1, 2, 3]] ⟨"", true, true⟩ ⟨"", true, true⟩
      ⟨rfl, rfl, rfl, rfl, rfl, rfl⟩ (by rfl) (by rfl)).2 (by rfl)
  ⟨w2, h1, h4, h8⟩

/-! ## Recycled buffers are reset before reuse -/

theorem recycle_from (np1 np2 : Option Buf) (bufs : List Buf) :
    (∀ b, (World.recycle np1 np2 bufs).1 = some b →
      (∃ x, np1 = some x ∧ b = x.reset) ∨ (∃ x ∈ bufs.take 2, b = x.reset)) ∧
    (∀ b, (World.recycle np1 np2 bufs).2 = some b →
      (∃ x, np2 = some x ∧ b = x.reset) ∨ (∃ x ∈ bufs.take 2, b = x.reset)) := by
  have hb0 : (if bufs.length > 2 then bufs.take 2 else bufs) = bufs.take 2 := by
    split_ifs with h
    · rfl
    · exact (List.take_of_length_le (by omega)).symm
  unfold World.recycle
  rw [hb0]
  generalize bufs.take 2 = b0
  have hlast : ∀ (l : List Buf) (x : Buf), l.getLast? = some x → x ∈ l := by
    intro l x hx
    exact List.mem_of_getLast?_eq_some hx
  constructor
  · intro b hb
    dsimp only at hb
    split_ifs at hb with h1
    · simp only [Option.map_eq_some'] at hb
      obtain ⟨x, hx, rfl⟩ := hb
      exact Or.inr ⟨x, hlast _ _ hx, rfl⟩
    · simp only [Option.map_eq_some'] at hb
      obtain ⟨x, hx, rfl⟩ := hb
      exact Or.inl ⟨x, hx, rfl⟩
  · intro b hb
    dsimp only at hb
    split_ifs at hb with h1 h2 h2
    · simp only [Option.map_eq_some'] at hb
      obtain ⟨x, hx, rfl⟩ := hb
      exact Or.inr ⟨x, List.mem_of_mem_dropLast (hlast _ _ hx), rfl⟩
    · simp only [Option.map_eq_some'] at hb
      obtain ⟨x, hx, rfl⟩ := hb
      exact Or.inl ⟨x, hx, rfl⟩
    · simp only [Option.map_eq_some'] at hb
      obtain ⟨x, hx, rfl⟩ := hb
      exact Or.inr ⟨x, hlast _ _ hx, rfl⟩
    · simp only [Option.map_eq_some'] at hb
      obtain ⟨x, hx, rfl⟩ := hb
      exact Or.inl ⟨x, hx, rfl⟩

/-- `Logger::append` of data of any length: the data is buffered whole, or (when
it is longer than a buffer) not at all. -/
theorem append_buffered_any {w : World} (h : Inv w) (data : List Byte) :
    ∃ lg, w.lg.append data = some lg ∧
      (lg.buffered = w.lg.buffered ++ data ∨ lg.buffered = w.lg.buffered) := by
  by_cases hlen : data.length ≤ DefaultBufferSize
  · obtain ⟨lg, hlg, hb, _, _⟩ := append_buffered h hlen
    exact ⟨lg, hlg, Or.inl hb⟩
  · obtain ⟨c, hc, hcw⟩ := h.cur
    have hca := LogBuffer.avail_eq hcw
    unfold Logger.append
    rw [if_neg (by omega), hc]
    dsimp only
    rw [if_neg (by rw [ge_iff_le, hca]; omega)]
    refine ⟨_, rfl, Or.inr ?_⟩
    have hfresh : ∀ f : Buf, f.WF → f.length = 0 → (f.append data).contents = [] := by
      intro f hfw hfl
      have ha := LogBuffer.avail_eq hfw
      rw [LogBuffer.append_of_gt (by rw [ha]; omega)]
      exact LogBuffer.contents_of_length_zero hfl
    have hnew : ((match w.lg.next_buffer_ with
        | some nxt => nxt
        | none => make_shared).append data).contents = [] := by
      cases hn : w.lg.next_buffer_ with
      | none => exact hfresh _ make_shared_WF make_shared_length
      | some n => exact hfresh _ (h.next n hn).1 (h.next n hn).2
    simp only [Logger.buffered, hc, bytesOfPtr, hnew, bytesOf_append, bytesOf_singleton,
      List.append_nil]

/-- What a step writes, followed by what is buffered after it, is taken in
order from what was buffered before it followed by what it appends. -/
theorem step_sublist {w : World} (h : Inv w) (s : Step) :
    ∃ w1, w.step s = some w1 ∧
      List.Sublist (w.stepBytes s ++ w1.pending) (w.pending ++ appended [s]) := by
  cases s with
  | append data =>
    obtain ⟨lg, hlg, hb⟩ := append_buffered_any h data
    refine ⟨{ w with lg := lg }, by simp [World.step, hlg], ?_⟩
    have hp : appended [Step.append data] = data := by simp [appended]
    rw [hp]
    show List.Sublist ([] ++ (bytesOf w.th.buffers_to_write ++ lg.buffered))
      ((bytesOf w.th.buffers_to_write ++ w.lg.buffered) ++ data)
    rw [List.nil_append, List.append_assoc]
    apply List.Sublist.append (List.Sublist.refl _)
    rcases hb with hb | hb
    · rw [hb]
    · rw [hb]; exact List.sublist_append_left _ _
  | flush =>
    refine ⟨_, rfl, ?_⟩
    have hp : World.pending { w with lg := w.lg.flush } = w.pending := by
      simp only [World.pending, (flush_buffered h).1]
    rw [hp]
    simp [World.stepBytes, appended]
  | destroy =>
    refine ⟨_, rfl, ?_⟩
    have hp : World.pending { w with lg := w.lg.destroy } = w.pending := by
      simp only [World.pending, (destroy_buffered h).1]
    rw [hp]
    simp [World.stepBytes, appended]
  | writer env =>
    refine ⟨_, rfl, ?_⟩
    have happ : appended [Step.writer env] = [] := rfl
    rw [happ, List.append_nil]
    unfold World.threadFunc_step
    cases hpc : w.th.pc with
    | exited =>
      have hb : w.stepBytes (Step.writer env) = [] := by simp [World.stepBytes, hpc]
      rw [hb]; exact List.Sublist.refl _
    | head =>
      have hb : w.stepBytes (Step.writer env) = [] := by simp [World.stepBytes, hpc]
      rw [hb]
      dsimp only
      rw [(lock_pending h hpc).1]
      exact List.Sublist.refl _
    | writing =>
      dsimp only
      have hbuf : (w.threadFunc_write env).lg.buffered = w.lg.buffered := by
        simp only [Logger.buffered, write_queue, write_current]
      have hp : (w.threadFunc_write env).pending = w.lg.buffered := by
        simp only [World.pending, write_th, hbuf, bytesOf_nil, List.nil_append]
      rw [hp, stepBytes_write w env hpc]
      show List.Sublist _ (bytesOf w.th.buffers_to_write ++ w.lg.buffered)
      split_ifs
      · exact List.Sublist.refl _
      · exact List.sublist_append_right _ _

theorem run_sublist (sched : List Step) :
    ∀ {w : World}, Inv w →
      ∃ w1, w.run sched = some w1 ∧ Inv w1 ∧
        List.Sublist (w.writtenBy sched ++ w1.pending) (w.pending ++ appended sched) := by
  induction sched with
  | nil =>
    intro w h
    exact ⟨w, rfl, h, by simp [World.writtenBy, appended]⟩
  | cons s rest ih =>
    intro w h
    obtain ⟨w1, hw1, hsub1⟩ := step_sublist h s
    obtain ⟨w1', hw1', hi1⟩ := Inv_step h s
    rw [hw1] at hw1'
    cases hw1'
    obtain ⟨w2, hw2, hi2, hsub2⟩ := ih hi1
    refine ⟨w2, by rw [run_cons_of_step hw1]; exact hw2, hi2, ?_⟩
    rw [writtenBy_cons hw1, appended_cons, List.append_assoc, ← List.append_assoc w.pending]
    exact ((List.Sublist.refl _).append hsub2).trans
      (by rw [← List.append_assoc]; exact hsub1.append (List.Sublist.refl _))

/-- C16: recycled buffers are reset before reuse.  In every state reached from a
freshly constructed logger: the spare buffer, when present, is empty, and so is
each buffer in the two cache slots of the background thread.  The critical
section entered at the loop head leaves an active buffer of length 0 and a
spare buffer of length 0 in place.  The write section empties the drained list
and keeps in each cache slot its old buffer or one of the first two buffers of
the drained batch, reset in both cases.  The bytes written in the course of the
run, followed by the bytes still buffered, are taken in order from the appended
bytes: no appended byte is written a second time. -/
theorem C16_recycled_reset (w0 : World) (sched : List Step) (h0 : w0.Fresh) :
    ∃ w, w0.run sched = some w ∧
      (∀ n, w.lg.next_buffer_ = some n → n.length = 0) ∧
      (∀ b, w.th.newPtr1 = some b → b.length = 0) ∧
      (∀ b, w.th.newPtr2 = some b → b.length = 0) ∧
      (w.th.pc = Pc.head →
        (∃ c, w.threadFunc_lock.lg.current_buffer_ = some c ∧ c.length = 0) ∧
        (∃ n, w.threadFunc_lock.lg.next_buffer_ = some n ∧ n.length = 0)) ∧
      (w.th.pc = Pc.writing → ∀ env,
        (w.threadFunc_write env).th.buffers_to_write = [] ∧
        (∀ b, (w.threadFunc_write env).th.newPtr1 = some b → b.length = 0 ∧
          ((∃ x, w.th.newPtr1 = some x ∧ b = x.reset) ∨
            (∃ x ∈ w.th.buffers_to_write.take 2, b = x.reset))) ∧
        (∀ b, (w.threadFunc_write env).th.newPtr2 = some b → b.length = 0 ∧
          ((∃ x, w.th.newPtr2 = some x ∧ b = x.reset) ∨
            (∃ x ∈ w.th.buffers_to_write.take 2, b = x.reset)))) ∧
      List.Sublist (w0.writtenBy sched ++ w.pending) (appended sched) := by
  obtain ⟨w, hw, hi, hsub⟩ := run_sublist sched (Inv_of_Fresh h0)
  rw [pending_of_Fresh h0, List.nil_append] at hsub
  refine ⟨w, hw, fun n hn => (hi.next n hn).2, fun b hb => (hi.np1 b hb).2,
    fun b hb => (hi.np2 b hb).2, ?_, ?_, hsub⟩
  · intro hpc
    refine ⟨(lock_post hi hpc).2, ?_⟩
    have hil := Inv_lock hi hpc
    obtain ⟨n, hn⟩ := Option.ne_none_iff_exists'.mp (lock_next hi hpc)
    exact ⟨n, hn, (hil.next n hn).2⟩
  · intro hpc env
    have hth := write_th w env
    have hiw := Inv_write hi hpc env
    refine ⟨by rw [hth], ?_, ?_⟩
    · intro b hb
      refine ⟨(hiw.np1 b hb).2, ?_⟩
      rw [hth] at hb
      exact (recycle_from w.th.newPtr1 w.th.newPtr2 w.th.buffers_to_write).1 b hb
    · intro b hb
      refine ⟨(hiw.np2 b hb).2, ?_⟩
      rw [hth] at hb
      exact (recycle_from w.th.newPtr1 w.th.newPtr2 w.th.buffers_to_write).2 b hb

/-- C16, witness: on a new logger with `a.log` open, a full buffer is swapped
out, the thread runs a whole cycle and the recycled buffer takes new data. -/
theorem C16_recycled_reset_witness :
    ∃ w, ((World.boot []).init "a.log" true).run
        [Step.append (List.replicate 4000 1), Step.append (List.replicate 200 2),
          Step.writer ⟨"", true, true⟩, Step.writer ⟨"", true, true⟩,
          Step.append (List.replicate 4000 3)] = some w ∧
      (∀ n, w.lg.next_buffer_ = some n → n.length = 0) :=
  let ⟨w, h1, h2, _⟩ :=
    C16_recycled_reset ((World.boot []).init "a.log" true)
      [Step.append (List.replicate 4000 1), Step.append (List.replicate 200 2),
        Step.writer ⟨"", true, true⟩, Step.writer ⟨"", true, true⟩,
        Step.append (List.replicate 4000 3)] ⟨rfl, rfl, rfl, rfl, rfl, rfl⟩
  ⟨w, h1, h2⟩

/-! ## Exclusive ownership of the buffers -/

theorem own_perm {m m1 : Mem} (h : Own m) (hp : List.Perm m1.holders m.holders)
    (hf : m1.fresh = m.fresh) : Own m1 :=
  ⟨(hp.nodup_iff).mpr h.nodup, fun a ha => by rw [hf]; exact h.alloc a (hp.subset ha)⟩

theorem own_alloc {m m1 : Mem} (h : Own m)
    (hp : List.Perm m1.holders ([m.fresh] ++ m.holders))
    (hf : m1.fresh = m.fresh + 1) : Own m1 := by
  rw [List.singleton_append] at hp
  refine ⟨(hp.nodup_iff).mpr (List.nodup_cons.mpr ⟨?_, h.nodup⟩), ?_⟩
  · intro hin
    exact absurd (h.alloc _ hin) (lt_irrefl _)
  · intro a ha
    rw [hf]
    rcases List.mem_cons.mp (hp.subset ha) with rfl | hin
    · exact Nat.lt_succ_self _
    · exact Nat.lt_succ_of_lt (h.alloc a hin)

theorem Own_of_Fresh {m : Mem} (h : m.Fresh) : Own m := by
  obtain ⟨h1, h2, h3, h4, h5, h6, h7, _⟩ := h
  have hh : m.holders = [0, 1, 2, 3] := by
    simp [Mem.holders, Mem.producerSide, Mem.writerSide, h1, h2, h3, h4, h6, h7]
  refine ⟨by rw [hh]; decide, ?_⟩
  intro a ha
  rw [hh] at ha
  rw [h5]
  simp only [List.mem_cons, List.mem_singleton, List.not_mem_nil, or_false] at ha
  rcases ha with rfl | rfl | rfl | rfl <;> decide

theorem Own_append {m m1 : Mem} {data : List Byte} (h : Own m)
    (hs : m.append data = some m1) : Own m1 := by
  unfold Mem.append at hs
  split_ifs at hs with h0
  · cases hs; exact h
  · cases hcur : m.current_buffer_ with
    | none => simp [hcur] at hs
    | some a =>
      by_cases hfit : (m.store a).avail ≥ data.length
      · simp only [hcur, if_pos hfit, Option.some.injEq] at hs
        subst hs
        exact own_perm h (List.Perm.of_eq (by
          simp only [Mem.holders, Mem.producerSide, Mem.writerSide, hcur])) rfl
      · cases hn : m.next_buffer_ with
        | some n =>
          simp only [hcur, if_neg hfit, hn, Option.some.injEq] at hs
          subst hs
          refine own_perm h ?_ rfl
          simp only [Mem.holders, Mem.producerSide, Mem.writerSide, hcur, hn,
            Option.toList_some, Option.toList_none]
          rw [← Multiset.coe_eq_coe]
          simp only [← Multiset.coe_add, Multiset.coe_nil]
          abel
        | none =>
          simp only [hcur, if_neg hfit, hn, Option.some.injEq] at hs
          subst hs
          refine own_alloc h ?_ rfl
          simp only [Mem.holders, Mem.producerSide, Mem.writerSide, hcur, hn,
            Option.toList_some, Option.toList_none]
          rw [← Multiset.coe_eq_coe]
          simp only [← Multiset.coe_add, Multiset.coe_nil]
          abel

theorem Own_flush {m : Mem} (h : Own m) : Own m.flush := by
  unfold Mem.flush
  cases hcur : m.current_buffer_ with
  | none => exact h
  | some a =>
    by_cases hl : (m.store a).length > 0
    · simp only [if_pos hl]
      refine own_alloc h ?_ rfl
      simp only [Mem.holders, Mem.producerSide, Mem.writerSide, hcur,
        Option.toList_some]
      rw [← Multiset.coe_eq_coe]
      simp only [← Multiset.coe_add, Multiset.coe_nil]
      abel
    · simp only [if_neg hl]
      exact h

theorem Own_destroy {m : Mem} (h : Own m) : Own m.destroy := by
  unfold Mem.destroy
  cases hcur : m.current_buffer_ with
  | none =>
    simp only [hcur]
    exact own_perm h (List.Perm.of_eq (by
      simp only [Mem.holders, Mem.producerSide, Mem.writerSide, hcur])) rfl
  | some a =>
    by_cases hl : (m.store a).length > 0
    · simp only [hcur, if_pos hl]
      refine own_alloc h ?_ rfl
      simp only [Mem.holders, Mem.producerSide, Mem.writerSide, hcur,
        Option.toList_some]
      rw [← Multiset.coe_eq_coe]
      simp only [← Multiset.coe_add, Multiset.coe_nil]
      abel
    · simp only [hcur, if_neg hl]
      exact own_perm h (List.Perm.of_eq (by
        simp only [Mem.holders, Mem.producerSide, Mem.writerSide, hcur])) rfl

theorem lock_holders (m : Mem) : List.Perm m.threadFunc_lock.holders m.holders := by
  unfold Mem.threadFunc_lock
  cases hcur : m.current_buffer_ with
  | none =>
    cases hn : m.next_buffer_ <;>
    · simp only [Mem.holders, Mem.producerSide, Mem.writerSide, hcur, hn,
        Option.toList_some, Option.toList_none]
      rw [← Multiset.coe_eq_coe]
      simp only [← Multiset.coe_add, Multiset.coe_nil]
      abel
  | some a =>
    by_cases hl : (m.store a).length > 0
    · cases hn : m.next_buffer_ <;>
      · simp only [Mem.holders, Mem.producerSide, Mem.writerSide, hcur, hn, if_pos hl,
          Option.toList_some, Option.toList_none]
        rw [← Multiset.coe_eq_coe]
        simp only [← Multiset.coe_add, Multiset.coe_nil]
        abel
    · cases hn : m.next_buffer_ <;>
      · simp only [Mem.holders, Mem.producerSide, Mem.writerSide, hcur, hn, if_neg hl,
          Option.toList_some, Option.toList_none]
        rw [← Multiset.coe_eq_coe]
        simp only [← Multiset.coe_add, Multiset.coe_nil]
        abel

theorem Own_lock {m : Mem} (h : Own m) : Own m.threadFunc_lock :=
  own_perm h (lock_holders m) rfl

theorem recycle_own (np1 np2 : Option Addr) (bufs : List Addr)
    (h : (bufs ++ np1.toList ++ np2.toList).Nodup) :
    ((Mem.recycle np1 np2 bufs).1.toList ++ (Mem.recycle np1 np2 bufs).2.toList).Nodup ∧
    ∀ a ∈ (Mem.recycle np1 np2 bufs).1.toList ++ (Mem.recycle np1 np2 bufs).2.toList,
      a ∈ bufs ++ np1.toList ++ np2.toList := by
  have hb0 : (if bufs.length > 2 then bufs.take 2 else bufs) = bufs.take 2 := by
    split_ifs with h2
    · rfl
    · exact (List.take_of_length_le (by omega)).symm
  have hsub : (bufs.take 2).Sublist bufs := List.take_sublist 2 bufs
  have hnd : (bufs.take 2 ++ np1.toList ++ np2.toList).Nodup :=
    List.Nodup.sublist ((hsub.append (List.Sublist.refl _)).append (List.Sublist.refl _)) h
  have hmem : ∀ a ∈ bufs.take 2 ++ np1.toList ++ np2.toList,
      a ∈ bufs ++ np1.toList ++ np2.toList :=
    fun a ha => ((hsub.append (List.Sublist.refl _)).append (List.Sublist.refl _)).subset ha
  unfold Mem.recycle
  rw [hb0]
  generalize bufs.take 2 = b0 at hnd hmem
  have key : ((if np1.isNone && !b0.isEmpty then (b0.getLast?, b0.dropLast)
          else (np1, b0)).1.toList ++
        (if np2.isNone &&
              !(if np1.isNone && !b0.isEmpty then (b0.getLast?, b0.dropLast)
                else (np1, b0)).2.isEmpty
          then ((if np1.isNone && !b0.isEmpty then (b0.getLast?, b0.dropLast)
                else (np1, b0)).2.getLast?,
                (if np1.isNone && !b0.isEmpty then (b0.getLast?, b0.dropLast)
                else (np1, b0)).2.dropLast)
          else (np2, (if np1.isNone && !b0.isEmpty then (b0.getLast?, b0.dropLast)
                else (np1, b0)).2)).1.toList).Nodup ∧
      ∀ a ∈ (if np1.isNone && !b0.isEmpty then (b0.getLast?, b0.dropLast)
          else (np1, b0)).1.toList ++
        (if np2.isNone &&
              !(if np1.isNone && !b0.isEmpty then (b0.getLast?, b0.dropLast)
                else (np1, b0)).2.isEmpty
          then ((if np1.isNone && !b0.isEmpty then (b0.getLast?, b0.dropLast)
                else (np1, b0)).2.getLast?,
                (if np1.isNone && !b0.isEmpty then (b0.getLast?, b0.dropLast)
                else (np1, b0)).2.dropLast)
          else (np2, (if np1.isNone && !b0.isEmpty then (b0.getLast?, b0.dropLast)
                else (np1, b0)).2)).1.toList,
        a ∈ b0 ++ np1.toList ++ np2.toList := by
    rcases List.eq_nil_or_concat b0 with rfl | ⟨L, l, rfl⟩
    · cases np1 <;> cases np2 <;> simp_all
    · rcases List.eq_nil_or_concat L with rfl | ⟨L2, l2, rfl⟩
      · cases np1 <;> cases np2 <;> simp_all
        all_goals (intro hh; exact hnd hh.symm)
      · cases np1 <;> cases np2 <;> simp_all [List.nodup_append]
        all_goals (intro hh; subst hh; simp_all)
  exact ⟨key.1, fun a ha => hmem a (key.2 a ha)⟩

theorem write_holders (m : Mem) (env : Env) :
    (m.threadFunc_write env).holders
      = m.producerSide ++
        ([] ++ (Mem.recycle m.newPtr1 m.newPtr2 m.buffers_to_write).1.toList
          ++ (Mem.recycle m.newPtr1 m.newPtr2 m.buffers_to_write).2.toList) ∧
    (m.threadFunc_write env).fresh = m.fresh ∧
    (m.threadFunc_write env).producerSide = m.producerSide ∧
    (m.threadFunc_write env).store
      = Mem.resetAt
          (Mem.resetAt m.store (Mem.recycle m.newPtr1 m.newPtr2 m.buffers_to_write).1)
          (Mem.recycle m.newPtr1 m.newPtr2 m.buffers_to_write).2 := by
  refine ⟨?_, ?_, ?_, ?_⟩ <;>
    simp only [Mem.threadFunc_write, Mem.holders, Mem.producerSide, Mem.writerSide]

theorem Own_write {m : Mem} (h : Own m) (env : Env) : Own (m.threadFunc_write env) := by
  obtain ⟨hh, hf, _, _⟩ := write_holders m env
  have hnd := h.nodup
  unfold Mem.holders at hnd
  rw [List.nodup_append] at hnd
  obtain ⟨hP, hW, hD⟩ := hnd
  obtain ⟨r1, r2⟩ := recycle_own m.newPtr1 m.newPtr2 m.buffers_to_write hW
  refine ⟨?_, ?_⟩
  · rw [hh, List.nil_append, List.nodup_append]
    exact ⟨hP, r1, fun a haP haC => hD haP (r2 a haC)⟩
  · intro a ha
    rw [hf]
    rw [hh, List.nil_append] at ha
    apply h.alloc
    rcases List.mem_append.mp ha with ha | ha
    · exact List.mem_append_left _ ha
    · exact List.mem_append_right _ (r2 a ha)

theorem Own_step {m m1 : Mem} {s : Step} (h : Own m) (hs : m.step s = some m1) : Own m1 := by
  cases s with
  | append data => exact Own_append h hs
  | flush =>
    simp only [Mem.step, Option.some.injEq] at hs
    subst hs; exact Own_flush h
  | destroy =>
    simp only [Mem.step, Option.some.injEq] at hs
    subst hs; exact Own_destroy h
  | writer env =>
    simp only [Mem.step, Option.some.injEq] at hs
    subst hs
    unfold Mem.threadFunc_step
    cases m.pc with
    | head => exact Own_lock h
    | writing => exact Own_write h env
    | exited => exact h

theorem Own_run (sched : List Step) :
    ∀ {m m1 : Mem}, Own m → m.run sched = some m1 → Own m1 := by
  induction sched with
  | nil =>
    intro m m1 h hr
    simp only [Mem.run, Option.some.injEq] at hr
    subst hr; exact h
  | cons s rest ih =>
    intro m m1 h hr
    cases hs : m.step s with
    | none => simp [Mem.run, hs] at hr
    | some m' =>
      simp only [Mem.run, hs, Option.bind] at hr
      exact ih (Own_step h hs) hr

theorem resetAt_other (store : Addr → Buf) (p : Option Addr) (a : Addr)
    (h : ∀ x, p = some x → a ≠ x) : Mem.resetAt store p a = store a := by
  cases p with
  | none => rfl
  | some x =>
    unfold Mem.resetAt
    exact Function.update_noteq (h x rfl) _ _

/-! ## The heap embedding and the value embedding agree -/

theorem own_cur {m : Mem} (h : Own m) {a : Addr} (hcur : m.current_buffer_ = some a) :
    ∀ b ∈ m.next_buffer_.toList ++ m.buffers_queue_ ++ m.writerSide, b ≠ a := by
  have hnd := h.nodup
  have hh : m.holders = a :: (m.next_buffer_.toList ++ m.buffers_queue_ ++ m.writerSide) := by
    simp [Mem.holders, Mem.producerSide, hcur]
  rw [hh, List.nodup_cons] at hnd
  intro b hb hba
  exact hnd.1 (hba ▸ hb)

theorem own_next {m : Mem} (h : Own m) {n : Addr} (hn : m.next_buffer_ = some n) :
    ∀ b ∈ m.current_buffer_.toList ++ m.buffers_queue_ ++ m.writerSide, b ≠ n := by
  have hnd := h.nodup
  have hp : List.Perm m.holders
      ([n] ++ (m.current_buffer_.toList ++ m.buffers_queue_ ++ m.writerSide)) := by
    simp only [Mem.holders, Mem.producerSide, hn, Option.toList_some]
    rw [← Multiset.coe_eq_coe]
    simp only [← Multiset.coe_add]
    abel
  rw [hp.nodup_iff, List.singleton_append, List.nodup_cons] at hnd
  intro b hb hbn
  exact hnd.1 (hbn ▸ hb)

theorem own_fresh {m : Mem} (h : Own m) : ∀ b ∈ m.holders, b ≠ m.fresh := by
  intro b hb hbf
  exact absurd (hbf ▸ h.alloc b hb) (lt_irrefl _)

theorem map_update_list {store : Addr → Buf} {x : Addr} {v : Buf} {l : List Addr}
    (h : ∀ b ∈ l, b ≠ x) : l.map (Function.update store x v) = l.map store := by
  apply List.map_congr_left
  intro b hb
  exact Function.update_noteq (h b hb) _ _

theorem map_update_opt {store : Addr → Buf} {x : Addr} {v : Buf} {p : Option Addr}
    (h : ∀ b ∈ p.toList, b ≠ x) : p.map (Function.update store x v) = p.map store := by
  cases p with
  | none => rfl
  | some b =>
    simp only [Option.map_some']
    rw [Function.update_noteq (h b (by simp))]

/-- A change of the object at `x` is not seen through any slot that does not
hold `x`. -/
theorem deref_update {m : Mem} {x : Addr} {v : Buf}
    (hc : ∀ b ∈ m.current_buffer_.toList, b ≠ x) (hn : ∀ b ∈ m.next_buffer_.toList, b ≠ x)
    (hq : ∀ b ∈ m.buffers_queue_, b ≠ x) (hw : ∀ b ∈ m.writerSide, b ≠ x) :
    Mem.deref { m with store := Function.update m.store x v } = m.deref := by
  have h1 : ∀ b ∈ m.buffers_to_write, b ≠ x :=
    fun b hb => hw b (by simp [Mem.writerSide, hb])
  have h2 : ∀ b ∈ m.newPtr1.toList, b ≠ x :=
    fun b hb => hw b (by simp only [Mem.writerSide, List.mem_append]; exact Or.inl (Or.inr hb))
  have h3 : ∀ b ∈ m.newPtr2.toList, b ≠ x :=
    fun b hb => hw b (by simp only [Mem.writerSide, List.mem_append]; exact Or.inr hb)
  simp only [Mem.deref, map_update_opt hc, map_update_opt hn, map_update_list hq,
    map_update_list h1, map_update_opt h2, map_update_opt h3]

theorem deref_append {m : Mem} (h : Own m) (data : List Byte) :
    (m.append data).map Mem.deref
      = (m.deref.lg.append data).map (fun lg => { m.deref with lg := lg }) := by
  unfold Mem.append Logger.append
  by_cases h0 : data.length = 0
  · simp only [if_pos h0, Option.map_some']
  · simp only [if_neg h0]
    cases hcur : m.current_buffer_ with
    | none => simp [Mem.deref, hcur]
    | some a =>
      have hoc := own_cur h hcur
      have hdc : m.deref.lg.current_buffer_ = some (m.store a) := by
        simp [Mem.deref, hcur]
      rw [hdc]
      dsimp only
      by_cases hfit : (m.store a).avail ≥ data.length
      · simp only [if_pos hfit, Option.map_some']
        congr 1
        simp only [Mem.deref, hcur, Option.map_some', Function.update_same]
        rw [map_update_opt (fun b hb => hoc b (by simp [hb])),
          map_update_list (fun b hb => hoc b (by simp [hb])),
          map_update_list (fun b hb => hoc b (by simp [Mem.writerSide, hb])),
          map_update_opt (fun b hb => hoc b (by
            simp only [Mem.writerSide, List.mem_append]; exact Or.inr (Or.inl (Or.inr hb)))),
          map_update_opt (fun b hb => hoc b (by
            simp only [Mem.writerSide, List.mem_append]; exact Or.inr (Or.inr hb)))]
      · simp only [if_neg hfit]
        cases hn : m.next_buffer_ with
        | some n =>
          have hon := own_next h hn
          have hdn : m.deref.lg.next_buffer_ = some (m.store n) := by
            simp [Mem.deref, hn]
          rw [hdn]
          simp only [Option.map_some']
          congr 1
          simp only [Mem.deref, hcur, hn, Option.map_some', Option.map_none',
            Function.update_same, List.map_append, List.map_cons, List.map_nil]
          rw [Function.update_noteq (hon a (by simp [hcur])),
            map_update_list (fun b hb => hon b (by simp [hb])),
            map_update_list (fun b hb => hon b (by simp [Mem.writerSide, hb])),
            map_update_opt (fun b hb => hon b (by
              simp only [Mem.writerSide, List.mem_append]; exact Or.inr (Or.inl (Or.inr hb)))),
            map_update_opt (fun b hb => hon b (by
              simp only [Mem.writerSide, List.mem_append]; exact Or.inr (Or.inr hb)))]
        | none =>
          have hof := own_fresh h
          have hdn : m.deref.lg.next_buffer_ = none := by
            simp [Mem.deref, hn]
          rw [hdn]
          simp only [Option.map_some']
          congr 1
          simp only [Mem.deref, hcur, hn, Option.map_some', Option.map_none',
            Function.update_same, List.map_append, List.map_cons, List.map_nil]
          rw [Function.update_noteq (hof a (by simp [Mem.holders, Mem.producerSide, hcur])),
            map_update_list (fun b hb => hof b (by simp [Mem.holders, Mem.producerSide, hb])),
            map_update_list (fun b hb => hof b (by simp [Mem.holders, Mem.writerSide, hb])),
            map_update_opt (fun b hb => hof b (by
              simp only [Mem.holders, Mem.writerSide, List.mem_append]
              exact Or.inr (Or.inl (Or.inr hb)))),
            map_update_opt (fun b hb => hof b (by
              simp only [Mem.holders, Mem.writerSide, List.mem_append]
              exact Or.inr (Or.inr hb)))]

theorem deref_flush {m : Mem} (h : Own m) :
    m.flush.deref = { m.deref with lg := m.deref.lg.flush } := by
  unfold Mem.flush Logger.flush
  cases hcur : m.current_buffer_ with
  | none =>
    have hdc : m.deref.lg.current_buffer_ = none := by simp [Mem.deref, hcur]
    rw [hdc]
  | some a =>
    have hof := own_fresh h
    have hdc : m.deref.lg.current_buffer_ = some (m.store a) := by
      simp [Mem.deref, hcur]
    rw [hdc]
    dsimp only
    by_cases hl : (m.store a).length > 0
    · simp only [if_pos hl]
      simp only [Mem.deref, hcur, Option.map_some', Function.update_same, List.map_append,
        List.map_cons, List.map_nil]
      rw [Function.update_noteq (hof a (by simp [Mem.holders, Mem.producerSide, hcur])),
        map_update_opt (fun b hb => hof b (by simp [Mem.holders, Mem.producerSide, hb])),
        map_update_list (fun b hb => hof b (by simp [Mem.holders, Mem.producerSide, hb])),
        map_update_list (fun b hb => hof b (by simp [Mem.holders, Mem.writerSide, hb])),
        map_update_opt (fun b hb => hof b (by
          simp only [Mem.holders, Mem.writerSide, List.mem_append]
          exact Or.inr (Or.inl (Or.inr hb)))),
        map_update_opt (fun b hb => hof b (by
          simp only [Mem.holders, Mem.writerSide, List.mem_append]
          exact Or.inr (Or.inr hb)))]
    · simp only [if_neg hl]

theorem deref_destroy {m : Mem} (h : Own m) :
    m.destroy.deref = { m.deref with lg := m.deref.lg.destroy } := by
  unfold Mem.destroy Logger.destroy
  cases hcur : m.current_buffer_ with
  | none =>
    simp only [Mem.deref, hcur, Option.map_none']
  | some a =>
    have hof := own_fresh h
    by_cases hl : (m.store a).length > 0
    · simp only [Mem.deref, hcur, Option.map_some', if_pos hl, Function.update_same,
        List.map_append, List.map_cons, List.map_nil]
      rw [Function.update_noteq (hof a (by simp [Mem.holders, Mem.producerSide, hcur])),
        map_update_opt (fun b hb => hof b (by simp [Mem.holders, Mem.producerSide, hb])),
        map_update_list (fun b hb => hof b (by simp [Mem.holders, Mem.producerSide, hb])),
        map_update_list (fun b hb => hof b (by simp [Mem.holders, Mem.writerSide, hb])),
        map_update_opt (fun b hb => hof b (by
          simp only [Mem.holders, Mem.writerSide, List.mem_append]
          exact Or.inr (Or.inl (Or.inr hb)))),
        map_update_opt (fun b hb => hof b (by
          simp only [Mem.holders, Mem.writerSide, List.mem_append]
          exact Or.inr (Or.inr hb)))]
    · simp only [Mem.deref, hcur, Option.map_some', if_neg hl]

theorem deref_lock (m : Mem) : m.threadFunc_lock.deref = m.deref.threadFunc_lock := by
  unfold Mem.threadFunc_lock World.threadFunc_lock
  cases hcur : m.current_buffer_ with
  | none =>
    cases hn : m.next_buffer_ <;>
      simp [Mem.deref, hcur, hn]
  | some a =>
    by_cases hl : (m.store a).length > 0
    · cases hn : m.next_buffer_ <;>
        simp [Mem.deref, hcur, hn, hl]
    · cases hn : m.next_buffer_ <;>
        simp [Mem.deref, hcur, hn, hl]

theorem recycle_map (f : Addr → Buf) (np1 np2 : Option Addr) (bufs : List Addr) :
    World.recycle (np1.map f) (np2.map f) (bufs.map f)
      = (((Mem.recycle np1 np2 bufs).1.map f).map LogBuffer.reset,
          ((Mem.recycle np1 np2 bufs).2.map f).map LogBuffer.reset) := by
  have hb : (if (bufs.map f).length > 2 then (bufs.map f).take 2 else bufs.map f)
      = (if bufs.length > 2 then bufs.take 2 else bufs).map f := by
    rw [List.length_map]
    split_ifs
    · exact (List.map_take f bufs 2).symm
    · rfl
  unfold World.recycle Mem.recycle
  simp only [hb]
  generalize (if bufs.length > 2 then bufs.take 2 else bufs) = b0
  rcases List.eq_nil_or_concat b0 with rfl | ⟨L, l, rfl⟩
  · cases np1 <;> cases np2 <;> simp
  · rcases List.eq_nil_or_concat L with rfl | ⟨L2, l2, rfl⟩
    · cases np1 <;> cases np2 <;> simp
    · cases np1 <;> cases np2 <;> simp

theorem rotate_fields (lg : Logger) (fs : FileSys) (env : Env) :
    World.rotate lg fs env
      = ({ lg with
            _ofs := if env.openOk then some lg.log_file_name_ else none
            written_bytes_ := 0 },
          if env.openOk then
            FileSys.openApp
              (if env.renameOk then
                match fs.rename lg.log_file_name_ (lg.log_file_name_ ++ env.ts) with
                | some f => f
                | none => fs
              else fs) lg.log_file_name_
          else
            (if env.renameOk then
                match fs.rename lg.log_file_name_ (lg.log_file_name_ ++ env.ts) with
                | some f => f
                | none => fs
              else fs)) := by
  unfold World.rotate
  cases env.openOk <;> rfl

/-- The objects behind the two recycled pointers after the two calls of
`reset()`. -/
theorem resetAt_recycled (store : Addr → Buf) (n1 n2 : Option Addr)
    (h : (n1.toList ++ n2.toList).Nodup) :
    n1.map (Mem.resetAt (Mem.resetAt store n1) n2) = (n1.map store).map LogBuffer.reset ∧
    n2.map (Mem.resetAt (Mem.resetAt store n1) n2) = (n2.map store).map LogBuffer.reset := by
  cases n1 with
  | none =>
    cases n2 with
    | none => exact ⟨rfl, rfl⟩
    | some y => simp [Mem.resetAt]
  | some x =>
    cases n2 with
    | none => simp [Mem.resetAt]
    | some y =>
      have hxy : x ≠ y := by
        intro hh
        subst hh
        simp at h
      simp [Mem.resetAt, Function.update_noteq hxy, Function.update_noteq hxy.symm]

theorem deref_write {m : Mem} (h : Own m) (env : Env) :
    (m.threadFunc_write env).deref = m.deref.threadFunc_write env := by
  have hnd := h.nodup
  unfold Mem.holders at hnd
  rw [List.nodup_append] at hnd
  obtain ⟨hP, hW, hD⟩ := hnd
  obtain ⟨r1, r2⟩ := recycle_own m.newPtr1 m.newPtr2 m.buffers_to_write hW
  obtain ⟨e1, e2⟩ := resetAt_recycled m.store _ _ r1
  have hkeep : ∀ a ∈ m.producerSide,
      Mem.resetAt (Mem.resetAt m.store (Mem.recycle m.newPtr1 m.newPtr2 m.buffers_to_write).1)
        (Mem.recycle m.newPtr1 m.newPtr2 m.buffers_to_write).2 a = m.store a := by
    intro a haP
    have hne : ∀ x, x ∈ (Mem.recycle m.newPtr1 m.newPtr2 m.buffers_to_write).1.toList
        ++ (Mem.recycle m.newPtr1 m.newPtr2 m.buffers_to_write).2.toList → a ≠ x := by
      intro x hx hax
      exact hD haP (hax ▸ r2 x hx)
    rw [resetAt_other _ _ a (fun x hx => hne x (by simp [hx])),
      resetAt_other _ _ a (fun x hx => hne x (by simp [hx]))]
  have hc : m.current_buffer_.map (Mem.resetAt (Mem.resetAt m.store
        (Mem.recycle m.newPtr1 m.newPtr2 m.buffers_to_write).1)
        (Mem.recycle m.newPtr1 m.newPtr2 m.buffers_to_write).2) = m.current_buffer_.map m.store := by
    cases hcur : m.current_buffer_ with
    | none => rfl
    | some a =>
      simp only [Option.map_some']
      rw [hkeep a (by simp [Mem.producerSide, hcur])]
  have hn : m.next_buffer_.map (Mem.resetAt (Mem.resetAt m.store
        (Mem.recycle m.newPtr1 m.newPtr2 m.buffers_to_write).1)
        (Mem.recycle m.newPtr1 m.newPtr2 m.buffers_to_write).2) = m.next_buffer_.map m.store := by
    cases hnx : m.next_buffer_ with
    | none => rfl
    | some a =>
      simp only [Option.map_some']
      rw [hkeep a (by simp [Mem.producerSide, hnx])]
  have hq : m.buffers_queue_.map (Mem.resetAt (Mem.resetAt m.store
        (Mem.recycle m.newPtr1 m.newPtr2 m.buffers_to_write).1)
        (Mem.recycle m.newPtr1 m.newPtr2 m.buffers_to_write).2) = m.buffers_queue_.map m.store :=
    List.map_congr_left (fun a ha => hkeep a (by simp [Mem.producerSide, ha]))
  have hr := recycle_map m.store m.newPtr1 m.newPtr2 m.buffers_to_write
  unfold Mem.threadFunc_write World.threadFunc_write
  simp only [rotate_fields]
  simp only [Mem.deref, hc, hn, hq, e1, e2, hr, List.map_nil]
  by_cases hrot : World.rotates m._ofs
      (World.writeAll m._ofs (m.buffers_to_write.map m.store) m.fs m.written_bytes_).2
      m.roll_size_ m.log_file_name_ = true
  · cases ho : env.openOk <;> simp [hrot, ho]
  · simp [hrot]

theorem deref_step {m : Mem} (h : Own m) (s : Step) :
    (m.step s).map Mem.deref = m.deref.step s := by
  cases s with
  | append data => exact deref_append h data
  | flush =>
    simp only [Mem.step, World.step, Option.map_some', deref_flush h]
  | destroy =>
    simp only [Mem.step, World.step, Option.map_some', deref_destroy h]
  | writer env =>
    simp only [Mem.step, World.step, Option.map_some', Option.some.injEq]
    unfold Mem.threadFunc_step World.threadFunc_step
    have hpc : m.deref.th.pc = m.pc := rfl
    rw [hpc]
    cases m.pc with
    | head => exact deref_lock m
    | writing => exact deref_write h env
    | exited => rfl

/-- The heap embedding refines the value embedding: dereferencing every pointer
commutes with every schedule. -/
theorem deref_run (sched : List Step) :
    ∀ {m : Mem}, Own m → (m.run sched).map Mem.deref = m.deref.run sched := by
  induction sched with
  | nil => intro m _; rfl
  | cons s rest ih =>
    intro m h
    have hs := deref_step h s
    cases hm : m.step s with
    | none =>
      rw [hm] at hs
      simp only [Option.map_none'] at hs
      simp only [Mem.run, World.run, hm, ← hs, Option.bind, Option.map_none']
    | some m1 =>
      rw [hm] at hs
      simp only [Option.map_some'] at hs
      simp only [Mem.run, World.run, hm, ← hs, Option.bind]
      exact ih (Own_step h hm)

theorem deref_Fresh {m : Mem} (h : m.Fresh) : m.deref.Fresh := by
  obtain ⟨h1, h2, h3, h4, _, h6, h7, h8, h9, h10, hst⟩ := h
  refine ⟨?_, ?_, ?_, h9, h10, ?_⟩
  · simp [Mem.deref, h1, hst 0 (by decide)]
  · simp [Mem.deref, h2, hst 1 (by decide)]
  · simp [Mem.deref, h6]
  · simp [Mem.deref, ThreadFunc.start, h3, h4, h7, h8, hst 2 (by decide), hst 3 (by decide)]

/-- No schedule dereferences a null pointer on the heap. -/
theorem Mem_run_total {m0 : Mem} (h0 : m0.Fresh) (sched : List Step) :
    ∃ m, m0.run sched = some m ∧ m0.deref.run sched = some m.deref := by
  obtain ⟨w, hw, _⟩ := Inv_run (Inv_of_Fresh (deref_Fresh h0)) sched
  have hd := deref_run sched (Own_of_Fresh h0)
  cases hm : m0.run sched with
  | none =>
    rw [hm, hw] at hd
    simp at hd
  | some m =>
    rw [hm] at hd
    exact ⟨m, rfl, hd.symm⟩

/-! ## Exclusive ownership -/

/-- C15: exclusive ownership of the buffers.  Every schedule of append, flush,
destructor and background-thread steps runs from a freshly constructed logger
to a state, and in that state the active slot, the spare slot, the positions of
the pending queue, the drained list of the thread and its two cache slots hold
pairwise different buffers (no buffer is in two places or twice in a list), all
of them handed out by `std::make_shared`.  Hence no buffer of the background
thread can be reached by a producer; the write section leaves every buffer a
producer can reach as it is, the buffers it resets and keeps being among those
the thread held; and `Logger::append` leaves every buffer of the thread as it
is. -/
theorem C15_exclusive_ownership (m0 : Mem) (sched : List Step) (h0 : m0.Fresh) :
    ∃ m, m0.run sched = some m ∧
      m.holders.Nodup ∧ (∀ a ∈ m.holders, a < m.fresh) ∧
      (∀ a ∈ m.writerSide, a ∉ m.producerSide) ∧
      (∀ env, (∀ a ∈ (m.threadFunc_write env).writerSide, a ∈ m.writerSide) ∧
        (m.threadFunc_write env).producerSide = m.producerSide ∧
        ∀ a ∈ m.producerSide, (m.threadFunc_write env).store a = m.store a) ∧
      (∀ data m1, m.append data = some m1 →
        m1.writerSide = m.writerSide ∧ ∀ a ∈ m.writerSide, m1.store a = m.store a) := by
  obtain ⟨m, hrun, _⟩ := Mem_run_total h0 sched
  refine ⟨m, hrun, ?_⟩
  have ho := Own_run sched (Own_of_Fresh h0) hrun
  have hnd := ho.nodup
  unfold Mem.holders at hnd
  rw [List.nodup_append] at hnd
  obtain ⟨hP, hW, hD⟩ := hnd
  refine ⟨ho.nodup, ho.alloc, fun a haW haP => hD haP haW, ?_, ?_⟩
  · intro env
    obtain ⟨hh, _, hps, hst⟩ := write_holders m env
    obtain ⟨_, r2⟩ := recycle_own m.newPtr1 m.newPtr2 m.buffers_to_write hW
    have hws : (m.threadFunc_write env).writerSide
        = [] ++ (Mem.recycle m.newPtr1 m.newPtr2 m.buffers_to_write).1.toList
          ++ (Mem.recycle m.newPtr1 m.newPtr2 m.buffers_to_write).2.toList := by
      simp only [Mem.threadFunc_write, Mem.writerSide]
    refine ⟨?_, hps, ?_⟩
    · intro a ha
      rw [hws, List.nil_append] at ha
      exact r2 a ha
    · intro a haP
      rw [hst]
      have hne : ∀ x, x ∈ (Mem.recycle m.newPtr1 m.newPtr2 m.buffers_to_write).1.toList
          ++ (Mem.recycle m.newPtr1 m.newPtr2 m.buffers_to_write).2.toList → a ≠ x := by
        intro x hx hax
        exact hD haP (hax ▸ r2 x hx)
      rw [resetAt_other _ _ a (fun x hx => hne x (by simp [hx])),
        resetAt_other _ _ a (fun x hx => hne x (by simp [hx]))]
  · intro data m1 hs
    unfold Mem.append at hs
    split_ifs at hs with hz
    · cases hs; exact ⟨rfl, fun _ _ => rfl⟩
    · cases hcur : m.current_buffer_ with
      | none => simp [hcur] at hs
      | some c =>
        have hcP : c ∈ m.producerSide := by simp [Mem.producerSide, hcur]
        by_cases hfit : (m.store c).avail ≥ data.length
        · simp only [hcur, if_pos hfit, Option.some.injEq] at hs
          subst hs
          refine ⟨rfl, fun a haW => ?_⟩
          exact Function.update_noteq (fun (hac : a = c) => hD hcP (hac ▸ haW)) _ _
        · cases hn : m.next_buffer_ with
          | some n =>
            have hnP : n ∈ m.producerSide := by simp [Mem.producerSide, hn]
            simp only [hcur, if_neg hfit, hn, Option.some.injEq] at hs
            subst hs
            refine ⟨rfl, fun a haW => ?_⟩
            exact Function.update_noteq (fun (han : a = n) => hD hnP (han ▸ haW)) _ _
          | none =>
            simp only [hcur, if_neg hfit, hn, Option.some.injEq] at hs
            subst hs
            refine ⟨rfl, fun a haW => ?_⟩
            have hlt := ho.alloc a (List.mem_append_right _ haW)
            exact Function.update_noteq
              (fun (haf : a = m.fresh) => absurd (haf ▸ hlt) (lt_irrefl _)) _ _

/-- C15, witness: on a new logger three bytes are appended and flushed (a new
active buffer is allocated), the thread runs a whole iteration and recycles,
one more byte is appended and flushed: the schedule runs and the slots hold
different buffers. -/
theorem C15_exclusive_ownership_witness :
    (Mem.boot []).Fresh ∧
    ∃ m, (Mem.boot []).run
        [Step.append [1, 2, 3], Step.flush, Step.writer ⟨"", true, true⟩,
          Step.writer ⟨"", true, true⟩, Step.append [4], Step.flush] = some m ∧
      m.holders.Nodup :=
  ⟨⟨rfl, rfl, rfl, rfl, rfl, rfl, rfl, rfl, rfl, rfl, fun _ _ => rfl⟩,
    (C15_exclusive_ownership (Mem.boot [])
      [Step.append [1, 2, 3], Step.flush, Step.writer ⟨"", true, true⟩,
        Step.writer ⟨"", true, true⟩, Step.append [4], Step.flush]
      ⟨rfl, rfl, rfl, rfl, rfl, rfl, rfl, rfl, rfl, rfl, fun _ _ => rfl⟩).imp
      (fun _ hm => ⟨hm.1, hm.2.1⟩)⟩

/-! ## The byte stream through rotations and failed reopenings -/

theorem openWrites_cons {w w1 : World} {s : Step} (h : w.step s = some w1) (rest : List Step) :
    w.openWrites (s :: rest) = true ↔
      ((∀ env, s = Step.writer env → w.th.pc = Pc.writing → w.lg._ofs ≠ none) ∧
        w1.openWrites rest = true) := by
  cases s with
  | append d => simp [World.openWrites, h]
  | flush => simp [World.openWrites, h]
  | destroy => simp [World.openWrites, h]
  | writer env =>
    simp only [World.openWrites, h, Bool.and_eq_true, Bool.or_eq_true, decide_eq_true_eq,
      Step.writer.injEq, forall_eq', Option.isSome_iff_ne_none]
    constructor
    · rintro ⟨h1, h2⟩
      exact ⟨fun hpc => h1.resolve_left (fun hn => hn hpc), h2⟩
    · rintro ⟨h1, h2⟩
      refine ⟨?_, h2⟩
      by_cases hpc : w.th.pc = Pc.writing
      · exact Or.inr (h1 hpc)
      · exact Or.inl hpc

/-- A closed stream stays closed: no step of a schedule opens it. -/
theorem closed_step {w w1 : World} {s : Step} (hs : w.step s = some w1)
    (hc : w.lg._ofs = none) : w1.lg._ofs = none := by
  cases s with
  | append data =>
    simp only [World.step, Option.map_eq_some'] at hs
    obtain ⟨lg, hlg, rfl⟩ := hs
    exact (append_config hlg).1.trans hc
  | flush =>
    simp only [World.step, Option.some.injEq] at hs
    subst hs
    exact (flush_config w.lg).1.trans hc
  | destroy =>
    simp only [World.step, Option.some.injEq] at hs
    subst hs
    exact (destroy_config w.lg).1.trans hc
  | writer env =>
    simp only [World.step, Option.some.injEq] at hs
    subst hs
    unfold World.threadFunc_step
    cases hpc : w.th.pc with
    | head => exact hc
    | exited => exact hc
    | writing => exact (write_closed w env hc).2.2.1

theorem closed_run (sched : List Step) :
    ∀ {w w1 : World}, w.run sched = some w1 → w.lg._ofs = none → w1.lg._ofs = none := by
  induction sched with
  | nil =>
    intro w w1 hr hc
    simp only [World.run, Option.some.injEq] at hr
    subst hr
    exact hc
  | cons s rest ih =>
    intro w w1 hr hc
    cases hs : w.step s with
    | none => simp [World.run, hs] at hr
    | some w' =>
      rw [run_cons_of_step hs] at hr
      exact ih hr (closed_step hs hc)

/-- When the stream is open at the end of a schedule, it was open in every
write section of the schedule. -/
theorem openWrites_of_end (sched : List Step) :
    ∀ {w w1 : World}, w.run sched = some w1 → w1.lg._ofs ≠ none →
      w.openWrites sched = true := by
  induction sched with
  | nil => intro w w1 _ _; rfl
  | cons s rest ih =>
    intro w w1 hr ho
    cases hs : w.step s with
    | none => simp [World.run, hs] at hr
    | some w' =>
      rw [run_cons_of_step hs] at hr
      rw [openWrites_cons hs]
      refine ⟨fun env _ _ hc => ?_, ih hr ho⟩
      exact ho (closed_run rest hr (closed_step hs hc))

/-- One step whose write section, if it is one, finds the stream open: the
bytes it writes followed by the bytes buffered after it are the bytes buffered
before it followed by the bytes it appends. -/
theorem stream_step {w : World} (h : Inv w) (s : Step)
    (hlen : ∀ d, s = Step.append d → d.length ≤ DefaultBufferSize)
    (hop : ∀ env, s = Step.writer env → w.th.pc = Pc.writing → w.lg._ofs ≠ none) :
    ∃ w1, w.step s = some w1 ∧ Inv w1 ∧
      w.stepBytes s ++ w1.pending = w.pending ++ appended [s] := by
  obtain ⟨w1, hw1, hi1⟩ := Inv_step h s
  refine ⟨w1, hw1, hi1, ?_⟩
  cases s with
  | append data =>
    obtain ⟨lg, hlg, hbuf, _, _⟩ := append_buffered h (hlen data rfl)
    simp only [World.step, hlg, Option.map_some', Option.some.injEq] at hw1
    subst hw1
    simp only [World.stepBytes, World.pending, hbuf, appended, List.nil_append,
      List.append_nil, List.append_assoc]
  | flush =>
    simp only [World.step, Option.some.injEq] at hw1
    subst hw1
    simp only [World.stepBytes, World.pending, (flush_buffered h).1, appended,
      List.nil_append, List.append_nil]
  | destroy =>
    simp only [World.step, Option.some.injEq] at hw1
    subst hw1
    simp only [World.stepBytes, World.pending, (destroy_buffered h).1, appended,
      List.nil_append, List.append_nil]
  | writer env =>
    simp only [World.step, Option.some.injEq] at hw1
    subst hw1
    have happ : appended [Step.writer env] = [] := rfl
    rw [happ, List.append_nil]
    unfold World.threadFunc_step
    cases hpc : w.th.pc with
    | exited =>
      have hb : w.stepBytes (Step.writer env) = [] := by simp [World.stepBytes, hpc]
      rw [hb]; rfl
    | head =>
      have hb : w.stepBytes (Step.writer env) = [] := by simp [World.stepBytes, hpc]
      rw [hb]
      dsimp only
      rw [(lock_pending h hpc).1]
      rfl
    | writing =>
      dsimp only
      have ho := hop env rfl hpc
      have hbuf : (w.threadFunc_write env).lg.buffered = w.lg.buffered := by
        simp only [Logger.buffered, write_queue, write_current]
      have hp : (w.threadFunc_write env).pending = w.lg.buffered := by
        simp only [World.pending, write_th, hbuf, bytesOf_nil, List.nil_append]
      rw [hp, stepBytes_write w env hpc, if_pos (Option.isSome_iff_ne_none.mpr ho)]
      rfl

/-- A schedule none of whose write sections finds the stream closed: the bytes
written followed by the bytes buffered at the end are the bytes buffered at the
start followed by the appended bytes. -/
theorem stream_run (sched : List Step) :
    ∀ {w : World}, Inv w →
      (∀ d, Step.append d ∈ sched → d.length ≤ DefaultBufferSize) →
      w.openWrites sched = true →
      ∃ w1, w.run sched = some w1 ∧ Inv w1 ∧
        w.writtenBy sched ++ w1.pending = w.pending ++ appended sched := by
  induction sched with
  | nil =>
    intro w h _ _
    exact ⟨w, rfl, h, by simp [World.writtenBy, appended]⟩
  | cons s rest ih =>
    intro w h hlen hop
    obtain ⟨w0, hw0, _⟩ := Inv_step h s
    rw [openWrites_cons hw0] at hop
    obtain ⟨w1, hw1, hi1, he1⟩ :=
      stream_step h s (fun d hd => hlen d (hd ▸ List.mem_cons_self _ _)) hop.1
    rw [hw0] at hw1
    cases hw1
    obtain ⟨w2, hw2, hi2, he2⟩ :=
      ih hi1 (fun d hd => hlen d (List.mem_cons_of_mem _ hd)) hop.2
    refine ⟨w2, by rw [run_cons_of_step hw0]; exact hw2, hi2, ?_⟩
    rw [writtenBy_cons hw0, appended_cons, List.append_assoc, he2, ← List.append_assoc, he1,
      List.append_assoc]

theorem run_append_of (s1 s2 : List Step) {w w1 : World} (h : w.run s1 = some w1) :
    w.run (s1 ++ s2) = w1.run s2 := by
  rw [run_append, h]
  rfl

theorem openWrites_append (s1 s2 : List Step) :
    ∀ {w w1 : World}, w.run s1 = some w1 → w.openWrites s1 = true →
      w1.openWrites s2 = true → w.openWrites (s1 ++ s2) = true := by
  induction s1 with
  | nil =>
    intro w w1 hr _ h2
    simp only [World.run, Option.some.injEq] at hr
    subst hr
    exact h2
  | cons s rest ih =>
    intro w w1 hr h1 h2
    cases hs : w.step s with
    | none => simp [World.run, hs] at hr
    | some w' =>
      rw [run_cons_of_step hs] at hr
      rw [openWrites_cons hs] at h1
      rw [List.cons_append, openWrites_cons hs]
      exact ⟨h1.1, ih hr h1.2 h2⟩

/-- The write loop on an open stream puts the bytes of the drained buffers at
the end of the file, whatever the counter is. -/
theorem writeAll_fs {p : String} (bufs : List Buf) :
    ∀ (fs : FileSys) (written : Int) (c : List Byte), fs.read p = some c →
      (World.writeAll (some p) bufs fs written).1 = fs.write p (bytesOf bufs) := by
  induction bufs with
  | nil =>
    intro fs written c hc
    simp [World.writeAll, bytesOf_nil, FileSys.write_nil hc]
  | cons b rest ih =>
    intro fs written c hc
    simp only [World.writeAll]
    by_cases hl : b.length > 0
    · rw [if_pos hl, ih _ _ _ (FileSys.read_write hc _), FileSys.write_write hc, bytesOf_cons]
    · rw [if_neg hl]
      have hc0 : b.contents = [] := LogBuffer.contents_of_length_zero (by omega)
      rw [ih _ _ _ hc, bytesOf_cons, hc0]
      rfl

theorem stepStamps_nil_iff (w : World) (env : Env) (hpc : w.th.pc = Pc.writing) :
    w.stepStamps (Step.writer env) = [] ↔
      World.rotates w.lg._ofs
        (World.writeAll w.lg._ofs w.th.buffers_to_write w.fs w.lg.written_bytes_).2
        w.lg.roll_size_ w.lg.log_file_name_ = false := by
  cases hrot : World.rotates w.lg._ofs
      (World.writeAll w.lg._ofs w.th.buffers_to_write w.fs w.lg.written_bytes_).2
      w.lg.roll_size_ w.lg.log_file_name_ <;>
    simp [World.stepStamps, hpc, hrot]

/-- One step without a rotation, the stream being open on `p`: the stream stays
open on `p` and the bytes written are at the end of the file `p`. -/
theorem norot_step {w w1 : World} {p : String} {s : Step}
    (hofs : w.lg._ofs = some p) (hd : ∃ c, w.fs.read p = some c)
    (hs : w.step s = some w1) (hno : w.stepStamps s = []) :
    w1.lg._ofs = some p ∧ w1.fs = w.fs.write p (w.stepBytes s) := by
  obtain ⟨c, hc⟩ := hd
  have hnil := FileSys.write_nil hc
  cases s with
  | append data =>
    simp only [World.step, Option.map_eq_some'] at hs
    obtain ⟨lg, hlg, rfl⟩ := hs
    exact ⟨(append_config hlg).1.trans hofs, hnil.symm⟩
  | flush =>
    simp only [World.step, Option.some.injEq] at hs
    subst hs
    exact ⟨(flush_config w.lg).1.trans hofs, hnil.symm⟩
  | destroy =>
    simp only [World.step, Option.some.injEq] at hs
    subst hs
    exact ⟨(destroy_config w.lg).1.trans hofs, hnil.symm⟩
  | writer env =>
    simp only [World.step, Option.some.injEq] at hs
    subst hs
    unfold World.threadFunc_step
    cases hpc : w.th.pc with
    | head =>
      have hb : w.stepBytes (Step.writer env) = [] := by simp [World.stepBytes, hpc]
      rw [hb]
      exact ⟨hofs, hnil.symm⟩
    | exited =>
      have hb : w.stepBytes (Step.writer env) = [] := by simp [World.stepBytes, hpc]
      rw [hb]
      exact ⟨hofs, hnil.symm⟩
    | writing =>
      dsimp only
      have hF := (stepStamps_nil_iff w env hpc).mp hno
      obtain ⟨_, a2, a3⟩ := (write_cases w env).2 hF
      refine ⟨a2.trans hofs, ?_⟩
      rw [a3, stepBytes_write w env hpc, hofs]
      simp only [Option.isSome_some, if_true]
      exact writeAll_fs w.th.buffers_to_write w.fs w.lg.written_bytes_ c hc

/-- A schedule without a rotation, the stream being open on `p`: the stream is
still open on `p` and the file `p` has gained exactly the bytes written. -/
theorem norot_run {p : String} (sched : List Step) :
    ∀ {w w1 : World}, Inv w → w.lg._ofs = some p → (∃ c, w.fs.read p = some c) →
      w.run sched = some w1 → w.rotationStamps sched = [] →
      w1.lg._ofs = some p ∧ w1.fs = w.fs.write p (w.writtenBy sched) := by
  induction sched with
  | nil =>
    intro w w1 _ hofs hd hr _
    simp only [World.run, Option.some.injEq] at hr
    subst hr
    obtain ⟨c, hc⟩ := hd
    exact ⟨hofs, (FileSys.write_nil hc).symm⟩
  | cons s rest ih =>
    intro w w1 h hofs hd hr hno
    obtain ⟨w', hs, hi'⟩ := Inv_step h s
    rw [run_cons_of_step hs] at hr
    rw [rotationStamps_cons hs, List.append_eq_nil] at hno
    obtain ⟨c, hc⟩ := hd
    obtain ⟨a1, a2⟩ := norot_step hofs ⟨c, hc⟩ hs hno.1
    have hc' : w'.fs.read p = some (c ++ w.stepBytes s) := by
      rw [a2]; exact FileSys.read_write hc _
    obtain ⟨b1, b2⟩ := ih hi' a1 ⟨_, hc'⟩ hr hno.2
    refine ⟨b1, ?_⟩
    rw [b2, a2, writtenBy_cons hs, FileSys.write_write hc]

/-- The content of the file the stream is open on after a schedule without a
rotation: the initial content, then the bytes written. -/
theorem file_norot {p : String} {sched : List Step} {w w1 : World} (h : Inv w)
    (hofs : w.lg._ofs = some p) (hd : ∃ c, w.fs.read p = some c)
    (hr : w.run sched = some w1) (hno : w.rotationStamps sched = []) :
    w1.lg._ofs = some p ∧ w1.file = w.file ++ w.writtenBy sched := by
  obtain ⟨c, hc⟩ := hd
  obtain ⟨a1, a2⟩ := norot_run sched h hofs ⟨c, hc⟩ hr hno
  refine ⟨a1, ?_⟩
  rw [file_eq a1 (by rw [a2]; exact FileSys.read_write hc _), file_eq hofs hc]

/-- The bytes written in the course of a schedule from a new logger, when the
stream is open at its end. -/
theorem written_of_open {w0 w : World} {sched : List Step} (h0 : w0.Fresh)
    (hlen : ∀ d, Step.append d ∈ sched → d.length ≤ DefaultBufferSize)
    (hr : w0.run sched = some w) (ho : w.lg._ofs ≠ none) :
    w0.writtenBy sched ++ w.pending = appended sched := by
  obtain ⟨w1, hw1, _, he⟩ :=
    stream_run sched (Inv_of_Fresh h0) hlen (openWrites_of_end sched hr ho)
  rw [hr] at hw1
  cases hw1
  rw [he, pending_of_Fresh h0, List.nil_append]

theorem ow_writer {w : World} (e : Env) (rest : List Step)
    (hc : w.th.pc ≠ Pc.writing ∨ w.lg._ofs ≠ none)
    (hr : (w.threadFunc_step e).openWrites rest = true) :
    w.openWrites (Step.writer e :: rest) = true := by
  rw [openWrites_cons (show w.step (Step.writer e) = some (w.threadFunc_step e) from rfl)]
  refine ⟨fun _ _ hpc => ?_, hr⟩
  rcases hc with hc | hc
  · exact absurd hpc hc
  · exact hc

theorem step_head {w : World} (hpc : w.th.pc = Pc.head) (e : Env) :
    w.threadFunc_step e = w.threadFunc_lock := by
  unfold World.threadFunc_step; rw [hpc]

theorem step_writing {w : World} (hpc : w.th.pc = Pc.writing) (e : Env) :
    w.threadFunc_step e = w.threadFunc_write e := by
  unfold World.threadFunc_step; rw [hpc]

theorem step_exited {w : World} (hpc : w.th.pc = Pc.exited) (e : Env) :
    w.threadFunc_step e = w := by
  unfold World.threadFunc_step; rw [hpc]

theorem step_writing_pc {w : World} (hpc : w.th.pc = Pc.writing) (e : Env) :
    (w.threadFunc_step e).th.pc = Pc.head := by
  rw [step_writing hpc, write_th]

/-- One whole iteration of the background thread from the loop head leaves
nothing buffered on the side of the thread and an empty pending queue. -/
theorem drain_empty {w : World} (h : Inv w) (hpc : w.th.pc = Pc.head) (e1 e2 : Env) :
    ((w.threadFunc_step e1).threadFunc_step e2).pending = [] ∧
    ((w.threadFunc_step e1).threadFunc_step e2).lg.buffers_queue_ = [] ∧
    ((w.threadFunc_step e1).threadFunc_step e2).th.pc ≠ Pc.writing ∧
    Inv ((w.threadFunc_step e1).threadFunc_step e2) := by
  rw [step_head hpc]
  obtain ⟨_, _, _, _, hbuf1⟩ := lock_pending h hpc
  have hi1 := Inv_lock h hpc
  have hq1 : w.threadFunc_lock.lg.buffers_queue_ = [] := (lock_post h hpc).1
  rcases lock_pc w with hx | hx
  · rw [step_exited hx]
    refine ⟨?_, hq1, by rw [hx]; decide, hi1⟩
    rw [pending_of_not_writing hi1 (by rw [hx]; decide), hbuf1]
  · rw [step_writing hx]
    refine ⟨?_, by rw [write_queue]; exact hq1, by rw [write_th]; exact (fun hh => by cases hh),
      Inv_write hi1 hx e2⟩
    have hbuf : (w.threadFunc_lock.threadFunc_write e2).lg.buffered = [] := by
      simp only [Logger.buffered, write_queue, write_current]
      exact hbuf1
    simp only [World.pending, write_th, hbuf, bytesOf_nil, List.append_nil]

/-- One whole iteration from the loop head with the stream open: its write
section finds the stream open. -/
theorem ow_drain {w : World} (hpc : w.th.pc = Pc.head) (ho : w.lg._ofs ≠ none)
    (e1 e2 : Env) (rest : List Step)
    (hr : ((w.threadFunc_step e1).threadFunc_step e2).openWrites rest = true) :
    w.openWrites (Step.writer e1 :: Step.writer e2 :: rest) = true := by
  apply ow_writer e1 _ (Or.inl (by rw [hpc]; decide))
  apply ow_writer e2 _ (Or.inr ?_) hr
  rw [step_head hpc]
  exact ho

theorem appended_of_no_append {tail : List Step} (hna : ∀ d, Step.append d ∉ tail) :
    appended tail = [] := by
  induction tail with
  | nil => rfl
  | cons s rest ih =>
    have hrest := ih (fun d hd => hna d (List.mem_cons_of_mem _ hd))
    cases s with
    | append d => exact absurd (List.mem_cons_self _ _) (hna d)
    | flush => simpa [appended] using hrest
    | destroy => simpa [appended] using hrest
    | writer e => simpa [appended] using hrest

/-- The bytes written by a schedule followed by a tail without appends that
leaves nothing buffered: all appended bytes. -/
theorem written_tail {w0 w wf : World} {sched tail : List Step} (h0 : w0.Fresh)
    (hlen : ∀ d, Step.append d ∈ sched → d.length ≤ DefaultBufferSize)
    (hr : w0.run sched = some w) (ho : w.lg._ofs ≠ none)
    (hna : ∀ d, Step.append d ∉ tail)
    (hrt : w.run tail = some wf) (hot : w.openWrites tail = true) (hp : wf.pending = []) :
    w0.writtenBy (sched ++ tail) = appended sched := by
  have hlen2 : ∀ d, Step.append d ∈ sched ++ tail → d.length ≤ DefaultBufferSize := by
    intro d hd
    rcases List.mem_append.mp hd with hd | hd
    · exact hlen d hd
    · exact absurd hd (hna d)
  have happ := appended_of_no_append hna
  obtain ⟨w1, hw1, _, he⟩ :=
    stream_run (sched ++ tail) (Inv_of_Fresh h0) hlen2
      (openWrites_append sched tail hr (openWrites_of_end sched hr ho) hot)
  rw [run_append_of sched tail hr, hrt] at hw1
  cases hw1
  rw [hp, List.append_nil, pending_of_Fresh h0, List.nil_append, appended_append, happ,
    List.append_nil] at he
  exact he

/-- The bytes written by a schedule that ends with the stream open and nothing
buffered: all appended bytes. -/
theorem written_all {w0 w : World} {sched : List Step} (h0 : w0.Fresh)
    (hlen : ∀ d, Step.append d ∈ sched → d.length ≤ DefaultBufferSize)
    (hr : w0.run sched = some w) (ho : w.lg._ofs ≠ none) (hp : w.pending = []) :
    w0.writtenBy sched = appended sched := by
  have := written_of_open h0 hlen hr ho
  rwa [hp, List.append_nil] at this

/-- The disk after a run of a logger that rotates its base file `p`, new and
empty at the start, when every rename and reopening succeeds and the rotations
carry pairwise different time stamps: one rotated file per rotation, then the
base file, holding between them as many bytes as were written. -/
theorem disk_rot {w0 w : World} {p : String} {sched : List Step} (h0 : w0.Fresh)
    (hopen : w0.lg._ofs = some p) (hname : w0.lg.log_file_name_ = p) (hp : p ≠ "")
    (hfs : w0.fs = [(p, [])]) (hroll0 : 0 ≤ w0.lg.roll_size_)
    (hroll : w0.lg.roll_size_ < 2 ^ 63)
    (henv : ∀ e, Step.writer e ∈ sched → e.renameOk = true ∧ e.openOk = true ∧ e.ts ≠ "")
    (hnd : (w0.rotationStamps sched).Nodup)
    (hT63 : ((w0.writtenBy sched).length : Int) < 2 ^ 63)
    (hr : w0.run sched = some w) :
    w.fs.map Prod.fst = (w0.rotationStamps sched).map (fun t => p ++ t) ++ [p] ∧
      w.fs.length = 1 + (w0.rotationStamps sched).length ∧
      w.fs.diskBytes = (w0.writtenBy sched).length := by
  have hr0 : Rot w0 p [] [] [] :=
    { inv := Inv_of_Fresh h0, ofs := hopen, name := hname, fs := by rw [hfs]; rfl,
      names := rfl, stamps := fun t ht => (by cases ht),
      counter := (by rw [h0.2.2.2.2.1]; rfl), below := (by simpa using hroll0),
      roll := hroll }
  obtain ⟨w1, R, c, hw, hrot, hd, hl, _, _⟩ :=
    rot_run hp sched hr0 henv (by simpa using hnd) (by simpa using hT63)
  rw [hr] at hw
  cases hw
  simp only [List.nil_append] at hrot
  refine ⟨?_, ?_, ?_⟩
  · rw [hrot.fs, List.map_append, hrot.names]
    rfl
  · rw [hl, hfs]
    simp only [List.length_singleton]
  · rw [hd, hfs]
    simp [FileSys.diskBytes]

/-- One step without a rotation: the counter grows by the bytes written and
stays at most the threshold. -/
theorem count_step {w w1 : World} {s : Step} (h : Inv w) (hs : w.step s = some w1)
    (hno : w.stepStamps s = []) (hname : w.lg.log_file_name_ ≠ "")
    (hlo : 0 ≤ w.lg.written_bytes_) (hle : w.lg.written_bytes_ ≤ w.lg.roll_size_)
    (hhi : w.lg.written_bytes_ + ((w.stepBytes s).length : Int) < 2 ^ 63) :
    w1.lg.written_bytes_ = w.lg.written_bytes_ + ((w.stepBytes s).length : Int) ∧
      w1.lg.written_bytes_ ≤ w1.lg.roll_size_ ∧ w1.lg.roll_size_ = w.lg.roll_size_ ∧
      w1.lg.log_file_name_ = w.lg.log_file_name_ := by
  obtain ⟨a1, a2, a3⟩ := counter_step hs hle (by omega) hname
  refine ⟨?_, a1, a2, a3⟩
  cases s with
  | append data =>
    simp only [World.step, Option.map_eq_some'] at hs
    obtain ⟨lg, hlg, rfl⟩ := hs
    simp only [World.stepBytes, List.length_nil, Nat.cast_zero, add_zero]
    exact (append_config hlg).2.1
  | flush =>
    simp only [World.step, Option.some.injEq] at hs
    subst hs
    simp only [World.stepBytes, List.length_nil, Nat.cast_zero, add_zero]
    exact (flush_config w.lg).2.1
  | destroy =>
    simp only [World.step, Option.some.injEq] at hs
    subst hs
    simp only [World.stepBytes, List.length_nil, Nat.cast_zero, add_zero]
    exact (destroy_config w.lg).2.1
  | writer env =>
    simp only [World.step, Option.some.injEq] at hs
    subst hs
    cases hpc : w.th.pc with
    | head =>
      rw [step_head hpc]
      simp [World.stepBytes, hpc]
      rfl
    | exited =>
      rw [step_exited hpc]
      simp [World.stepBytes, hpc]
    | writing =>
      rw [step_writing hpc]
      have hF := (stepStamps_nil_iff w env hpc).mp hno
      rw [((write_cases w env).2 hF).1]
      rw [stepBytes_write w env hpc] at hhi ⊢
      cases hofs : w.lg._ofs with
      | none => rw [writeAll_closed]; simp
      | some p =>
        rw [hofs] at hhi
        simp only [Option.isSome_some, if_true] at hhi ⊢
        exact writeAll_counter w.th.buffers_to_write h.btw w.fs _ (by omega) hhi

/-- A schedule without a rotation: the counter has grown by the bytes written
and is at most the threshold. -/
theorem count_run (sched : List Step) :
    ∀ {w w1 : World}, Inv w → w.run sched = some w1 → w.rotationStamps sched = [] →
      w.lg.log_file_name_ ≠ "" → 0 ≤ w.lg.written_bytes_ →
      w.lg.written_bytes_ ≤ w.lg.roll_size_ →
      w.lg.written_bytes_ + ((w.writtenBy sched).length : Int) < 2 ^ 63 →
      w1.lg.written_bytes_ = w.lg.written_bytes_ + ((w.writtenBy sched).length : Int) ∧
        w1.lg.written_bytes_ ≤ w1.lg.roll_size_ ∧ w1.lg.roll_size_ = w.lg.roll_size_ := by
  induction sched with
  | nil =>
    intro w w1 _ hr _ _ _ hle _
    simp only [World.run, Option.some.injEq] at hr
    subst hr
    exact ⟨by simp [World.writtenBy], hle, rfl⟩
  | cons s rest ih =>
    intro w w1 h hr hno hname hlo hle hhi
    obtain ⟨w', hs, hi'⟩ := Inv_step h s
    rw [run_cons_of_step hs] at hr
    rw [rotationStamps_cons hs, List.append_eq_nil] at hno
    rw [writtenBy_cons hs, List.length_append] at hhi ⊢
    push_cast at hhi ⊢
    have hnn : (0 : Int) ≤ ((w'.writtenBy rest).length : Int) := Int.natCast_nonneg _
    have hnn2 : (0 : Int) ≤ ((w.stepBytes s).length : Int) := Int.natCast_nonneg _
    obtain ⟨a1, a2, a3, a4⟩ := count_step h hs hno.1 hname hlo hle (by omega)
    obtain ⟨b1, b2, b3⟩ :=
      ih hi' hr hno.2 (by rw [a4]; exact hname) (by rw [a1]; omega) a2 (by rw [a1]; omega)
    exact ⟨by rw [b1, a1]; omega, b2, b3.trans a3⟩

/-- With a non-empty base file name and a threshold that is not negative, a run
from a new logger that writes more bytes than the threshold rotates at least
once, whatever the renames and reopenings do. -/
theorem rotates_once {w0 w : World} {sched : List Step} (h0 : w0.Fresh)
    (hname : w0.lg.log_file_name_ ≠ "") (hroll0 : 0 ≤ w0.lg.roll_size_)
    (hT : ((w0.writtenBy sched).length : Int) > w0.lg.roll_size_)
    (hT63 : ((w0.writtenBy sched).length : Int) < 2 ^ 63)
    (hr : w0.run sched = some w) : 1 ≤ (w0.rotationStamps sched).length := by
  by_contra hlt
  have hnil : w0.rotationStamps sched = [] := List.length_eq_zero.mp (by omega)
  have hc0 : w0.lg.written_bytes_ = 0 := h0.2.2.2.2.1
  obtain ⟨a1, a2, a3⟩ :=
    count_run sched (Inv_of_Fresh h0) hr hnil hname (by rw [hc0]) (by rw [hc0]; exact hroll0)
      (by rw [hc0]; simpa using hT63)
  rw [a1, a3, hc0] at a2
  omega

/-- With a non-empty base file name and a counter that is at most the
threshold, the write section rotates exactly when the write loop leaves the
counter above the threshold. -/
theorem rotation_iff {w : World} (env : Env) (hpc : w.th.pc = Pc.writing)
    (hname : w.lg.log_file_name_ ≠ "") (hle : w.lg.written_bytes_ ≤ w.lg.roll_size_) :
    (w.stepStamps (Step.writer env) = [env.ts] ↔
      (World.writeAll w.lg._ofs w.th.buffers_to_write w.fs w.lg.written_bytes_).2
        > w.lg.roll_size_) ∧
    (w.stepStamps (Step.writer env) = [] ↔
      (World.writeAll w.lg._ofs w.th.buffers_to_write w.fs w.lg.written_bytes_).2
        ≤ w.lg.roll_size_) := by
  have hne : w.lg.log_file_name_.isEmpty = false := by
    cases hx : w.lg.log_file_name_.isEmpty with
    | false => rfl
    | true => exact absurd ((String.isEmpty_iff _).mp hx) hname
  cases hofs : w.lg._ofs with
  | none =>
    simp only [World.stepStamps, hpc, hofs, writeAll_closed, World.rotates]
    simp
    omega
  | some p =>
    simp only [World.stepStamps, hpc, hofs, World.rotates, hne]
    by_cases hgt : (World.writeAll (some p) w.th.buffers_to_write w.fs w.lg.written_bytes_).2
        > w.lg.roll_size_
    · simp [hgt]
    · simp [hgt]
      omega

theorem FileSys.openApp_on {fs : FileSys} {p : String} {c : List Byte}
    (h : fs.read p = some c) : fs.openApp p = fs := by
  unfold FileSys.openApp
  rw [h]

theorem FileSys.read_snoc_ne (fs : FileSys) {p q : String} (h : p ≠ q) (a : List Byte) :
    FileSys.read (fs ++ [(p, a)]) q = fs.read q := by
  induction fs with
  | nil => rw [List.nil_append, FileSys.read_cons, if_neg h]
  | cons e rest ih =>
    rw [List.cons_append, FileSys.read_cons, FileSys.read_cons, ih]

theorem FileSys.read_map_ne (fs : FileSys) {p q : String} (h : p ≠ q) (a : List Byte) :
    FileSys.read (fs.map fun e => if e.1 == p then (e.1, e.2 ++ a) else e) q = fs.read q := by
  induction fs with
  | nil => rfl
  | cons e rest ih =>
    rw [List.map_cons, FileSys.read_cons, FileSys.read_cons, ih]
    by_cases he : e.1 = p
    · have hq : e.1 ≠ q := fun hh => h (he.symm.trans hh)
      simp [he, hq, h]
    · have hb : (e.1 == p) = false := by simpa using he
      simp only [hb, Bool.false_eq_true, if_false]

/-- Writing to `p` leaves every other file as it is. -/
theorem FileSys.read_write_ne (fs : FileSys) {p q : String} (h : p ≠ q) (a : List Byte) :
    (fs.write p a).read q = fs.read q := by
  unfold FileSys.write
  cases fs.read p with
  | none => exact FileSys.read_snoc_ne fs h a
  | some c => exact FileSys.read_map_ne fs h a

theorem FileSys.off_of_read_none {fs : FileSys} {p : String} (h : fs.read p = none) :
    ∀ e ∈ fs, e.1 ≠ p := by
  induction fs with
  | nil => intro e he; cases he
  | cons x rest ih =>
    rw [FileSys.read_cons] at h
    by_cases hx : x.1 = p
    · rw [if_pos hx] at h; cases h
    · rw [if_neg hx] at h
      intro e he
      rcases List.mem_cons.mp he with he | he
      · rw [he]; exact hx
      · exact ih h e he

/-- Opening `p` in append mode leaves every other file as it is. -/
theorem FileSys.read_openApp_ne (fs : FileSys) {p q : String} (h : p ≠ q) :
    (fs.openApp p).read q = fs.read q := by
  unfold FileSys.openApp
  cases fs.read p with
  | none => exact FileSys.read_snoc_ne fs h []
  | some c => rfl

/-- Opening `p` in append mode creates it empty when it does not exist. -/
theorem FileSys.read_openApp_new {fs : FileSys} {p : String} (h : fs.read p = none) :
    (fs.openApp p).read p = some [] := by
  unfold FileSys.openApp
  rw [h]
  exact FileSys.read_snoc (FileSys.off_of_read_none h) []

theorem FileSys.read_filter_ne (fs : FileSys) {p n q : String} (hp : p ≠ q) (hn : n ≠ q) :
    FileSys.read (fs.filter fun e => !(e.1 == p) && !(e.1 == n)) q = fs.read q := by
  induction fs with
  | nil => rfl
  | cons e rest ih =>
    rw [List.filter_cons, FileSys.read_cons]
    by_cases hk : (!(e.1 == p) && !(e.1 == n)) = true
    · rw [if_pos hk, FileSys.read_cons, ih]
    · rw [if_neg hk, ih]
      have he : e.1 ≠ q := by
        intro hq
        apply hk
        have h1 : e.1 ≠ p := fun hh => hp (hh.symm.trans hq)
        have h2 : e.1 ≠ n := fun hh => hn (hh.symm.trans hq)
        simp [h1, h2]
      rw [if_neg he]

/-- A rename of the existing file `p` to another name `n`: afterwards `n` has
the content of `p`, `p` is gone and every other file is as it was. -/
theorem FileSys.read_rename {fs : FileSys} {p n : String} {c : List Byte}
    (h : fs.read p = some c) (hne : p ≠ n) :
    ∃ f, fs.rename p n = some f ∧ f.read n = some c ∧ f.read p = none ∧
      ∀ q, p ≠ q → n ≠ q → f.read q = fs.read q := by
  have hoffp : ∀ e ∈ fs.filter (fun e => !(e.1 == p) && !(e.1 == n)), e.1 ≠ p := by
    intro e he
    have := (List.mem_filter.mp he).2
    simp only [Bool.and_eq_true, Bool.not_eq_true', beq_eq_false_iff_ne, ne_eq] at this
    exact this.1
  have hoffn : ∀ e ∈ fs.filter (fun e => !(e.1 == p) && !(e.1 == n)), e.1 ≠ n := by
    intro e he
    have := (List.mem_filter.mp he).2
    simp only [Bool.and_eq_true, Bool.not_eq_true', beq_eq_false_iff_ne, ne_eq] at this
    exact this.2
  refine ⟨(fs.filter fun e => !(e.1 == p) && !(e.1 == n)) ++ [(n, c)], ?_, ?_, ?_, ?_⟩
  · unfold FileSys.rename
    rw [h]
    dsimp only
    rw [if_neg hne]
  · exact FileSys.read_snoc hoffn c
  · rw [FileSys.read_snoc_ne _ (Ne.symm hne), FileSys.read_off hoffp]
  · intro q hp hn
    rw [FileSys.read_snoc_ne _ hn, FileSys.read_filter_ne fs hp hn]

theorem FileSys.logOnDisk_append (fs : FileSys) (p : String) (done more : List String) :
    fs.logOnDisk p (done ++ more)
      = (done.map fun t => (fs.read (p ++ t)).getD []).flatten ++ fs.logOnDisk p more := by
  simp [FileSys.logOnDisk]

theorem FileSys.logOnDisk_nil (fs : FileSys) (p : String) :
    fs.logOnDisk p [] = (fs.read p).getD [] := by
  simp [FileSys.logOnDisk]

theorem FileSys.logOnDisk_singleton (fs : FileSys) (p t : String) :
    fs.logOnDisk p [t] = (fs.read (p ++ t)).getD [] ++ (fs.read p).getD [] := by
  simp [FileSys.logOnDisk]

theorem FileSys.rotated_congr (fs : FileSys) {fs1 : FileSys} {p : String} {done : List String}
    (h : ∀ t ∈ done, fs1.read (p ++ t) = fs.read (p ++ t)) :
    (done.map fun t => (fs1.read (p ++ t)).getD [])
      = done.map fun t => (fs.read (p ++ t)).getD [] := by
  apply List.map_congr_left
  intro t ht
  rw [h t ht]

/-- The disk after a write section that rotates and whose rename goes
through. -/
theorem write_fs_renamed (w : World) (env : Env) {f : FileSys}
    (hT : World.rotates w.lg._ofs
      (World.writeAll w.lg._ofs w.th.buffers_to_write w.fs w.lg.written_bytes_).2
      w.lg.roll_size_ w.lg.log_file_name_ = true)
    (hren : env.renameOk = true)
    (hrn : FileSys.rename
      (World.writeAll w.lg._ofs w.th.buffers_to_write w.fs w.lg.written_bytes_).1
      w.lg.log_file_name_ (w.lg.log_file_name_ ++ env.ts) = some f) :
    (w.threadFunc_write env).fs
      = if env.openOk then f.openApp w.lg.log_file_name_ else f := by
  cases hop : env.openOk <;> simp [World.threadFunc_write, hT, World.rotate, hren, hrn, hop]

/-- The disk after a write section that rotates and whose rename is refused. -/
theorem write_fs_refused (w : World) (env : Env)
    (hT : World.rotates w.lg._ofs
      (World.writeAll w.lg._ofs w.th.buffers_to_write w.fs w.lg.written_bytes_).2
      w.lg.roll_size_ w.lg.log_file_name_ = true)
    (hren : env.renameOk = false) :
    (w.threadFunc_write env).fs
      = if env.openOk then
          FileSys.openApp
            (World.writeAll w.lg._ofs w.th.buffers_to_write w.fs w.lg.written_bytes_).1
            w.lg.log_file_name_
        else (World.writeAll w.lg._ofs w.th.buffers_to_write w.fs w.lg.written_bytes_).1 := by
  cases hop : env.openOk <;> simp [World.threadFunc_write, hT, World.rotate, hren, hop]

theorem stepStamps_rot (w : World) (env : Env) (hpc : w.th.pc = Pc.writing)
    (hT : World.rotates w.lg._ofs
      (World.writeAll w.lg._ofs w.th.buffers_to_write w.fs w.lg.written_bytes_).2
      w.lg.roll_size_ w.lg.log_file_name_ = true) :
    w.stepStamps (Step.writer env) = [env.ts] := by
  simp [World.stepStamps, hpc, hT]

/-- The files after a write section that rotates, the stream being open on the
base file `p` with content `c` and no file having the name of the rotated file:
the bytes written are behind `c`, in the rotated file or, when the rename is
refused, in the base file; the files of other rotations are as they were; and
the stream is open on a base file that exists, or closed. -/
theorem rotate_reads {w : World} {p : String} {c : List Byte} (env : Env)
    (hname : w.lg.log_file_name_ = p) (ho : w.lg._ofs = some p)
    (hrd : w.fs.read p = some c) (hts : env.ts ≠ "")
    (hfree : w.fs.read (p ++ env.ts) = none)
    (hT : World.rotates w.lg._ofs
      (World.writeAll w.lg._ofs w.th.buffers_to_write w.fs w.lg.written_bytes_).2
      w.lg.roll_size_ w.lg.log_file_name_ = true) :
    (∀ t, t ≠ "" → t ≠ env.ts →
      (w.threadFunc_write env).fs.read (p ++ t) = w.fs.read (p ++ t)) ∧
    ((w.threadFunc_write env).fs.read (p ++ env.ts)).getD [] ++
        ((w.threadFunc_write env).fs.read p).getD [] = c ++ bytesOf w.th.buffers_to_write ∧
    (((w.threadFunc_write env).lg._ofs = some p ∧
        ∃ c1, (w.threadFunc_write env).fs.read p = some c1) ∨
      (w.threadFunc_write env).lg._ofs = none) := by
  have hwa : (World.writeAll w.lg._ofs w.th.buffers_to_write w.fs w.lg.written_bytes_).1
      = w.fs.write p (bytesOf w.th.buffers_to_write) := by
    rw [ho, writeAll_fs w.th.buffers_to_write w.fs w.lg.written_bytes_ c hrd]
  have hpW : (w.fs.write p (bytesOf w.th.buffers_to_write)).read p
      = some (c ++ bytesOf w.th.buffers_to_write) := FileSys.read_write hrd _
  have hqW : ∀ t, t ≠ "" → (w.fs.write p (bytesOf w.th.buffers_to_write)).read (p ++ t)
      = w.fs.read (p ++ t) := fun t ht =>
    FileSys.read_write_ne w.fs (Ne.symm (append_ne_self ht)) _
  have hofs := ((write_cases w env).1 hT).2
  rw [hname] at hofs
  cases hren : env.renameOk with
  | false =>
    have hfs := write_fs_refused w env hT hren
    rw [hwa, hname, FileSys.openApp_on hpW, ite_self] at hfs
    rw [hfs]
    refine ⟨fun t ht _ => hqW t ht, ?_, ?_⟩
    · rw [hqW _ hts, hfree, hpW]; rfl
    · cases hop : env.openOk with
      | true => rw [hop] at hofs; exact Or.inl ⟨hofs, _, hpW⟩
      | false => rw [hop] at hofs; exact Or.inr hofs
  | true =>
    obtain ⟨f, hf, f1, f2, f3⟩ :=
      FileSys.read_rename hpW (Ne.symm (append_ne_self hts) : p ≠ p ++ env.ts)
    have hrn : FileSys.rename
        (World.writeAll w.lg._ofs w.th.buffers_to_write w.fs w.lg.written_bytes_).1
        w.lg.log_file_name_ (w.lg.log_file_name_ ++ env.ts) = some f := by
      rw [hwa, hname]; exact hf
    have hfs := write_fs_renamed w env hT hren hrn
    rw [hname] at hfs
    have hother : ∀ t, t ≠ "" → t ≠ env.ts → f.read (p ++ t) = w.fs.read (p ++ t) := by
      intro t ht hne
      rw [f3 _ (Ne.symm (append_ne_self ht)) (fun hh => hne (append_left_inj hh).symm)]
      exact hqW t ht
    cases hop : env.openOk with
    | true =>
      rw [hop] at hofs hfs
      simp only [if_true] at hfs hofs
      rw [hfs]
      refine ⟨?_, ?_, Or.inl ⟨hofs, _, FileSys.read_openApp_new f2⟩⟩
      · intro t ht hne
        rw [FileSys.read_openApp_ne f (Ne.symm (append_ne_self ht))]
        exact hother t ht hne
      · rw [FileSys.read_openApp_ne f (Ne.symm (append_ne_self hts)), f1,
          FileSys.read_openApp_new f2]
        simp
    | false =>
      rw [hop] at hofs hfs
      simp only [Bool.false_eq_true, if_false] at hfs hofs
      rw [hfs]
      refine ⟨hother, ?_, Or.inr hofs⟩
      rw [f1, f2]
      simp
/-- One step of a logger that rotates its base file, no file having the name
of a rotated file to come: the bytes written are behind the bytes of the log on
disk, and no byte of it is lost. -/
theorem kept_step {w w1 : World} {p : String} {done todo : List String} {s : Step}
    (hk : Kept w p done (w.stepStamps s ++ todo)) (hs : w.step s = some w1) :
    Kept w1 p (done ++ w.stepStamps s) todo ∧
      w1.fs.logOnDisk p (done ++ w.stepStamps s) = w.fs.logOnDisk p done ++ w.stepBytes s := by
  have hsame : ∀ (x : World), x.lg.log_file_name_ = w.lg.log_file_name_ →
      x.lg._ofs = w.lg._ofs → x.fs = w.fs → w.stepStamps s = [] → w.stepBytes s = [] →
      Kept x p (done ++ w.stepStamps s) todo ∧
        x.fs.logOnDisk p (done ++ w.stepStamps s)
          = w.fs.logOnDisk p done ++ w.stepBytes s := by
    intro x hxn hxo hxf hst hsb
    have hk1 := hk
    rw [hst, List.nil_append] at hk1
    rw [hst, hsb, List.append_nil, List.append_nil, hxf]
    refine ⟨⟨hxn.trans hk1.name, ?_, hk1.stamps, hk1.nodup, ?_⟩, rfl⟩
    · rw [hxo, hxf]; exact hk1.stream
    · rw [hxf]; exact hk1.fresh
  cases s with
  | append data =>
    simp only [World.step, Option.map_eq_some'] at hs
    obtain ⟨lg, hlg, rfl⟩ := hs
    obtain ⟨c1, _, _, c4, _⟩ := append_config hlg
    exact hsame _ c4 c1 rfl rfl rfl
  | flush =>
    simp only [World.step, Option.some.injEq] at hs
    subst hs
    obtain ⟨c1, _, _, c4, _⟩ := flush_config w.lg
    exact hsame _ c4 c1 rfl rfl rfl
  | destroy =>
    simp only [World.step, Option.some.injEq] at hs
    subst hs
    obtain ⟨c1, _, _, c4, _⟩ := destroy_config w.lg
    exact hsame _ c4 c1 rfl rfl rfl
  | writer env =>
    simp only [World.step, Option.some.injEq] at hs
    subst hs
    cases hpc : w.th.pc with
    | head =>
      rw [step_head hpc]
      exact hsame _ rfl rfl rfl (by simp [World.stepStamps, hpc]) (by simp [World.stepBytes, hpc])
    | exited =>
      rw [step_exited hpc]
      exact hsame _ rfl rfl rfl (by simp [World.stepStamps, hpc]) (by simp [World.stepBytes, hpc])
    | writing =>
      rw [step_writing hpc]
      have hnm : (w.threadFunc_write env).lg.log_file_name_ = p :=
        (write_log_file_name w env).trans hk.name
      rcases hk.stream with ⟨ho, c, hrd⟩ | hc
      · -- the stream is open on `p`
        have hsb : w.stepBytes (Step.writer env) = bytesOf w.th.buffers_to_write := by
          rw [stepBytes_write w env hpc, ho]; rfl
        rw [hsb]
        cases hrot : World.rotates w.lg._ofs
            (World.writeAll w.lg._ofs w.th.buffers_to_write w.fs w.lg.written_bytes_).2
            w.lg.roll_size_ w.lg.log_file_name_ with
        | false =>
          obtain ⟨_, a2, a3⟩ := (write_cases w env).2 hrot
          have hst : w.stepStamps (Step.writer env) = [] :=
            (stepStamps_nil_iff w env hpc).mpr hrot
          have hk1 := hk
          rw [hst, List.nil_append] at hk1
          have hwa : (w.threadFunc_write env).fs
              = w.fs.write p (bytesOf w.th.buffers_to_write) := by
            rw [a3, ho, writeAll_fs w.th.buffers_to_write w.fs w.lg.written_bytes_ c hrd]
          have hpW := FileSys.read_write hrd (bytesOf w.th.buffers_to_write)
          have hqW : ∀ t, t ≠ "" →
              (w.fs.write p (bytesOf w.th.buffers_to_write)).read (p ++ t)
                = w.fs.read (p ++ t) := fun t ht =>
            FileSys.read_write_ne w.fs (Ne.symm (append_ne_self ht)) _
          rw [hst, List.append_nil, hwa]
          refine ⟨⟨hnm, Or.inl ⟨a2.trans ho, _, by rw [hwa]; exact hpW⟩, hk1.stamps,
            hk1.nodup, ?_⟩, ?_⟩
          · intro t ht
            rw [hwa, hqW t (hk1.stamps t (List.mem_append_right _ ht))]
            exact hk1.fresh t ht
          · unfold FileSys.logOnDisk
            rw [hpW, hrd, FileSys.rotated_congr w.fs (fun t ht =>
              hqW t (hk1.stamps t (List.mem_append_left _ ht)))]
            simp
        | true =>
          have hst := stepStamps_rot w env hpc hrot
          have hk1 := hk
          rw [hst] at hk1
          have hts : env.ts ≠ "" :=
            hk1.stamps env.ts (List.mem_append_right _ (List.mem_cons_self _ _))
          have hfree : w.fs.read (p ++ env.ts) = none :=
            hk1.fresh env.ts (List.mem_cons_self _ _)
          have hnd := hk1.nodup
          rw [List.nodup_append] at hnd
          obtain ⟨_, hnd2, hdisj⟩ := hnd
          have hnotdone : env.ts ∉ done := fun h => hdisj h (List.mem_cons_self _ _)
          have hnottodo : env.ts ∉ todo := (List.nodup_cons.mp hnd2).1
          obtain ⟨r1, r2, r3⟩ := rotate_reads env hk.name ho hrd hts hfree hrot
          rw [hst]
          refine ⟨⟨hnm, r3, ?_, ?_, ?_⟩, ?_⟩
          · intro t ht
            apply hk1.stamps t
            simpa [List.append_assoc] using ht
          · have := hk1.nodup
            simpa [List.append_assoc] using this
          · intro t ht
            rw [r1 t (hk1.stamps t (List.mem_append_right _ (List.mem_cons_of_mem _ ht)))
              (fun hh => hnottodo (hh ▸ ht))]
            exact hk1.fresh t (List.mem_cons_of_mem _ ht)
          · rw [FileSys.logOnDisk_append, FileSys.logOnDisk_singleton, r2,
              FileSys.rotated_congr w.fs (fun t ht =>
                r1 t (hk1.stamps t (List.mem_append_left _ ht))
                  (fun hh => hnotdone (hh ▸ ht)))]
            unfold FileSys.logOnDisk
            rw [hrd]
            simp
      · -- the stream is closed
        obtain ⟨a1, _, a3, a4⟩ := write_closed w env hc
        have hst : w.stepStamps (Step.writer env) = [] :=
          (stepStamps_nil_iff w env hpc).mpr a4
        have hsb : w.stepBytes (Step.writer env) = [] := by
          rw [stepBytes_write w env hpc, hc]; rfl
        have hk1 := hk
        rw [hst, List.nil_append] at hk1
        rw [hst, hsb, List.append_nil, List.append_nil, a1]
        exact ⟨⟨hnm, Or.inr a3, hk1.stamps, hk1.nodup, by rw [a1]; exact hk1.fresh⟩, rfl⟩

/-- A whole schedule of a logger that rotates its base file, no rotation
renaming it onto a file that exists: the bytes written are behind the bytes of
the log on disk, in order, and no byte of it is lost. -/
theorem kept_run {p : String} (sched : List Step) :
    ∀ {w w1 : World} {done : List String}, Kept w p done (w.rotationStamps sched) →
      w.run sched = some w1 →
      Kept w1 p (done ++ w.rotationStamps sched) [] ∧
        w1.fs.logOnDisk p (done ++ w.rotationStamps sched)
          = w.fs.logOnDisk p done ++ w.writtenBy sched := by
  induction sched with
  | nil =>
    intro w w1 done hk hr
    simp only [World.run, Option.some.injEq] at hr
    subst hr
    exact ⟨by simpa [World.rotationStamps] using hk, by simp [World.rotationStamps,
      World.writtenBy]⟩
  | cons s rest ih =>
    intro w w1 done hk hr
    cases hs : w.step s with
    | none => simp [World.run, hs] at hr
    | some w' =>
      rw [run_cons_of_step hs] at hr
      rw [rotationStamps_cons hs] at hk ⊢
      rw [writtenBy_cons hs]
      obtain ⟨k1, d1⟩ := kept_step hk hs
      obtain ⟨k2, d2⟩ := ih k1 hr
      rw [List.append_assoc] at k2 d2
      refine ⟨k2, ?_⟩
      rw [d2, d1, List.append_assoc]

/-- What is written stays on disk: after a run none of whose rotations renames
the base file onto a file that exists, the rotated files, in the order of the
rotations, and the base file hold what was in the base file at the start
followed by the bytes written. -/
theorem disk_kept {w0 w : World} {p : String} {sched : List Step}
    (hu : w0.Unclobbered p sched) (hr : w0.run sched = some w) :
    w.fs.logOnDisk p (w0.rotationStamps sched) = w0.file ++ w0.writtenBy sched := by
  obtain ⟨hopen, hname, ⟨c0, hfs⟩, hnd, hne⟩ := hu
  have hk : Kept w0 p [] (w0.rotationStamps sched) :=
    { name := hname, stream := Or.inl ⟨hopen, c0, hfs⟩,
      stamps := fun t ht => (hne t (by simpa using ht)).1,
      nodup := by simpa using hnd,
      fresh := fun t ht => (hne t ht).2 }
  have h := (kept_run sched hk hr).2
  rw [List.nil_append, FileSys.logOnDisk_nil] at h
  rw [h]
  unfold World.file
  rw [hopen]

/-- Where the bytes are on disk after a schedule followed by a tail without
appends that leaves nothing buffered: in the file the stream is open on when
the run has not rotated; in the rotated files, in the order of the rotations,
and the base file when no rotation has renamed the base file onto a file that
exists. -/
theorem tail_disk {w0 w wf : World} {sched tail : List Step} (h0 : w0.Fresh)
    (hlen : ∀ d, Step.append d ∈ sched → d.length ≤ DefaultBufferSize)
    (hr : w0.run sched = some w) (hna : ∀ d, Step.append d ∉ tail)
    (hrt : w.run tail = some wf) (hp : wf.pending = []) :
    (∀ p, w0.lg._ofs = some p → (∃ c, w0.fs.read p = some c) →
      w0.rotationStamps (sched ++ tail) = [] →
      wf.lg._ofs = some p ∧ wf.file = w0.file ++ appended sched) ∧
    (∀ p, w0.Unclobbered p (sched ++ tail) →
      wf.fs.logOnDisk p (w0.rotationStamps (sched ++ tail))
          = w0.file ++ w0.writtenBy (sched ++ tail) ∧
      (wf.lg._ofs ≠ none →
        wf.fs.logOnDisk p (w0.rotationStamps (sched ++ tail))
          = w0.file ++ appended sched)) := by
  have hlen2 : ∀ d, Step.append d ∈ sched ++ tail → d.length ≤ DefaultBufferSize := by
    intro d hd
    rcases List.mem_append.mp hd with hd | hd
    · exact hlen d hd
    · exact absurd hd (hna d)
  have hrf : w0.run (sched ++ tail) = some wf := by
    rw [run_append_of sched tail hr]; exact hrt
  have happ : appended (sched ++ tail) = appended sched := by
    rw [appended_append, appended_of_no_append hna, List.append_nil]
  constructor
  · intro p hopen hdisk hno
    obtain ⟨a1, a2⟩ := file_norot (Inv_of_Fresh h0) hopen hdisk hrf hno
    refine ⟨a1, ?_⟩
    rw [a2, written_all h0 hlen2 hrf (by rw [a1]; simp) hp, happ]
  · intro p hu
    have hd := disk_kept hu hrf
    refine ⟨hd, fun ho => ?_⟩
    rw [hd, written_all h0 hlen2 hrf ho hp, happ]

/-! ## Ordering and no loss in the hand-off pipeline -/

/-- C2 (amended): ordering and no loss in the hand-off pipeline.  Start from a
freshly constructed logger whose stream is open on `p`, and take any schedule
of `Logger::append` calls (each of 1 to 4096 bytes), `flush` calls, destructor
and background-thread steps.  The schedule runs without a null dereference;
outside the write section the buffered bytes are those of the pending queue, in
order, and of the active buffer.  As long as the stream is open (it is closed
for good when a reopening fails at a rotation), the bytes written to the stream
so far, each to the file that was open at the time, followed by the buffered
bytes (the list being drained, the pending queue, the active buffer) are all
appended byte strings in call order; and after one more whole iteration of the
background thread from the loop head all of them have been written and nothing
is buffered.  While no rotation has taken place the stream is open on `p` and
the file `p` holds its initial content followed by the bytes written.  What is
written stays on disk as long as no rotation renames the base file onto a file
that exists: the rotated files, in the order of the rotations, and the base
file then hold what was in the base file at the start followed by the bytes
written. -/
theorem C2_ordering_no_loss (w0 : World) (p : String) (sched : List Step)
    (h0 : w0.Fresh) (hopen : w0.lg._ofs = some p)
    (hlen : ∀ d, Step.append d ∈ sched → 1 ≤ d.length ∧ d.length ≤ DefaultBufferSize) :
    ∃ w, w0.run sched = some w ∧
      (w.th.pc ≠ Pc.writing →
        w.pending = bytesOf w.lg.buffers_queue_ ++ bytesOfPtr w.lg.current_buffer_) ∧
      (w.lg._ofs ≠ none →
        w0.writtenBy sched ++ w.pending = appended sched ∧
        (w.th.pc = Pc.head → ∀ e1 e2, ∃ w2,
          w.run [Step.writer e1, Step.writer e2] = some w2 ∧
          w0.writtenBy (sched ++ [Step.writer e1, Step.writer e2]) = appended sched ∧
          w2.pending = [] ∧ w2.lg.buffers_queue_ = [])) ∧
      (w0.rotationStamps sched = [] → (∃ c, w0.fs.read p = some c) →
        w.lg._ofs = some p ∧ w.file = w0.file ++ w0.writtenBy sched) ∧
      (w0.Unclobbered p sched →
        w.fs.logOnDisk p (w0.rotationStamps sched) = w0.file ++ w0.writtenBy sched) := by
  obtain ⟨w, hw, hi⟩ := Inv_run (Inv_of_Fresh h0) sched
  have hlen1 : ∀ d, Step.append d ∈ sched → d.length ≤ DefaultBufferSize :=
    fun d hd => (hlen d hd).2
  refine ⟨w, hw, fun hpc => pending_of_not_writing hi hpc, ?_, ?_, ?_⟩
  · intro ho
    refine ⟨written_of_open h0 hlen1 hw ho, ?_⟩
    intro hpc e1 e2
    obtain ⟨d1, d2, _, _⟩ := drain_empty hi hpc e1 e2
    refine ⟨_, run_two w e1 e2, ?_, d1, d2⟩
    exact written_tail h0 hlen1 hw ho (by intro d hd; simp at hd) (run_two w e1 e2)
      (ow_drain hpc ho e1 e2 [] rfl) d1
  · intro hno hd
    exact file_norot (Inv_of_Fresh h0) hopen hd hw hno
  · intro hu
    exact disk_kept hu hw

/-- C2, witness: `a.log` is opened with a threshold of 2 bytes; three bytes are
appended and drained (the cycle rotates), one more byte is appended and
drained.  The stream is open at the end and the four bytes have been written in
call order. -/
theorem C2_ordering_no_loss_witness :
    ∃ w, (((World.boot []).init "a.log" true).set_roll_size 2).run
        [Step.append [1, 2, 3], Step.writer ⟨".20260101-000000", true, true⟩,
          Step.writer ⟨".20260101-000000", true, true⟩, Step.append [4],
          Step.writer ⟨".20260101-000001", true, true⟩,
          Step.writer ⟨".20260101-000001", true, true⟩] = some w ∧
      w.lg._ofs = some "a.log" ∧
      (((World.boot []).init "a.log" true).set_roll_size 2).writtenBy
          [Step.append [1, 2, 3], Step.writer ⟨".20260101-000000", true, true⟩,
            Step.writer ⟨".20260101-000000", true, true⟩, Step.append [4],
            Step.writer ⟨".20260101-000001", true, true⟩,
            Step.writer ⟨".20260101-000001", true, true⟩] ++ w.pending
        = [1, 2, 3, 4] := by
  obtain ⟨w, h1, _, h3, _⟩ :=
    C2_ordering_no_loss (((World.boot []).init "a.log" true).set_roll_size 2) "a.log"
      [Step.append [1, 2, 3], Step.writer ⟨".20260101-000000", true, true⟩,
        Step.writer ⟨".20260101-000000", true, true⟩, Step.append [4],
        Step.writer ⟨".20260101-000001", true, true⟩,
        Step.writer ⟨".20260101-000001", true, true⟩]
      ⟨rfl, rfl, rfl, rfl, rfl, rfl⟩ rfl
      (by
        intro d hd
        simp only [List.mem_cons, Step.append.injEq, reduceCtorEq, false_or, or_false,
          List.mem_singleton, List.not_mem_nil] at hd
        rcases hd with hd | hd <;> subst hd <;> decide)
  have hofs : ((((World.boot []).init "a.log" true).set_roll_size 2).run
        [Step.append [1, 2, 3], Step.writer ⟨".20260101-000000", true, true⟩,
          Step.writer ⟨".20260101-000000", true, true⟩, Step.append [4],
          Step.writer ⟨".20260101-000001", true, true⟩,
          Step.writer ⟨".20260101-000001", true, true⟩]).map (fun x => x.lg._ofs)
      = some (some "a.log") := by decide
  rw [h1] at hofs
  simp only [Option.map_some', Option.some.injEq] at hofs
  exact ⟨w, h1, hofs, (h3 (by rw [hofs]; simp)).1⟩

/-- C2, counterexample.  A new logger with `a.log` open and a threshold of 2
bytes; three bytes are appended and drained, which rotates; one more byte is
appended and drained.  First run: the reopening of the rotation fails.  The
stream is closed, the fourth byte is dropped: the bytes written, `[1, 2, 3]`,
with nothing left in the queue or the active buffer, are not the four appended
bytes.  Second run: every rename and reopening succeeds.  All four bytes are
written, but after the final drain cycle no file holds the concatenation
`[1, 2, 3, 4]`: the first three bytes are in the rotated file, the fourth in
the base file.  Third run: three more bytes are appended instead of one and
drained within the same second as the first three.  All six bytes are written,
but the second rotation replaces the rotated file of the first: after the final
drain cycle the bytes `[1, 2, 3]` are in no file on disk. -/
theorem C2_counterexample :
    (((World.boot []).init "a.log" true).set_roll_size 2).Fresh ∧
    (((World.boot []).init "a.log" true).set_roll_size 2).lg._ofs = some "a.log" ∧
    ((((World.boot []).init "a.log" true).set_roll_size 2).run
        [Step.append [1, 2, 3], Step.writer ⟨".20260101-000000", true, false⟩,
          Step.writer ⟨".20260101-000000", true, false⟩, Step.append [4],
          Step.writer ⟨".20260101-000001", true, true⟩,
          Step.writer ⟨".20260101-000001", true, true⟩]).map
      (fun w => (w.lg._ofs, bytesOf w.lg.buffers_queue_, bytesOfPtr w.lg.current_buffer_,
        w.pending, w.fs))
      = some (none, [], [], [], [("a.log.20260101-000000", [1, 2, 3])]) ∧
    (((World.boot []).init "a.log" true).set_roll_size 2).writtenBy
        [Step.append [1, 2, 3], Step.writer ⟨".20260101-000000", true, false⟩,
          Step.writer ⟨".20260101-000000", true, false⟩, Step.append [4],
          Step.writer ⟨".20260101-000001", true, true⟩,
          Step.writer ⟨".20260101-000001", true, true⟩] = [1, 2, 3] ∧
    appended
        [Step.append [1, 2, 3], Step.writer ⟨".20260101-000000", true, false⟩,
          Step.writer ⟨".20260101-000000", true, false⟩, Step.append [4],
          Step.writer ⟨".20260101-000001", true, true⟩,
          Step.writer ⟨".20260101-000001", true, true⟩] = [1, 2, 3, 4] ∧
    ((((World.boot []).init "a.log" true).set_roll_size 2).run
        [Step.append [1, 2, 3], Step.writer ⟨".20260101-000000", true, true⟩,
          Step.writer ⟨".20260101-000000", true, true⟩, Step.append [4],
          Step.writer ⟨".20260101-000001", true, true⟩,
          Step.writer ⟨".20260101-000001", true, true⟩]).map
      (fun w => (w.lg._ofs, w.file, w.pending, w.fs))
      = some (some "a.log", [4], [],
          [("a.log.20260101-000000", [1, 2, 3]), ("a.log", [4])]) ∧
    (((World.boot []).init "a.log" true).set_roll_size 2).writtenBy
        [Step.append [1, 2, 3], Step.writer ⟨".20260101-000000", true, true⟩,
          Step.writer ⟨".20260101-000000", true, true⟩, Step.append [4],
          Step.writer ⟨".20260101-000001", true, true⟩,
          Step.writer ⟨".20260101-000001", true, true⟩] = [1, 2, 3, 4] ∧
    (∀ e ∈ ([("a.log.20260101-000000", [1, 2, 3]), ("a.log", [4])] : FileSys),
      e.2 ≠ [1, 2, 3, 4]) ∧
    ((((World.boot []).init "a.log" true).set_roll_size 2).run
        [Step.append [1, 2, 3], Step.writer ⟨".20260101-000000", true, true⟩,
          Step.writer ⟨".20260101-000000", true, true⟩, Step.append [4, 5, 6],
          Step.writer ⟨".20260101-000000", true, true⟩,
          Step.writer ⟨".20260101-000000", true, true⟩]).map
      (fun w => (w.lg._ofs, w.pending, w.fs))
      = some (some "a.log", [], [("a.log.20260101-000000", [4, 5, 6]), ("a.log", [])]) ∧
    (((World.boot []).init "a.log" true).set_roll_size 2).writtenBy
        [Step.append [1, 2, 3], Step.writer ⟨".20260101-000000", true, true⟩,
          Step.writer ⟨".20260101-000000", true, true⟩, Step.append [4, 5, 6],
          Step.writer ⟨".20260101-000000", true, true⟩,
          Step.writer ⟨".20260101-000000", true, true⟩] = [1, 2, 3, 4, 5, 6] := by
  refine ⟨⟨rfl, rfl, rfl, rfl, rfl, rfl⟩, rfl, by rfl, by decide, by decide, by decide,
    by decide, by decide, by rfl, by decide⟩

/-! ## Truncation of an over-long message -/

/-- C5 (amended): deterministic truncation of an over-long message.  Take a
`Logger::Log` call whose formatted message has length `n` greater than one
buffer's capacity (4096 bytes; `n` and the length of the header text being
values of `int`).  The call hands three byte strings to `Logger::append`: the
header (cut to at most 255 bytes), the first 4095 (capacity minus 1) bytes of
the formatted message, and the newline; nothing of the remainder of the message
is handed over.  In every state reachable from a freshly constructed logger,
whatever other producers and the background thread did before and between the
three appends of the call, the append of the message bytes stores exactly these
4095 bytes, in one piece, behind the bytes buffered so far.  Run without
interruption, the whole call stores the header, the 4095 bytes and the
newline. -/
theorem C5_truncation (w0 w : World) (sched : List Step) (level : LogLevel)
    (ts file : List Byte) (line : Int) (msg : List Byte)
    (h0 : w0.Fresh) (hrun : w0.run sched = some w)
    (hlong : msg.length > DefaultBufferSize) (hmsg : msg.length < 2 ^ 31)
    (hhdr : (headerText ts level file line).length < 2 ^ 31) :
    Log_parts level ts file line (some msg)
      = some ((headerText ts level file line).take 255,
          msg.take (DefaultBufferSize - 1), [10]) ∧
    (msg.take (DefaultBufferSize - 1)).length = DefaultBufferSize - 1 ∧
    (∃ lg, w.lg.append (msg.take (DefaultBufferSize - 1)) = some lg ∧
      lg.buffered = w.lg.buffered ++ msg.take (DefaultBufferSize - 1)) ∧
    (∃ lg, w.lg.Log level ts file line (some msg) = some lg ∧
      lg.buffered = w.lg.buffered ++ (headerText ts level file line).take 255
        ++ msg.take (DefaultBufferSize - 1) ++ [10]) := by
  obtain ⟨w', hw', hi⟩ := Inv_run (Inv_of_Fresh h0) sched
  rw [hrun] at hw'
  cases hw'
  have hl : (msg.take (DefaultBufferSize - 1)).length = DefaultBufferSize - 1 := by
    rw [List.length_take]
    omega
  refine ⟨Log_parts_eq level ts file line msg hmsg hhdr, hl, ?_,
    Log_buffered hi level ts file line msg hmsg hhdr⟩
  obtain ⟨lg, h1, h2, _, _⟩ :=
    append_buffered hi (show (msg.take (DefaultBufferSize - 1)).length ≤ DefaultBufferSize by
      rw [hl]; omega)
  exact ⟨lg, h1, h2⟩

/-- C5, witness: a message of 5000 bytes `A` is logged while another producer
has already put its own header behind the header of the call: the append of the
message bytes stores the first 4095 bytes behind both headers. -/
theorem C5_truncation_witness :
    ∃ lg, (((World.boot []).run
          [Step.append (str "[t] [INFO] a.cpp:1 "), Step.append (str "[t] [INFO] b.cpp:2 ")]).getD
          (World.boot [])).lg.append ((List.replicate 5000 65).take (DefaultBufferSize - 1))
        = some lg ∧
      lg.buffered
        = (((World.boot []).run
            [Step.append (str "[t] [INFO] a.cpp:1 "),
              Step.append (str "[t] [INFO] b.cpp:2 ")]).getD (World.boot [])).lg.buffered
          ++ (List.replicate 5000 65).take (DefaultBufferSize - 1) :=
  (C5_truncation (World.boot [])
    (((World.boot []).run
      [Step.append (str "[t] [INFO] a.cpp:1 "), Step.append (str "[t] [INFO] b.cpp:2 ")]).getD
      (World.boot []))
    [Step.append (str "[t] [INFO] a.cpp:1 "), Step.append (str "[t] [INFO] b.cpp:2 ")]
    LogLevel.INFO (str "t") (str "a.cpp") 1
    (List.replicate 5000 65) ⟨rfl, rfl, rfl, rfl, rfl, rfl⟩ (by rfl)
    (by rw [List.length_replicate]; decide) (by rw [List.length_replicate]; decide)
    (by decide)).2.2.1

/-- C5, counterexample: a message of 5000 bytes `A` logged on a new logger.  The
bytes stored behind the header are the first 4095 bytes of the message and the
newline, 4096 bytes in all; the claim asks for the first 4096 bytes of the
message, which with the newline would be 4097 bytes. -/
theorem C5_counterexample :
    ∃ lg, (World.boot []).lg.Log LogLevel.INFO (str "t") (str "a.cpp") 1
        (some (List.replicate 5000 65)) = some lg ∧
      lg.buffered = (headerText (str "t") LogLevel.INFO (str "a.cpp") 1).take 255
        ++ (List.replicate 5000 65).take 4095 ++ [10] ∧
      lg.buffered ≠ (headerText (str "t") LogLevel.INFO (str "a.cpp") 1).take 255
        ++ (List.replicate 5000 65).take 4096 ++ [10] := by
  obtain ⟨lg, h1, h2⟩ :=
    Log_buffered (w := World.boot []) (Inv_of_Fresh ⟨rfl, rfl, rfl, rfl, rfl, rfl⟩)
      LogLevel.INFO (str "t") (str "a.cpp") 1 (List.replicate 5000 65)
      (by rw [List.length_replicate]; decide) (by decide)
  have hb0 : (World.boot []).lg.buffered = [] := by
    have := pending_of_Fresh (w := World.boot []) ⟨rfl, rfl, rfl, rfl, rfl, rfl⟩
    simpa [World.pending, World.boot, ThreadFunc.start, bytesOf_nil] using this
  rw [hb0, List.nil_append] at h2
  refine ⟨lg, h1, h2, ?_⟩
  rw [h2]
  intro heq
  have hl := congrArg List.length heq
  simp only [List.length_append, List.length_take, List.length_replicate,
    List.length_singleton, DefaultBufferSize] at hl
  omega

/-! ## Rotation above the threshold -/

/-- C7 (amended): rotation above the threshold.  Take a run that starts from a
freshly constructed logger with a non-empty file name and a threshold
`roll_size_ >= 0`, in which `T` bytes are written with `T > roll_size_` (`T`
being a value of `off_t`).  Then at least one drain cycle performs a rotation,
whatever the renames and reopenings do, and every write section of the run
rotates exactly when its write loop leaves the counter above the threshold:
there is one rotation for every drain cycle that ends with the counter above
the threshold, so possibly more than one.  When the stream is open at the start
on the base file `p` of that name, new and the only file on disk, every rename
and reopening succeeds and no two rotations carry the same time stamp, the
result is the base file plus exactly one rotated file `p ++ stamp` per
rotation, and the byte counts of all these files sum to `T`. -/
theorem C7_rotation_above_threshold (w0 : World) (sched : List Step)
    (h0 : w0.Fresh) (hname : w0.lg.log_file_name_ ≠ "")
    (hroll0 : 0 ≤ w0.lg.roll_size_)
    (hT : ((w0.writtenBy sched).length : Int) > w0.lg.roll_size_)
    (hT63 : ((w0.writtenBy sched).length : Int) < 2 ^ 63) :
    ∃ w, w0.run sched = some w ∧ 1 ≤ (w0.rotationStamps sched).length ∧
      (∀ s1 env s2 w1, sched = s1 ++ Step.writer env :: s2 → w0.run s1 = some w1 →
        w1.th.pc = Pc.writing →
        (w1.stepStamps (Step.writer env) = [env.ts] ↔
          (World.writeAll w1.lg._ofs w1.th.buffers_to_write w1.fs w1.lg.written_bytes_).2
            > w1.lg.roll_size_) ∧
        (w1.stepStamps (Step.writer env) = [] ↔
          (World.writeAll w1.lg._ofs w1.th.buffers_to_write w1.fs w1.lg.written_bytes_).2
            ≤ w1.lg.roll_size_)) ∧
      (∀ p, w0.lg._ofs = some p → w0.lg.log_file_name_ = p → w0.fs = [(p, [])] →
        w0.lg.roll_size_ < 2 ^ 63 →
        (∀ e, Step.writer e ∈ sched →
          e.renameOk = true ∧ e.openOk = true ∧ e.ts ≠ "") →
        (w0.rotationStamps sched).Nodup →
        w.fs.map Prod.fst = (w0.rotationStamps sched).map (fun t => p ++ t) ++ [p] ∧
        w.fs.length = 1 + (w0.rotationStamps sched).length ∧
        w.fs.diskBytes = (w0.writtenBy sched).length) := by
  obtain ⟨w, hw, _⟩ := Inv_run (Inv_of_Fresh h0) sched
  have hc0 : w0.lg.written_bytes_ = 0 := h0.2.2.2.2.1
  refine ⟨w, hw, rotates_once h0 hname hroll0 hT hT63 hw, ?_, ?_⟩
  · intro s1 env s2 w1 _ hr1 hpc
    obtain ⟨a1, _, a3⟩ := counter_run s1 hr1 (by rw [hc0]; exact hroll0) hroll0 hname
    exact rotation_iff env hpc (by rw [a3]; exact hname) a1
  · intro p hopen hnm hfs hroll henv hnd
    exact disk_rot h0 hopen hnm (by rw [← hnm]; exact hname) hfs hroll0 hroll henv hnd
      hT63 hw

/-- C7, witness.  First run, threshold 3: two bytes are drained (no rotation),
then three more (counter 5 > 3, one rotation), every rename and reopening
succeeding: the base file plus one rotated file, 5 bytes in all.  Second run,
threshold 3: four bytes are drained in one cycle whose rename fails; the cycle
still performs its rotation. -/
theorem C7_rotation_above_threshold_witness :
    (∃ w, (((World.boot []).init "a.log" true).set_roll_size 3).run
        [Step.append [1, 2], Step.writer ⟨".20260101-000000", true, true⟩,
          Step.writer ⟨".20260101-000000", true, true⟩, Step.append [3, 4, 5],
          Step.writer ⟨".20260101-000001", true, true⟩,
          Step.writer ⟨".20260101-000001", true, true⟩] = some w ∧
      1 ≤ ((((World.boot []).init "a.log" true).set_roll_size 3).rotationStamps
        [Step.append [1, 2], Step.writer ⟨".20260101-000000", true, true⟩,
          Step.writer ⟨".20260101-000000", true, true⟩, Step.append [3, 4, 5],
          Step.writer ⟨".20260101-000001", true, true⟩,
          Step.writer ⟨".20260101-000001", true, true⟩]).length ∧
      w.fs.map Prod.fst = ["a.log.20260101-000001", "a.log"] ∧ w.fs.diskBytes = 5) ∧
    (∃ w, (((World.boot []).init "a.log" true).set_roll_size 3).run
        [Step.append [1, 2, 3, 4], Step.writer ⟨".20260101-000000", false, true⟩,
          Step.writer ⟨".20260101-000000", false, true⟩] = some w ∧
      1 ≤ ((((World.boot []).init "a.log" true).set_roll_size 3).rotationStamps
        [Step.append [1, 2, 3, 4], Step.writer ⟨".20260101-000000", false, true⟩,
          Step.writer ⟨".20260101-000000", false, true⟩]).length) := by
  constructor
  · obtain ⟨w, h1, h2, _, h4⟩ :=
      C7_rotation_above_threshold (((World.boot []).init "a.log" true).set_roll_size 3)
        [Step.append [1, 2], Step.writer ⟨".20260101-000000", true, true⟩,
          Step.writer ⟨".20260101-000000", true, true⟩, Step.append [3, 4, 5],
          Step.writer ⟨".20260101-000001", true, true⟩,
          Step.writer ⟨".20260101-000001", true, true⟩]
        ⟨rfl, rfl, rfl, rfl, rfl, rfl⟩ (by decide) (by decide) (by decide) (by decide)
    obtain ⟨h5, _, h7⟩ := h4 "a.log" rfl rfl rfl (by decide)
      (by
        intro e he
        simp only [List.mem_cons, Step.writer.injEq, reduceCtorEq, false_or,
          List.mem_singleton, List.not_mem_nil, or_false] at he
        rcases he with he | he | he | he <;> subst he <;> decide)
      (by decide)
    exact ⟨w, h1, h2, h5, h7⟩
  · obtain ⟨w, h1, h2, _⟩ :=
      C7_rotation_above_threshold (((World.boot []).init "a.log" true).set_roll_size 3)
        [Step.append [1, 2, 3, 4], Step.writer ⟨".20260101-000000", false, true⟩,
          Step.writer ⟨".20260101-000000", false, true⟩]
        ⟨rfl, rfl, rfl, rfl, rfl, rfl⟩ (by decide) (by decide) (by decide) (by decide)
    exact ⟨w, h1, h2⟩

/-- C7, counterexample: threshold 1, time stamps one second apart, every rename
and reopening succeeds.  Three drain cycles write 2 bytes each, `T = 6 > 1`; each
cycle ends with the counter at 2 > 1 and rotates.  The result is the (empty)
base file plus three rotated files, not exactly one. -/
theorem C7_counterexample :
    ((((World.boot []).init "a.log" true).set_roll_size 1).run
        [Step.append [1, 2], Step.writer ⟨".20260101-000000", true, true⟩,
          Step.writer ⟨".20260101-000000", true, true⟩, Step.append [3, 4],
          Step.writer ⟨".20260101-000001", true, true⟩,
          Step.writer ⟨".20260101-000001", true, true⟩, Step.append [5, 6],
          Step.writer ⟨".20260101-000002", true, true⟩,
          Step.writer ⟨".20260101-000002", true, true⟩]).map (fun w => w.fs)
      = some [("a.log.20260101-000000", [1, 2]), ("a.log.20260101-000001", [3, 4]),
          ("a.log.20260101-000002", [5, 6]), ("a.log", [])] ∧
    (((World.boot []).init "a.log" true).set_roll_size 1).writtenBy
        [Step.append [1, 2], Step.writer ⟨".20260101-000000", true, true⟩,
          Step.writer ⟨".20260101-000000", true, true⟩, Step.append [3, 4],
          Step.writer ⟨".20260101-000001", true, true⟩,
          Step.writer ⟨".20260101-000001", true, true⟩, Step.append [5, 6],
          Step.writer ⟨".20260101-000002", true, true⟩,
          Step.writer ⟨".20260101-000002", true, true⟩] = [1, 2, 3, 4, 5, 6] := by
  refine ⟨by decide, by decide⟩

/-! ## `flush` then drain -/

/-- C9 (amended): `flush()` then one drain cycle hands everything to the file.
Take a state reached from a freshly constructed logger.  After `flush()` the
active buffer is empty, and if it was non-empty it is the last element of the
pending queue, unchanged, the rest of the queue and the spare being the same.
After `flush()` followed by one whole iteration of the background thread
(started at the loop head, or after the write section the thread was in), the
pending queue is empty and nothing is buffered; and if the stream was open in
that state (and is still open after the write section the thread was in, which
may rotate), every byte appended before the flush, by appends of at most 4096
bytes, has been written to the stream, in append order, each byte to the file
that was open at the time.  If no rotation has taken place, the file the stream
is open on holds its initial content followed by all these bytes.  What is
written stays on disk as long as no rotation renames the base file onto a file
that exists: the rotated files, in the order of the rotations, and the base
file then hold what was in the base file at the start followed by the bytes
written, so, with the stream still open, by all these bytes. -/
theorem C9_flush_then_drain (w0 w : World) (sched : List Step)
    (h0 : w0.Fresh) (hrun : w0.run sched = some w) :
    (∃ c, w.lg.current_buffer_ = some c ∧
      (c.length > 0 → w.lg.flush.buffers_queue_ = w.lg.buffers_queue_ ++ [c]) ∧
      (c.length = 0 → w.lg.flush.buffers_queue_ = w.lg.buffers_queue_) ∧
      (∃ c1, w.lg.flush.current_buffer_ = some c1 ∧ c1.length = 0) ∧
      w.lg.flush.next_buffer_ = w.lg.next_buffer_) ∧
    ((∀ d, Step.append d ∈ sched → d.length ≤ DefaultBufferSize) →
      (w.th.pc = Pc.head → ∀ e1 e2 full,
        full = sched ++ [Step.flush, Step.writer e1, Step.writer e2] → ∃ w2,
        w.run [Step.flush, Step.writer e1, Step.writer e2] = some w2 ∧
        w2.lg.buffers_queue_ = [] ∧ w2.pending = [] ∧
        (w.lg._ofs ≠ none → w0.writtenBy full = appended sched) ∧
        (∀ p, w0.lg._ofs = some p → (∃ c, w0.fs.read p = some c) →
          w0.rotationStamps full = [] →
          w2.lg._ofs = some p ∧ w2.file = w0.file ++ appended sched) ∧
        (∀ p, w0.Unclobbered p full →
          w2.fs.logOnDisk p (w0.rotationStamps full) = w0.file ++ w0.writtenBy full ∧
          (w2.lg._ofs ≠ none →
            w2.fs.logOnDisk p (w0.rotationStamps full) = w0.file ++ appended sched))) ∧
      (w.th.pc = Pc.writing → ∀ e0 e1 e2 full,
        full = sched ++ [Step.flush, Step.writer e0, Step.writer e1, Step.writer e2] →
        ∃ w2,
        w.run [Step.flush, Step.writer e0, Step.writer e1, Step.writer e2] = some w2 ∧
        w2.lg.buffers_queue_ = [] ∧ w2.pending = [] ∧
        (w.lg._ofs ≠ none →
          (World.threadFunc_write { w with lg := w.lg.flush } e0).lg._ofs ≠ none →
          w0.writtenBy full = appended sched) ∧
        (∀ p, w0.lg._ofs = some p → (∃ c, w0.fs.read p = some c) →
          w0.rotationStamps full = [] →
          w2.lg._ofs = some p ∧ w2.file = w0.file ++ appended sched) ∧
        (∀ p, w0.Unclobbered p full →
          w2.fs.logOnDisk p (w0.rotationStamps full) = w0.file ++ w0.writtenBy full ∧
          (w2.lg._ofs ≠ none →
            w2.fs.logOnDisk p (w0.rotationStamps full) = w0.file ++ appended sched)))) := by
  obtain ⟨w', hw', hi⟩ := Inv_run (Inv_of_Fresh h0) sched
  rw [hrun] at hw'
  cases hw'
  refine ⟨flush_effect hi, ?_⟩
  intro hlen
  have hif := Inv_flush hi
  have hsf : w.step Step.flush = some { w with lg := w.lg.flush } := rfl
  have hof : w.lg._ofs ≠ none → ({ w with lg := w.lg.flush } : World).lg._ofs ≠ none := by
    intro ho
    show w.lg.flush._ofs ≠ none
    rw [(flush_config w.lg).1]
    exact ho
  constructor
  · intro hpc e1 e2 full hfull
    subst hfull
    have hpcf : ({ w with lg := w.lg.flush } : World).th.pc = Pc.head := hpc
    obtain ⟨d1, d2, _, _⟩ := drain_empty hif hpcf e1 e2
    have hrt : w.run [Step.flush, Step.writer e1, Step.writer e2]
        = some ((World.threadFunc_step { w with lg := w.lg.flush } e1).threadFunc_step e2) :=
      rfl
    have hna : ∀ d, Step.append d ∉ [Step.flush, Step.writer e1, Step.writer e2] := by
      intro d hd; simp at hd
    obtain ⟨t1, t2⟩ := tail_disk h0 hlen hrun hna hrt d1
    refine ⟨_, hrt, d2, d1, ?_, t1, t2⟩
    intro ho
    refine written_tail h0 hlen hrun ho hna hrt ?_ d1
    rw [openWrites_cons hsf]
    exact ⟨fun env h => (by cases h), ow_drain hpcf (hof ho) e1 e2 [] rfl⟩
  · intro hpc e0 e1 e2 full hfull
    subst hfull
    have hpcf : ({ w with lg := w.lg.flush } : World).th.pc = Pc.writing := hpc
    have hi1 := Inv_threadFunc_step hif e0
    have hpc1 : (World.threadFunc_step { w with lg := w.lg.flush } e0).th.pc = Pc.head :=
      step_writing_pc hpcf e0
    obtain ⟨d1, d2, _, _⟩ := drain_empty hi1 hpc1 e1 e2
    have hrt : w.run [Step.flush, Step.writer e0, Step.writer e1, Step.writer e2]
        = some (((World.threadFunc_step { w with lg := w.lg.flush } e0).threadFunc_step
            e1).threadFunc_step e2) := rfl
    have hna : ∀ d,
        Step.append d ∉ [Step.flush, Step.writer e0, Step.writer e1, Step.writer e2] := by
      intro d hd; simp at hd
    obtain ⟨t1, t2⟩ := tail_disk h0 hlen hrun hna hrt d1
    refine ⟨_, hrt, d2, d1, ?_, t1, t2⟩
    intro ho hok
    refine written_tail h0 hlen hrun ho hna hrt ?_ d1
    rw [openWrites_cons hsf]
    refine ⟨fun env h => (by cases h), ?_⟩
    apply ow_writer e0 _ (Or.inr (hof ho))
    apply ow_drain hpc1 ?_ e1 e2 [] rfl
    rw [step_writing hpcf]
    exact hok

/-- C9, witness: `a.log` is opened with a threshold of 4 bytes; three bytes are
appended and drained, two more are appended.  Flush and one iteration of the
thread write the two bytes (and rotate): all five bytes have been written, the
pending queue is empty. -/
theorem C9_flush_then_drain_witness :
    ∃ w2, ((((World.boot []).init "a.log" true).set_roll_size 4).run
          [Step.append [1, 2, 3], Step.writer ⟨".20260101-000000", true, true⟩,
            Step.writer ⟨".20260101-000000", true, true⟩, Step.append [4, 5]]).bind
        (fun w => w.run [Step.flush, Step.writer ⟨".20260101-000001", true, true⟩,
          Step.writer ⟨".20260101-000001", true, true⟩]) = some w2 ∧
      w2.lg.buffers_queue_ = [] ∧
      (((World.boot []).init "a.log" true).set_roll_size 4).writtenBy
        ([Step.append [1, 2, 3], Step.writer ⟨".20260101-000000", true, true⟩,
            Step.writer ⟨".20260101-000000", true, true⟩, Step.append [4, 5]]
          ++ [Step.flush, Step.writer ⟨".20260101-000001", true, true⟩,
            Step.writer ⟨".20260101-000001", true, true⟩]) = [1, 2, 3, 4, 5] := by
  have h :=
    (C9_flush_then_drain (((World.boot []).init "a.log" true).set_roll_size 4)
      (((((World.boot []).init "a.log" true).set_roll_size 4).run
          [Step.append [1, 2, 3], Step.writer ⟨".20260101-000000", true, true⟩,
            Step.writer ⟨".20260101-000000", true, true⟩, Step.append [4, 5]]).getD
        (World.boot []))
      [Step.append [1, 2, 3], Step.writer ⟨".20260101-000000", true, true⟩,
        Step.writer ⟨".20260101-000000", true, true⟩, Step.append [4, 5]]
      ⟨rfl, rfl, rfl, rfl, rfl, rfl⟩ (by rfl)).2
      (by
        intro d hd
        simp only [List.mem_cons, Step.append.injEq, reduceCtorEq, false_or, or_false,
          List.mem_singleton, List.not_mem_nil] at hd
        rcases hd with hd | hd <;> subst hd <;> decide)
  obtain ⟨w2, h1, h2, _, h4, _⟩ :=
    h.1 (by rfl) ⟨".20260101-000001", true, true⟩ ⟨".20260101-000001", true, true⟩ _ rfl
  exact ⟨w2, h1, h2, h4 (by decide)⟩

/-- C9, counterexample.  A new logger with `a.log` open.  First run, threshold
4: three bytes are appended and drained, two more are appended, a reachable
state with the stream open; `flush()` and one whole iteration of the thread
write the two bytes, the counter is 5 > 4, and the file is renamed away and
reopened empty: none of the five bytes is in the file the stream is open on.
Second run, threshold 1: two bytes are appended and drained, which rotates; two
more are appended, flushed and drained within the same second, and the second
rotation replaces the rotated file of the first: the bytes `[1, 2]`, appended
before the flush and written, are in no file on disk.  Third run, threshold 1:
the thread has drained two bytes into its list and is about to write them when
two more bytes are appended and flushed; the write section rotates and the
reopening fails, so the next drain cycle drops the two flushed bytes: they are
never written. -/
theorem C9_counterexample :
    ((((World.boot []).init "a.log" true).set_roll_size 4).run
        [Step.append [1, 2, 3], Step.writer ⟨".20260101-000000", true, true⟩,
          Step.writer ⟨".20260101-000000", true, true⟩, Step.append [4, 5]]).map
      (fun w => (w.lg._ofs, w.file, w.th.pc)) = some (some "a.log", [1, 2, 3], Pc.head) ∧
    ((((World.boot []).init "a.log" true).set_roll_size 4).run
        [Step.append [1, 2, 3], Step.writer ⟨".20260101-000000", true, true⟩,
          Step.writer ⟨".20260101-000000", true, true⟩, Step.append [4, 5],
          Step.flush, Step.writer ⟨".20260101-000001", true, true⟩,
          Step.writer ⟨".20260101-000001", true, true⟩]).map
      (fun w => (w.lg._ofs, w.file, w.lg.buffers_queue_.length, w.fs))
      = some (some "a.log", [], 0,
          [("a.log.20260101-000001", [1, 2, 3, 4, 5]), ("a.log", [])]) ∧
    ((((World.boot []).init "a.log" true).set_roll_size 1).run
        [Step.append [1, 2], Step.writer ⟨".20260101-000000", true, true⟩,
          Step.writer ⟨".20260101-000000", true, true⟩, Step.append [3, 4]]).map
      (fun w => (w.lg._ofs, w.th.pc, w.fs))
      = some (some "a.log", Pc.head, [("a.log.20260101-000000", [1, 2]), ("a.log", [])]) ∧
    ((((World.boot []).init "a.log" true).set_roll_size 1).run
        [Step.append [1, 2], Step.writer ⟨".20260101-000000", true, true⟩,
          Step.writer ⟨".20260101-000000", true, true⟩, Step.append [3, 4],
          Step.flush, Step.writer ⟨".20260101-000000", true, true⟩,
          Step.writer ⟨".20260101-000000", true, true⟩]).map
      (fun w => (w.lg._ofs, w.pending, w.fs))
      = some (some "a.log", [], [("a.log.20260101-000000", [3, 4]), ("a.log", [])]) ∧
    (((World.boot []).init "a.log" true).set_roll_size 1).writtenBy
        [Step.append [1, 2], Step.writer ⟨".20260101-000000", true, true⟩,
          Step.writer ⟨".20260101-000000", true, true⟩, Step.append [3, 4],
          Step.flush, Step.writer ⟨".20260101-000000", true, true⟩,
          Step.writer ⟨".20260101-000000", true, true⟩] = [1, 2, 3, 4] ∧
    ((((World.boot []).init "a.log" true).set_roll_size 1).run
        [Step.append [1, 2], Step.writer ⟨".20260101-000000", true, false⟩,
          Step.append [3, 4]]).map
      (fun w => (w.lg._ofs, w.th.pc)) = some (some "a.log", Pc.writing) ∧
    ((((World.boot []).init "a.log" true).set_roll_size 1).run
        [Step.append [1, 2], Step.writer ⟨".20260101-000000", true, false⟩,
          Step.append [3, 4], Step.flush, Step.writer ⟨".20260101-000000", true, false⟩,
          Step.writer ⟨".20260101-000001", true, true⟩,
          Step.writer ⟨".20260101-000001", true, true⟩]).map
      (fun w => (w.lg._ofs, w.pending, w.fs))
      = some (none, [], [("a.log.20260101-000000", [1, 2])]) ∧
    (((World.boot []).init "a.log" true).set_roll_size 1).writtenBy
        [Step.append [1, 2], Step.writer ⟨".20260101-000000", true, false⟩,
          Step.append [3, 4], Step.flush, Step.writer ⟨".20260101-000000", true, false⟩,
          Step.writer ⟨".20260101-000001", true, true⟩,
          Step.writer ⟨".20260101-000001", true, true⟩] = [1, 2] := by
  refine ⟨by decide, by decide, by rfl, by rfl, by decide, by decide, by rfl, by decide⟩

/-! ## Shutdown -/

/-- C10 (amended): shutdown drains and terminates.  From every state reached
from a freshly constructed logger in which the background thread is still in
its loop, once the destructor has run its critical section (`running_` cleared,
a non-empty active buffer pushed) and no further append or flush occurs, the
thread has left the loop after at most four of its steps (the write section it
may be in, one whole iteration, and the critical section of the next iteration
with the `break`; three steps from the loop head), with the pending queue
empty and nothing buffered.  If the stream was open when shutdown began (and
is still open after the write section the thread was in, which may rotate),
every byte appended before shutdown began, by appends of at most 4096 bytes,
has been written to the stream at exit, in append order, each byte to the file
that was open at the time.  If no rotation has taken place, the file the stream
is open on holds its initial content followed by all these bytes.  What is
written stays on disk as long as no rotation renames the base file onto a file
that exists: the rotated files, in the order of the rotations, and the base
file then hold what was in the base file at the start followed by the bytes
written, so, with the stream still open, by all these bytes. -/
theorem C10_shutdown_drains (w0 w : World) (sched full : List Step) (e1 e2 e3 e4 : Env)
    (h0 : w0.Fresh) (hrun : w0.run sched = some w) (hloop : w.th.pc ≠ Pc.exited)
    (hfull : full = sched ++ [Step.destroy, Step.writer e1, Step.writer e2, Step.writer e3,
      Step.writer e4]) :
    ∃ w4, w.run [Step.destroy, Step.writer e1, Step.writer e2, Step.writer e3,
        Step.writer e4] = some w4 ∧
      w4.th.pc = Pc.exited ∧ w4.lg.buffers_queue_ = [] ∧ w4.pending = [] ∧
      (w.th.pc = Pc.head → ∃ w3,
        w.run [Step.destroy, Step.writer e1, Step.writer e2, Step.writer e3] = some w3 ∧
        w3.th.pc = Pc.exited) ∧
      ((∀ d, Step.append d ∈ sched → d.length ≤ DefaultBufferSize) →
        (w.lg._ofs ≠ none →
          (w.th.pc = Pc.writing →
            (World.threadFunc_write { w with lg := w.lg.destroy } e1).lg._ofs ≠ none) →
          w0.writtenBy full = appended sched) ∧
        (∀ p, w0.lg._ofs = some p → (∃ c, w0.fs.read p = some c) →
          w0.rotationStamps full = [] →
          w4.lg._ofs = some p ∧ w4.file = w0.file ++ appended sched) ∧
        (∀ p, w0.Unclobbered p full →
          w4.fs.logOnDisk p (w0.rotationStamps full) = w0.file ++ w0.writtenBy full ∧
          (w4.lg._ofs ≠ none →
            w4.fs.logOnDisk p (w0.rotationStamps full) = w0.file ++ appended sched))) := by
  subst hfull
  obtain ⟨w', hw', hi⟩ := Inv_run (Inv_of_Fresh h0) sched
  rw [hrun] at hw'
  cases hw'
  have hid := Inv_destroy hi
  have hrd : ({ w with lg := w.lg.destroy } : World).lg.running_ = false :=
    (destroy_buffered hi).2.2
  obtain ⟨a1, a2, a3⟩ :=
    settle4 (w := { w with lg := w.lg.destroy }) hid hrd hloop e1 e2 e3 e4
  have hrt : w.run [Step.destroy, Step.writer e1, Step.writer e2, Step.writer e3,
      Step.writer e4]
      = some ((((World.threadFunc_step { w with lg := w.lg.destroy } e1).threadFunc_step
          e2).threadFunc_step e3).threadFunc_step e4) := rfl
  refine ⟨_, hrt, a1, a3, a2, ?_, ?_⟩
  · intro hpc
    exact ⟨_, rfl, (settle (w := { w with lg := w.lg.destroy }) hid hpc hrd e1 e2 e3).1⟩
  · intro hlen
    have hna : ∀ d, Step.append d ∉ [Step.destroy, Step.writer e1, Step.writer e2,
        Step.writer e3, Step.writer e4] := by
      intro d hd; simp at hd
    obtain ⟨t1, t2⟩ := tail_disk h0 hlen hrun hna hrt a2
    refine ⟨?_, t1, t2⟩
    intro ho hok
    refine written_tail h0 hlen hrun ho hna hrt ?_ a2
    have hsd : w.step Step.destroy = some { w with lg := w.lg.destroy } := rfl
    have hod : ({ w with lg := w.lg.destroy } : World).lg._ofs ≠ none := by
      show w.lg.destroy._ofs ≠ none
      rw [(destroy_config w.lg).1]
      exact ho
    rw [openWrites_cons hsd]
    refine ⟨fun env h => (by cases h), ?_⟩
    cases hpc : w.th.pc with
    | head =>
      have hpcd : ({ w with lg := w.lg.destroy } : World).th.pc = Pc.head := hpc
      apply ow_drain hpcd hod e1 e2
      apply ow_writer e3 _ (Or.inl (drain_empty hid hpcd e1 e2).2.2.1)
      refine ow_writer e4 [] (Or.inl ?_) rfl
      rw [(settle (w := { w with lg := w.lg.destroy }) hid hpcd hrd e1 e2 e3).1]
      decide
    | writing =>
      have hpcd : ({ w with lg := w.lg.destroy } : World).th.pc = Pc.writing := hpc
      have hi1 := Inv_threadFunc_step hid e1
      have hpc1 : (World.threadFunc_step { w with lg := w.lg.destroy } e1).th.pc = Pc.head :=
        step_writing_pc hpcd e1
      apply ow_writer e1 _ (Or.inr hod)
      apply ow_drain hpc1 ?_ e2 e3
      · exact ow_writer e4 [] (Or.inl (drain_empty hi1 hpc1 e2 e3).2.2.1) rfl
      · rw [step_writing hpcd]
        exact hok hpc
    | exited => exact absurd hpc hloop

/-- C10, witness: `a.log` is opened with a threshold of 1 byte; two bytes are
appended, then the destructor runs.  The thread leaves the loop; the two bytes
have been written (the write rotates the file away). -/
theorem C10_shutdown_drains_witness :
    ∃ w4, ((((World.boot []).init "a.log" true).set_roll_size 1).run
          [Step.append [7, 8]]).bind
        (fun w => w.run [Step.destroy, Step.writer ⟨".20260101-000000", true, true⟩,
          Step.writer ⟨".20260101-000000", true, true⟩,
          Step.writer ⟨".20260101-000000", true, true⟩,
          Step.writer ⟨".20260101-000000", true, true⟩]) = some w4 ∧
      w4.th.pc = Pc.exited ∧
      (((World.boot []).init "a.log" true).set_roll_size 1).writtenBy
        ([Step.append [7, 8]]
          ++ [Step.destroy, Step.writer ⟨".20260101-000000", true, true⟩,
            Step.writer ⟨".20260101-000000", true, true⟩,
            Step.writer ⟨".20260101-000000", true, true⟩,
            Step.writer ⟨".20260101-000000", true, true⟩]) = [7, 8] := by
  obtain ⟨w4, h1, h2, _, _, _, h6⟩ :=
    C10_shutdown_drains (((World.boot []).init "a.log" true).set_roll_size 1)
      (((((World.boot []).init "a.log" true).set_roll_size 1).run
        [Step.append [7, 8]]).getD (World.boot []))
      [Step.append [7, 8]] _ ⟨".20260101-000000", true, true⟩
      ⟨".20260101-000000", true, true⟩ ⟨".20260101-000000", true, true⟩
      ⟨".20260101-000000", true, true⟩ ⟨rfl, rfl, rfl, rfl, rfl, rfl⟩ (by rfl) (by decide)
      rfl
  refine ⟨w4, h1, h2, ?_⟩
  exact (h6 (by
      intro d hd
      simp only [List.mem_singleton, Step.append.injEq] at hd
      subst hd; decide)).1 (by decide) (by intro h; exact absurd h (by decide))

/-- C10, counterexample.  A new logger with `a.log` open and a threshold of 1
byte.  First run: two bytes are appended, then the destructor runs and the
thread takes its steps until it has left the loop; the write of the two bytes
rotates: at exit the file `a.log` the stream is open on is empty.  Second run:
two bytes are appended and drained, which rotates; two more are appended and
the destructor runs within the same second; the rotation of the last drain
cycle replaces the rotated file of the first: at exit the bytes `[1, 2]`,
appended before shutdown began and written, are in no file on disk.  Third
run: the thread has drained two bytes into its list and is about to write them
when two more bytes are appended and the destructor runs; the write section
rotates and the reopening fails, so the last drain cycle drops the two bytes:
they are never written. -/
theorem C10_counterexample :
    ((((World.boot []).init "a.log" true).set_roll_size 1).run
        [Step.append [7, 8]]).map (fun w => (w.lg._ofs, w.th.pc))
      = some (some "a.log", Pc.head) ∧
    ((((World.boot []).init "a.log" true).set_roll_size 1).run
        [Step.append [7, 8], Step.destroy, Step.writer ⟨".20260101-000000", true, true⟩,
          Step.writer ⟨".20260101-000000", true, true⟩,
          Step.writer ⟨".20260101-000000", true, true⟩]).map
      (fun w => (w.th.pc, w.lg._ofs, w.file, w.fs))
      = some (Pc.exited, some "a.log", [],
          [("a.log.20260101-000000", [7, 8]), ("a.log", [])]) ∧
    ((((World.boot []).init "a.log" true).set_roll_size 1).run
        [Step.append [1, 2], Step.writer ⟨".20260101-000000", true, true⟩,
          Step.writer ⟨".20260101-000000", true, true⟩, Step.append [7, 8]]).map
      (fun w => (w.lg._ofs, w.th.pc, w.fs))
      = some (some "a.log", Pc.head, [("a.log.20260101-000000", [1, 2]), ("a.log", [])]) ∧
    ((((World.boot []).init "a.log" true).set_roll_size 1).run
        [Step.append [1, 2], Step.writer ⟨".20260101-000000", true, true⟩,
          Step.writer ⟨".20260101-000000", true, true⟩, Step.append [7, 8],
          Step.destroy, Step.writer ⟨".20260101-000000", true, true⟩,
          Step.writer ⟨".20260101-000000", true, true⟩,
          Step.writer ⟨".20260101-000000", true, true⟩]).map
      (fun w => (w.th.pc, w.lg._ofs, w.pending, w.fs))
      = some (Pc.exited, some "a.log", [],
          [("a.log.20260101-000000", [7, 8]), ("a.log", [])]) ∧
    (((World.boot []).init "a.log" true).set_roll_size 1).writtenBy
        [Step.append [1, 2], Step.writer ⟨".20260101-000000", true, true⟩,
          Step.writer ⟨".20260101-000000", true, true⟩, Step.append [7, 8],
          Step.destroy, Step.writer ⟨".20260101-000000", true, true⟩,
          Step.writer ⟨".20260101-000000", true, true⟩,
          Step.writer ⟨".20260101-000000", true, true⟩] = [1, 2, 7, 8] ∧
    ((((World.boot []).init "a.log" true).set_roll_size 1).run
        [Step.append [1, 2], Step.writer ⟨".20260101-000000", true, false⟩,
          Step.append [7, 8]]).map
      (fun w => (w.lg._ofs, w.th.pc)) = some (some "a.log", Pc.writing) ∧
    ((((World.boot []).init "a.log" true).set_roll_size 1).run
        [Step.append [1, 2], Step.writer ⟨".20260101-000000", true, false⟩,
          Step.append [7, 8], Step.destroy, Step.writer ⟨".20260101-000000", true, false⟩,
          Step.writer ⟨".20260101-000001", true, true⟩,
          Step.writer ⟨".20260101-000001", true, true⟩,
          Step.writer ⟨".20260101-000001", true, true⟩]).map
      (fun w => (w.th.pc, w.lg._ofs, w.pending, w.fs))
      = some (Pc.exited, none, [], [("a.log.20260101-000000", [1, 2])]) ∧
    (((World.boot []).init "a.log" true).set_roll_size 1).writtenBy
        [Step.append [1, 2], Step.writer ⟨".20260101-000000", true, false⟩,
          Step.append [7, 8], Step.destroy, Step.writer ⟨".20260101-000000", true, false⟩,
          Step.writer ⟨".20260101-000001", true, true⟩,
          Step.writer ⟨".20260101-000001", true, true⟩,
          Step.writer ⟨".20260101-000001", true, true⟩] = [1, 2] := by
  refine ⟨by decide, by rfl, by rfl, by rfl, by decide, by decide, by rfl, by decide⟩

end turbolog
